import Mathlib

/-!
# busybox `unzstd` glue: the streaming driver and its sink

Shallow embedding of

* `archival/libarchive/decompress_unzstd.c`: `roundupsize`,
  `unpack_zstd_stream_inner`, `unpack_zstd_stream`;
* `archival/libarchive/zstd/test/test_zstd.c`: `safe_read`,
  `transformer_write`, `xtransformer_write`.

The zstd engine (`ZSTD_decompressStream`, `ZSTD_isError`, the constants
`ZSTD_error_maxCode`, `ZSTD_MAGIC`, `ZSTD_DStreamInSize()`,
`ZSTD_DStreamOutSize()`) and the system calls `read(2)` / `write(2)` are
not part of the two files; they are parameters of the embedding.

`size_t` is a natural number reduced modulo `2 ^ 64`; `ssize_t`, `int`
and `long long` are integers.  Loops that the C code writes as `for (;;)`
or `while` take a fuel argument and return `none` when it runs out.
-/

namespace Unzstd

/-! ## Machine integers and memory -/

/-- A byte of memory. -/
abbrev Byte := Nat

/-- The modulus of `size_t` arithmetic. -/
def SIZE_MOD : Nat := 2 ^ 64

/-- The conversion `(ssize_t)n` of a `size_t` value. -/
def ssize_of (n : Nat) : Int :=
  if n % SIZE_MOD < 2 ^ 63 then ((n % SIZE_MOD : Nat) : Int)
  else ((n % SIZE_MOD : Nat) : Int) - (2 ^ 64 : Int)

/-- The conversion `(size_t)n` of a signed value. -/
def size_of_int (n : Int) : Nat := (n % (2 ^ 64 : Int)).toNat

/-- The value of `errno` that marks an interrupted system call. -/
def EINTR : Nat := 4

/-- `memcpy(dst + off, src, |src|)` on a region `dst`. -/
def memcpy (dst : List Byte) (off : Nat) (src : List Byte) : List Byte :=
  dst.take off ++ src ++ dst.drop (off + src.length)

/-- `realloc(p, n)`, taken to succeed: the old contents up to `n` bytes,
the fresh bytes indeterminate (`junk i` at index `i`); `p = none` is the
null pointer. -/
def realloc (junk : Nat → Byte) (p : Option (List Byte)) (n : Nat) : List Byte :=
  (List.range n).map (fun i => if i < (p.getD []).length then (p.getD []).getD i 0 else junk i)

/-- The four bytes of a 32-bit value in host byte order. -/
def u32_bytes (bigEndian : Bool) (v : Nat) : List Byte :=
  let le := [v % 256, v / 256 % 256, v / 65536 % 256, v / 16777216 % 256]
  if bigEndian then le.reverse else le

/-! ## System calls -/

/-- What one call of `read(2)` gives: `n >= 0` bytes stored at the
destination, or `-1` with `errno` set. -/
inductive ReadResult where
  | bytes (bs : List Byte)
  | error (errno : Nat)
  deriving DecidableEq, Repr

/-- The value `n` that `read` / `safe_read` return. -/
def ReadResult.n : ReadResult → Int
  | .bytes bs => (bs.length : Int)
  | .error _ => -1

/-- The operating system as the two files see it: `read(fd, buf, count)`
on the source descriptor and `write(fd, buf, n)` on the destination,
each a transition of the descriptor's state. -/
structure Sys (σ τ : Type) where
  read : σ → Nat → ReadResult × σ
  write : τ → List Byte → Int × τ

/-- The outcome of a call that may `abort()`. -/
inductive Outcome (α : Type) where
  | ret (v : α)
  | abort
  deriving DecidableEq, Repr

/-! ## `test_zstd.c` -/

/-- `safe_read`: `read` again while it fails with `errno == EINTR`.
The state is the descriptor and `errno`; the result is `read`'s last
outcome. -/
def safe_read {σ τ : Type} (sys : Sys σ τ) : Nat → σ → Nat → Nat → Option (ReadResult × σ × Nat)
  | 0, _, _, _ => none
  | fuel + 1, fd, errno, count =>
    match sys.read fd count with
    | (.bytes bs, fd1) => some (.bytes bs, fd1, errno)
    | (.error e, fd1) =>
      if e ≠ EINTR then some (.error e, fd1, e)
      else safe_read sys fuel fd1 0 count

/-- The fields of `transformer_state_t` that the two files use. -/
structure transformer_state_t (σ τ : Type) where
  signature_skipped : Bool
  src_fd : σ
  dst_fd : τ
  mem_output_size_max : Nat
  mem_output_size : Nat
  mem_output_buf : Option (List Byte)

/-- `transformer_write`: the bounded in-memory sink when
`mem_output_size_max != 0`, the destination descriptor otherwise. -/
def transformer_write {σ τ : Type} (sys : Sys σ τ) (junk : Nat → Byte)
    (xstate : transformer_state_t σ τ) (buf : List Byte) :
    Outcome Int × transformer_state_t σ τ :=
  let bufsize := buf.length % SIZE_MOD
  if xstate.mem_output_size_max ≠ 0 then
    let pos := xstate.mem_output_size
    let size := (xstate.mem_output_size + bufsize) % SIZE_MOD
    let x1 := { xstate with mem_output_size := size }
    if size > x1.mem_output_size_max then
      (.abort, { x1 with mem_output_buf := none })
    else
      let b1 := realloc junk x1.mem_output_buf ((size + 1) % SIZE_MOD)
      let b2 := memcpy b1 pos buf
      let b3 := b2.set size 0
      (.ret (ssize_of bufsize), { x1 with mem_output_buf := some b3 })
  else
    let r := sys.write xstate.dst_fd buf
    let x1 := { xstate with dst_fd := r.2 }
    if r.1 ≠ ssize_of bufsize then (.abort, x1)
    else (.ret r.1, x1)

/-- `xtransformer_write`: `transformer_write`, aborting on a short write. -/
def xtransformer_write {σ τ : Type} (sys : Sys σ τ) (junk : Nat → Byte)
    (xstate : transformer_state_t σ τ) (buf : List Byte) :
    Outcome Int × transformer_state_t σ τ :=
  match transformer_write sys junk xstate buf with
  | (.abort, x1) => (.abort, x1)
  | (.ret nwrote, x1) =>
    if nwrote ≠ ssize_of (buf.length % SIZE_MOD) then (.abort, x1)
    else (.ret nwrote, x1)

/-- A sequence of `transformer_write` calls on one session, stopped by
the first `abort()`; the values returned, in call order. -/
def transformer_write_all {σ τ : Type} (sys : Sys σ τ) (junk : Nat → Byte) :
    transformer_state_t σ τ → List (List Byte) → Outcome (List Int) × transformer_state_t σ τ
  | xstate, [] => (.ret [], xstate)
  | xstate, w :: ws =>
    match transformer_write sys junk xstate w with
    | (.abort, x1) => (.abort, x1)
    | (.ret n, x1) =>
      match transformer_write_all sys junk x1 ws with
      | (.abort, x2) => (.abort, x2)
      | (.ret ns, x2) => (.ret (n :: ns), x2)

/-- A sequence of `xtransformer_write` calls on one session, stopped by
the first `abort()`; the values returned, in call order. -/
def xtransformer_write_all {σ τ : Type} (sys : Sys σ τ) (junk : Nat → Byte) :
    transformer_state_t σ τ → List (List Byte) → Outcome (List Int) × transformer_state_t σ τ
  | xstate, [] => (.ret [], xstate)
  | xstate, w :: ws =>
    match xtransformer_write sys junk xstate w with
    | (.abort, x1) => (.abort, x1)
    | (.ret n, x1) =>
      match xtransformer_write_all sys junk x1 ws with
      | (.abort, x2) => (.abort, x2)
      | (.ret ns, x2) => (.ret (n :: ns), x2)

/-- The destination descriptor after `write` was called on it with each
of the chunks in turn. -/
def write_all {σ τ : Type} (sys : Sys σ τ) : τ → List (List Byte) → τ
  | d, [] => d
  | d, w :: ws => write_all sys (sys.write d w).2 ws

/-! ## `decompress_unzstd.c` -/

/-- `a + b` on `size_t`. -/
def add_sz (a b : Nat) : Nat := (a + b) % SIZE_MOD

/-- `a - b` on `size_t`. -/
def sub_sz (a b : Nat) : Nat := (a % SIZE_MOD + SIZE_MOD - b % SIZE_MOD) % SIZE_MOD

/-- `~a` on `size_t`. -/
def not_sz (a : Nat) : Nat := SIZE_MOD - 1 - a % SIZE_MOD

/-- `roundupsize`: `(size + align - 1U) & ~(align - 1)` on `size_t`. -/
def roundupsize (size align : Nat) : Nat :=
  (sub_sz (add_sz size align) 1) &&& (not_sz (sub_sz align 1))

/-- `ZSTD_inBuffer`: `src` holds the `size` bytes of the window. -/
structure ZSTD_inBuffer where
  src : List Byte
  size : Nat
  pos : Nat
  deriving DecidableEq, Repr

/-- `ZSTD_outBuffer` as the engine receives it (the bytes at `dst` are
what the engine produces). -/
structure ZSTD_outBuffer where
  size : Nat
  pos : Nat
  deriving DecidableEq, Repr

/-- What one call of `ZSTD_decompressStream` leaves behind: its return
value, the context, the bytes `output.dst[0 .. output.pos)` and
`input.pos`. -/
structure DecompressResult (D : Type) where
  result : Nat
  dctx : D
  dst : List Byte
  pos : Nat

/-- The zstd library as `decompress_unzstd.c` uses it. -/
structure Zstd (D : Type) where
  ZSTD_createDStream : Option D
  ZSTD_decompressStream : D → ZSTD_outBuffer → ZSTD_inBuffer → DecompressResult D
  ZSTD_isError : Nat → Bool
  ZSTD_error_maxCode : Nat
  ZSTD_MAGIC : Nat
  ZSTD_DStreamInSize : Nat
  ZSTD_DStreamOutSize : Nat

/-- The calls the driver makes, in order: `safe_read(src_fd, in_buff + off,
count)` with its result, `ZSTD_decompressStream` with the windows it was
given and what it left, `xtransformer_write(xstate, output.dst,
output.pos)` with the bytes passed. -/
inductive Event where
  | read (off count : Nat) (r : ReadResult)
  | step (input : ZSTD_inBuffer) (output : ZSTD_outBuffer)
      (result : Nat) (dst : List Byte) (pos : Nat)
  | write (bs : List Byte)
  deriving DecidableEq, Repr

/-- The variables of `unpack_zstd_stream_inner`, with `errno`. -/
structure Vars (σ τ D : Type) where
  xstate : transformer_state_t σ τ
  errno : Nat
  dctx : D
  in_buff : List Byte
  total : Int
  last_result : Nat
  input_fixup : Nat

/-- How the `while (input.pos < input.size)` loop is left. -/
inductive InnerExit where
  | done
  | has_error
  | aborted
  deriving DecidableEq, Repr

/-- The build and the platform: `IF_DESKTOP`, the host byte order, the
contents of freshly allocated memory. -/
structure Build where
  desktop : Bool
  bigEndian : Bool
  junk : Nat → Byte

section driver

variable {σ τ D : Type} (sys : Sys σ τ) (Z : Zstd D) (B : Build)

/-- The code after the outer loop: `-1` unless `last_result == 0`. -/
def finish (v : Vars σ τ D) : Int :=
  if v.last_result ≠ 0 then -1
  else (if B.desktop then v.total else 0) + 0

/-- The loop `while (input.pos < input.size)`. -/
def decode_loop (out_allocsize : Nat) :
    Nat → ZSTD_inBuffer → Vars σ τ D → Option (InnerExit × Vars σ τ D × List Event)
  | 0, _, _ => none
  | fuel + 1, input, v =>
    if input.pos < input.size then
      let output : ZSTD_outBuffer := { size := out_allocsize, pos := 0 }
      let r := Z.ZSTD_decompressStream v.dctx output input
      let v1 := { v with dctx := r.dctx, last_result := r.result }
      let ev := Event.step input output r.result r.dst r.pos
      if Z.ZSTD_isError r.result then some (.has_error, v1, [ev])
      else
        match xtransformer_write sys B.junk v1.xstate r.dst with
        | (.abort, x) => some (.aborted, { v1 with xstate := x }, [ev, .write r.dst])
        | (.ret _, x) =>
          let v2 := { v1 with
            xstate := x
            total := if B.desktop then ssize_of (size_of_int v1.total + r.dst.length)
                     else v1.total }
          (decode_loop out_allocsize fuel { input with pos := r.pos } v2).map
            fun q => (q.1, q.2.1, ev :: .write r.dst :: q.2.2)
    else some (.done, v, [])

/-- The loop `for (;;)` and the code after it. -/
def read_loop (in_allocsize out_allocsize : Nat) :
    Nat → Vars σ τ D → Option (Outcome Int × Vars σ τ D × List Event)
  | 0, _ => none
  | fuel + 1, v =>
    let count := sub_sz in_allocsize v.input_fixup
    match safe_read sys fuel v.xstate.src_fd v.errno count with
    | none => none
    | some (.error e, fd, errno) =>
      some (.ret (-1), { v with xstate := { v.xstate with src_fd := fd }, errno := errno },
        [.read v.input_fixup count (.error e)])
    | some (.bytes bs, fd, errno) =>
      let v1 := { v with
        xstate := { v.xstate with src_fd := fd }
        errno := errno
        in_buff := memcpy v.in_buff v.input_fixup bs }
      let ev := Event.read v.input_fixup count (.bytes bs)
      if bs.length = 0 then some (.ret (finish B v1), v1, [ev])
      else
        let size := add_sz bs.length v.input_fixup
        let input : ZSTD_inBuffer := { src := v1.in_buff.take size, size := size, pos := 0 }
        let v2 := { v1 with input_fixup := 0 }
        match decode_loop sys Z B out_allocsize fuel input v2 with
        | none => none
        | some (.aborted, v3, evs) => some (.abort, v3, ev :: evs)
        | some (.has_error, v3, evs) => some (.ret (finish B v3), v3, ev :: evs)
        | some (.done, v3, evs) =>
          (read_loop in_allocsize out_allocsize fuel v3).map
            fun q => (q.1, q.2.1, ev :: (evs ++ q.2.2))

/-- `unpack_zstd_stream_inner`; `in_region` is the memory at
`out_buff + out_allocsize`. -/
def unpack_zstd_stream_inner (fuel : Nat) (xstate : transformer_state_t σ τ) (errno : Nat)
    (dctx : D) (in_region : List Byte) :
    Option (Outcome Int × Vars σ τ D × List Event) :=
  let in_allocsize := roundupsize Z.ZSTD_DStreamInSize 1024
  let out_allocsize := roundupsize Z.ZSTD_DStreamOutSize 1024
  read_loop sys Z B in_allocsize out_allocsize fuel
    { xstate := xstate
      errno := errno
      dctx := dctx
      in_buff := memcpy in_region 0 (u32_bytes B.bigEndian Z.ZSTD_MAGIC)
      total := 0
      last_result := (Z.ZSTD_error_maxCode + 1) % SIZE_MOD
      input_fixup := if xstate.signature_skipped then 4 else 0 }

/-- `unpack_zstd_stream`: the value returned (or `abort`), the session
state afterwards and the calls made.  `bb_die_memory_exhausted` is the
`abort` of `test_zstd.c`; `xmalloc` is taken to succeed, and the memory
it returns holds `B.junk`. -/
def unpack_zstd_stream (fuel : Nat) (xstate : transformer_state_t σ τ) (errno : Nat) :
    Option (Outcome Int × transformer_state_t σ τ × List Event) :=
  let in_allocsize := roundupsize Z.ZSTD_DStreamInSize 1024
  match Z.ZSTD_createDStream with
  | none => some (.abort, xstate, [])
  | some dctx =>
    (unpack_zstd_stream_inner sys Z B fuel xstate errno dctx
        ((List.range in_allocsize).map B.junk)).map
      fun q => (q.1, q.2.1.xstate, q.2.2)

end driver

/-! ## Assumptions on the environment and observations of a run -/

/-- The source ends: `μ` measures the descriptor's state, and every
`read` that is retried (`EINTR`) or delivers at least one byte makes it
smaller. -/
def SourceEnds {σ τ : Type} (sys : Sys σ τ) (μ : σ → Nat) : Prop :=
  ∀ fd count,
    ((sys.read fd count).1 = .error EINTR → μ (sys.read fd count).2 < μ fd) ∧
    (∀ bs, (sys.read fd count).1 = .bytes bs → bs ≠ [] → μ (sys.read fd count).2 < μ fd)

/-- The engine progresses: `ν` measures the context and the input
window, and every decode step that is not an error makes it smaller. -/
def EngineProgresses {D : Type} (Z : Zstd D) (ν : D → ZSTD_inBuffer → Nat) : Prop :=
  ∀ d output input, input.pos < input.size →
    Z.ZSTD_isError (Z.ZSTD_decompressStream d output input).result = false →
    ν (Z.ZSTD_decompressStream d output input).dctx
        { input with pos := (Z.ZSTD_decompressStream d output input).pos } < ν d input

/-- The source keeps the contract of `read`: never more bytes than asked for. -/
def SourceBounded {σ τ : Type} (sys : Sys σ τ) : Prop :=
  ∀ fd count bs, (sys.read fd count).1 = .bytes bs → bs.length ≤ count

/-- The status of the last decode step of a run, if there was one. -/
def lastStep : List Event → Option Nat
  | [] => none
  | e :: es =>
    match lastStep es with
    | some s => some s
    | none =>
      match e with
      | .step _ _ result _ _ => some result
      | _ => none

/-- The chunks passed to `xtransformer_write`, in call order. -/
def writes : List Event → List (List Byte)
  | [] => []
  | .write bs :: es => bs :: writes es
  | _ :: es => writes es

/-- The bytes each decode step produced (`output.dst[0 .. output.pos)`),
in call order. -/
def produced : List Event → List (List Byte)
  | [] => []
  | .step _ _ _ dst _ :: es => dst :: produced es
  | _ :: es => produced es

/-- The decode steps of a run, in call order. -/
def steps : List Event → List Event
  | [] => []
  | .step input output result dst pos :: es => .step input output result dst pos :: steps es
  | _ :: es => steps es

/-- The event is a decode step whose status is an error. -/
def isErrorStep {D : Type} (Z : Zstd D) : Event → Bool
  | .step _ _ result _ _ => Z.ZSTD_isError result
  | _ => false

/-- The event does not end the run: a read that delivered bytes, a
decode step that is not an error, a write. -/
def calm {D : Type} (Z : Zstd D) : Event → Bool
  | .read _ _ (.bytes bs) => decide (bs.length ≠ 0)
  | .read _ _ (.error _) => false
  | .step _ _ result _ _ => !Z.ZSTD_isError result
  | .write _ => true

/-- The event is a `safe_read` that returned `0`. -/
def isEof : Event → Bool
  | .read _ _ (.bytes bs) => decide (bs.length = 0)
  | _ => false

/-- The event is a `safe_read`. -/
def isRead : Event → Bool
  | .read _ _ _ => true
  | _ => false

/-- What follows a call, read off the calls from it on (`N` the size of
the input region, `out` that of the output region): a read asks for the
rest of the region past its offset, and when it delivered bytes a decode
step on a window of that many bytes plus the offset follows, at
position `0`; a decode step gets a fresh output window of the whole
output region and an input window with unconsumed bytes, not larger than
the input region; when it is not an error its output is written, and
then (unless the write ended the run) comes a step at the position it
left on the same window if that has unconsumed bytes, a read at offset
`0` of the whole region otherwise. -/
def localOK {D : Type} (Z : Zstd D) (N out : Nat) : List Event → Prop
  | .read off count r :: rest =>
    off + count = N ∧
    ∀ bs, r = .bytes bs → bs.length ≠ 0 →
      ∃ i o rs d p rest1, rest = .step i o rs d p :: rest1 ∧
        i.pos = 0 ∧ i.size = bs.length + off
  | .step i o rs d p :: rest =>
    o = { size := out, pos := 0 } ∧ i.pos < i.size ∧ i.size ≤ N ∧
    (Z.ZSTD_isError rs = true → rest = []) ∧
    (Z.ZSTD_isError rs = false →
      ∃ rest1, rest = .write d :: rest1 ∧
        (rest1 = [] ∨
         (p < i.size ∧ ∃ o2 rs2 d2 p2 rest2,
            rest1 = .step { i with pos := p } o2 rs2 d2 p2 :: rest2) ∨
         (¬ p < i.size ∧ ∃ r2 rest2, rest1 = .read 0 N r2 :: rest2)))
  | _ => True

/-- Every suffix of `l` satisfies `P`. -/
def Suffixes {α : Type} (P : List α → Prop) (l : List α) : Prop :=
  ∀ pre suf, l = pre ++ suf → P suf

/-- What a session shows outside the reads: the value returned, the
decode steps with their input windows, the chunks written, the sink. -/
def observation {σ τ : Type} (q : Outcome Int × transformer_state_t σ τ × List Event) :
    Outcome Int × List Event × List (List Byte) × τ × Nat × Option (List Byte) :=
  (q.1, steps q.2.2, writes q.2.2, q.2.1.dst_fd, q.2.1.mem_output_size, q.2.1.mem_output_buf)

/-- The session `x` reading the untouched stream `s`. -/
def untouchedState {τ : Type} (x : transformer_state_t (List Byte) τ) (s : List Byte) :
    transformer_state_t (List Byte) τ :=
  { x with signature_skipped := false, src_fd := s }

/-- The session `x` reading the stream without its signature, with
`signature_skipped` set. -/
def strippedState {τ : Type} (x : transformer_state_t (List Byte) τ) (rest : List Byte) :
    transformer_state_t (List Byte) τ :=
  { x with signature_skipped := true, src_fd := rest }

/-- The variables with `signature_skipped` set to `b`. -/
def withSkip {σ τ D : Type} (b : Bool) (v : Vars σ τ D) : Vars σ τ D :=
  { v with xstate := { v.xstate with signature_skipped := b } }

/-- The session `x` with the source descriptor in the state `fd`. -/
def withSrc {σ τ : Type} (fd : σ) (x : transformer_state_t σ τ) : transformer_state_t σ τ :=
  { x with src_fd := fd }

/-- The engine decodes a frame, seen through the output window the
driver hands it (`{out_buff, out_allocsize, 0}`, a fresh window of `out`
bytes at every step): `Decodes Z out d0 d r p` says that in the context
`d` the bytes `r` of the frame are still to be consumed and the
plaintext `p` is still to be produced.  On every input window whose
unconsumed bytes are the beginning of `r` followed by anything, a decode
step with that output window is not an error, moves `input.pos` forward
within the window and not past the end of the frame, and produces the
next bytes of `p`, not more than the `out` bytes the output window
holds; when it consumes the last byte of the frame it returns `0`, has
produced all of `p` and leaves the context reset to `d0`; otherwise it
returns a status other than `0` and decodes the rest of the frame from
the context it leaves. -/
inductive Decodes {D : Type} (Z : Zstd D) (out : Nat) (d0 : D) :
    D → List Byte → List Byte → Prop where
  | intro (d : D) (r p : List Byte)
      (hr : r ≠ [])
      (hstep : ∀ (input : ZSTD_inBuffer) (T S : List Byte),
        input.size = input.src.length → input.pos < input.size →
        input.src.drop input.pos ++ T = r ++ S →
        Z.ZSTD_isError (Z.ZSTD_decompressStream d { size := out, pos := 0 } input).result
          = false ∧
        input.pos ≤ (Z.ZSTD_decompressStream d { size := out, pos := 0 } input).pos ∧
        (Z.ZSTD_decompressStream d { size := out, pos := 0 } input).pos ≤ input.size ∧
        (Z.ZSTD_decompressStream d { size := out, pos := 0 } input).pos - input.pos
          ≤ r.length ∧
        (Z.ZSTD_decompressStream d { size := out, pos := 0 } input).dst ++
          p.drop (Z.ZSTD_decompressStream d { size := out, pos := 0 } input).dst.length = p ∧
        ((Z.ZSTD_decompressStream d { size := out, pos := 0 } input).pos - input.pos
            = r.length →
          (Z.ZSTD_decompressStream d { size := out, pos := 0 } input).result = 0 ∧
          (Z.ZSTD_decompressStream d { size := out, pos := 0 } input).dst = p ∧
          (Z.ZSTD_decompressStream d { size := out, pos := 0 } input).dctx = d0) ∧
        ((Z.ZSTD_decompressStream d { size := out, pos := 0 } input).pos - input.pos
            < r.length →
          (Z.ZSTD_decompressStream d { size := out, pos := 0 } input).result ≠ 0) ∧
        (Z.ZSTD_decompressStream d { size := out, pos := 0 } input).dst.length ≤ out)
      (hrec : ∀ (input : ZSTD_inBuffer) (T S : List Byte),
        input.size = input.src.length → input.pos < input.size →
        input.src.drop input.pos ++ T = r ++ S →
        (Z.ZSTD_decompressStream d { size := out, pos := 0 } input).pos - input.pos
          < r.length →
        Decodes Z out d0 (Z.ZSTD_decompressStream d { size := out, pos := 0 } input).dctx
          (r.drop ((Z.ZSTD_decompressStream d { size := out, pos := 0 } input).pos
            - input.pos))
          (p.drop (Z.ZSTD_decompressStream d { size := out, pos := 0 } input).dst.length)) :
      Decodes Z out d0 d r p

/-- The variables after decode steps that left the context `d` and the
status `lr` and whose outputs `o` were written to a destination that
takes every byte. -/
def adv {σ D : Type} (B : Build) (v : Vars σ (List Byte) D) (d : D) (lr : Nat)
    (o : List Byte) : Vars σ (List Byte) D :=
  { v with
    dctx := d
    last_result := lr
    xstate := { v.xstate with dst_fd := v.xstate.dst_fd ++ o }
    total := if B.desktop then v.total + (o.length : Int) else v.total }

/-- The running `total += output.pos` over the chunks, from `t`. -/
def totalAfter (t : Int) : List (List Byte) → Int
  | [] => t
  | w :: ws => totalAfter (ssize_of (size_of_int t + w.length)) ws

/-! ## Names for the pieces of one iteration -/

section pieces

variable {σ τ D : Type} (Z : Zstd D) (B : Build) (inn out : Nat)

/-- The result of the decode step taken from `input` with the variables `v`. -/
abbrev stepRes (input : ZSTD_inBuffer) (v : Vars σ τ D) : DecompressResult D :=
  Z.ZSTD_decompressStream v.dctx { size := out, pos := 0 } input

/-- The record of that step. -/
abbrev stepEv (input : ZSTD_inBuffer) (v : Vars σ τ D) : Event :=
  .step input { size := out, pos := 0 } (stepRes Z out input v).result
    (stepRes Z out input v).dst (stepRes Z out input v).pos

/-- The variables after the step. -/
abbrev afterStep (input : ZSTD_inBuffer) (v : Vars σ τ D) : Vars σ τ D :=
  { v with dctx := (stepRes Z out input v).dctx, last_result := (stepRes Z out input v).result }

/-- The variables after the step and a successful write. -/
abbrev afterWrite (input : ZSTD_inBuffer) (v : Vars σ τ D) (x : transformer_state_t σ τ) :
    Vars σ τ D :=
  { v with
    dctx := (stepRes Z out input v).dctx
    last_result := (stepRes Z out input v).result
    xstate := x
    total := if B.desktop then
        ssize_of (size_of_int v.total + (stepRes Z out input v).dst.length)
      else v.total }

/-- The variables after a failed `safe_read`. -/
abbrev afterReadErr (v : Vars σ τ D) (fd : σ) (errno : Nat) : Vars σ τ D :=
  { v with xstate := { v.xstate with src_fd := fd }, errno := errno }

/-- The variables after a `safe_read` that stored `bs`. -/
abbrev afterRead (v : Vars σ τ D) (fd : σ) (errno : Nat) (bs : List Byte) : Vars σ τ D :=
  { v with
    xstate := { v.xstate with src_fd := fd }
    errno := errno
    in_buff := memcpy v.in_buff v.input_fixup bs }

/-- The variables when the decode loop is entered. -/
abbrev atDecode (v : Vars σ τ D) (fd : σ) (errno : Nat) (bs : List Byte) : Vars σ τ D :=
  { v with
    xstate := { v.xstate with src_fd := fd }
    errno := errno
    in_buff := memcpy v.in_buff v.input_fixup bs
    input_fixup := 0 }

/-- The input window set up after a `safe_read` that stored `bs`. -/
abbrev window (v : Vars σ τ D) (bs : List Byte) : ZSTD_inBuffer :=
  { src := (memcpy v.in_buff v.input_fixup bs).take (add_sz bs.length v.input_fixup)
    size := add_sz bs.length v.input_fixup
    pos := 0 }

/-- The record of a `safe_read`. -/
abbrev readEv (v : Vars σ τ D) (r : ReadResult) : Event :=
  .read v.input_fixup (sub_sz inn v.input_fixup) r

/-- The variables when the read loop is entered. -/
abbrev initVars {σ τ : Type} (xstate : transformer_state_t σ τ) (errno : Nat) (dctx : D) :
    Vars σ τ D :=
  { xstate := xstate
    errno := errno
    dctx := dctx
    in_buff := memcpy ((List.range (roundupsize Z.ZSTD_DStreamInSize 1024)).map B.junk) 0
      (u32_bytes B.bigEndian Z.ZSTD_MAGIC)
    total := 0
    last_result := (Z.ZSTD_error_maxCode + 1) % SIZE_MOD
    input_fixup := if xstate.signature_skipped then 4 else 0 }

/-- The value `unpack_zstd_stream` returns at end-of-input, from the
status of the last decode step and the chunks written. -/
def eofValue (last : Option Nat) (ws : List (List Byte)) : Int :=
  if last.getD ((Z.ZSTD_error_maxCode + 1) % SIZE_MOD) ≠ 0 then -1
  else (if B.desktop then totalAfter 0 ws else 0) + 0

end pieces

/-! ## Concrete instances used to exercise the embedding -/

/-- A source holding the bytes still to be read, of which `read`
delivers `min(count, remaining)`, with any destination. -/
def chunkSys {τ : Type} (write : τ → List Byte → Int × τ) : Sys (List Byte) τ where
  read := fun s count => (.bytes (s.take count), s.drop count)
  write := write

/-- The source of `chunkSys` with a destination that takes every byte. -/
def bytesSys : Sys (List Byte) (List Byte) :=
  chunkSys fun d bs => ((bs.length : Int), d ++ bs)

/-- A source whose every `read` fails with `errno` 5 (`EIO`). -/
def failSys : Sys Unit (List Byte) where
  read := fun _ _ => (.error 5, ())
  write := fun d bs => ((bs.length : Int), d ++ bs)

/-- A session on `failSys`. -/
def failState : transformer_state_t Unit (List Byte) where
  signature_skipped := false
  src_fd := ()
  dst_fd := []
  mem_output_size_max := 0
  mem_output_size := 0
  mem_output_buf := none

/-- A toy engine: one byte per step, copied to the output; the byte `0`
ends a frame (status `0`), the byte `255` is an error, every other byte
gives status `1`.  With no room in the output window it consumes and
produces nothing. -/
def toyZstd : Zstd Unit where
  ZSTD_createDStream := some ()
  ZSTD_decompressStream := fun _ output input =>
    let b := input.src.getD input.pos 0
    if output.size ≤ output.pos then
      { result := 1, dctx := (), dst := [], pos := input.pos }
    else
      { result := if b = 0 then 0 else if b = 255 then SIZE_MOD - 1 else 1
        dctx := ()
        dst := if b = 255 then [] else [b]
        pos := input.pos + 1 }
  ZSTD_isError := fun c => decide (c > SIZE_MOD - 121)
  ZSTD_error_maxCode := 120
  ZSTD_MAGIC := 0xFD2FB528
  ZSTD_DStreamInSize := 1000
  ZSTD_DStreamOutSize := 1024

/-- A desktop little-endian build whose fresh memory holds `0xAA`. -/
def toyBuild : Build where
  desktop := true
  bigEndian := false
  junk := fun _ => 170

/-- A session on `bytesSys` reading `input`, with the sink selected by `max`. -/
def toyState (skipped : Bool) (input : List Byte) (max : Nat) :
    transformer_state_t (List Byte) (List Byte) where
  signature_skipped := skipped
  src_fd := input
  dst_fd := []
  mem_output_size_max := max
  mem_output_size := 0
  mem_output_buf := none

/-- A source that replays a script of `read` outcomes, then is at
end-of-input. -/
def scriptSys : Sys (List ReadResult) (List Byte) where
  read := fun s _ =>
    match s with
    | [] => (.bytes [], [])
    | r :: rest => (r, rest)
  write := fun d bs => ((bs.length : Int), d ++ bs)

/-- A session on `scriptSys` whose source replays `script`, with the
destination descriptor as sink. -/
def scriptState (script : List ReadResult) :
    transformer_state_t (List ReadResult) (List Byte) where
  signature_skipped := false
  src_fd := script
  dst_fd := []
  mem_output_size_max := 0
  mem_output_size := 0
  mem_output_buf := none

/-! ## `safe_read` -/

section safe_read_lemmas

variable {σ τ : Type} (sys : Sys σ τ)

theorem safe_read_bytes (f : Nat) (fd fd1 : σ) (errno count : Nat) (bs : List Byte)
    (h : sys.read fd count = (.bytes bs, fd1)) :
    safe_read sys (f + 1) fd errno count = some (.bytes bs, fd1, errno) := by
  simp [safe_read, h]

theorem safe_read_error (f : Nat) (fd fd1 : σ) (errno count e : Nat)
    (h : sys.read fd count = (.error e, fd1)) (he : e ≠ EINTR) :
    safe_read sys (f + 1) fd errno count = some (.error e, fd1, e) := by
  simp [safe_read, h, he]

theorem safe_read_eintr (f : Nat) (fd fd1 : σ) (errno count : Nat)
    (h : sys.read fd count = (.error EINTR, fd1)) :
    safe_read sys (f + 1) fd errno count = safe_read sys f fd1 0 count := by
  simp [safe_read, h]

theorem safe_read_mono :
    ∀ (f : Nat) (fd : σ) (errno count : Nat) (r : ReadResult × σ × Nat),
      safe_read sys f fd errno count = some r →
      ∀ g, f ≤ g → safe_read sys g fd errno count = some r := by
  intro f
  induction f with
  | zero => intro fd errno count r h; simp [safe_read] at h
  | succ f ih =>
    intro fd errno count r h g hg
    obtain ⟨g, rfl⟩ : ∃ g', g = g' + 1 := ⟨g - 1, by omega⟩
    rcases hread : sys.read fd count with ⟨rr, fd1⟩
    cases rr with
    | bytes bs =>
      rw [safe_read_bytes sys _ _ _ _ _ _ hread] at h ⊢
      exact h
    | error e =>
      by_cases he : e = EINTR
      · subst he
        rw [safe_read_eintr sys _ _ _ _ _ hread] at h ⊢
        exact ih fd1 0 count r h g (by omega)
      · rw [safe_read_error sys _ _ _ _ _ _ hread he] at h ⊢
        exact h

theorem safe_read_not_eintr :
    ∀ (f : Nat) (fd : σ) (errno count e : Nat) (fd2 : σ) (errno2 : Nat),
      safe_read sys f fd errno count = some (.error e, fd2, errno2) →
      e ≠ EINTR ∧ errno2 = e := by
  intro f
  induction f with
  | zero => intro fd errno count e fd2 errno2 h; simp [safe_read] at h
  | succ f ih =>
    intro fd errno count e fd2 errno2 h
    rcases hread : sys.read fd count with ⟨rr, fd1⟩
    cases rr with
    | bytes bs =>
      rw [safe_read_bytes sys _ _ _ _ _ _ hread] at h
      simp at h
    | error e1 =>
      by_cases he : e1 = EINTR
      · subst he
        rw [safe_read_eintr sys _ _ _ _ _ hread] at h
        exact ih fd1 0 count e fd2 errno2 h
      · rw [safe_read_error sys _ _ _ _ _ _ hread he] at h
        simp only [Option.some.injEq, Prod.mk.injEq, ReadResult.error.injEq] at h
        obtain ⟨h1, -, h3⟩ := h
        subst h1
        exact ⟨he, h3.symm⟩

theorem safe_read_skip_eintr (fds : Nat → σ) (count : Nat) :
    ∀ (k f : Nat) (errno : Nat),
      (∀ i, i < k → sys.read (fds i) count = (.error EINTR, fds (i + 1))) →
      k ≤ f →
      safe_read sys f (fds 0) errno count
        = safe_read sys (f - k) (fds k) (if k = 0 then errno else 0) count := by
  intro k
  induction k generalizing fds with
  | zero => intro f errno _ _; simp
  | succ k ih =>
    intro f errno hintr hf
    obtain ⟨f, rfl⟩ : ∃ f', f = f' + 1 := ⟨f - 1, by omega⟩
    rw [safe_read_eintr sys _ _ _ _ _ (hintr 0 (by omega))]
    have := ih (fun i => fds (i + 1)) f 0 (fun i hi => hintr (i + 1) (by omega)) (by omega)
    simp only [zero_add] at this
    rw [this]
    have h1 : f + 1 - (k + 1) = f - k := by omega
    simp [h1]

/-- C9. `safe_read` is interruption-tolerant: when the underlying `read`
fails `k` times with `errno == EINTR` and then gives an outcome `r` that
is not such a failure, `safe_read` returns `r` (the byte count, `0` at
end-of-input, or `-1` with the `errno` of the failure) after exactly
`k + 1` reads: the descriptor is left as the `k + 1`-st read left it,
and `k` reads do not suffice.  No run of `safe_read` returns a failure
whose `errno` is `EINTR`. -/
theorem safe_read_retries (fds : Nat → σ) (k : Nat) (r : ReadResult) (fd1 : σ)
    (errno count fuel : Nat)
    (hintr : ∀ i, i < k → sys.read (fds i) count = (.error EINTR, fds (i + 1)))
    (hlast : sys.read (fds k) count = (r, fd1))
    (hr : r ≠ .error EINTR)
    (hfuel : k + 1 ≤ fuel) :
    (∃ errno1,
      safe_read sys fuel (fds 0) errno count = some (r, fd1, errno1) ∧
      (∀ e, r = .error e → e ≠ EINTR ∧ errno1 = e ∧ r.n = -1) ∧
      (∀ bs, r = .bytes bs → r.n = bs.length ∧ (r.n = 0 ↔ bs = []) ∧
        errno1 = if k = 0 then errno else 0)) ∧
    (∀ f, f ≤ k → safe_read sys f (fds 0) errno count = none) ∧
    (∀ (f : Nat) (fd : σ) (en cnt e : Nat) (fd2 : σ) (en2 : Nat),
      safe_read sys f fd en cnt = some (.error e, fd2, en2) → e ≠ EINTR) := by
  refine ⟨?_, ?_, ?_⟩
  · rw [safe_read_skip_eintr sys fds count k fuel errno hintr (by omega)]
    obtain ⟨g, hg⟩ : ∃ g, fuel - k = g + 1 := ⟨fuel - k - 1, by omega⟩
    rw [hg]
    cases r with
    | bytes bs =>
      refine ⟨_, safe_read_bytes sys _ _ _ _ _ _ hlast, ?_, ?_⟩
      · intro e he; cases he
      · intro bs1 hbs
        cases hbs
        refine ⟨rfl, ?_, rfl⟩
        simp [ReadResult.n]
    | error e =>
      have he : e ≠ EINTR := fun h => hr (by rw [h])
      refine ⟨_, safe_read_error sys _ _ _ _ _ _ hlast he, ?_, ?_⟩
      · intro e1 he1
        cases he1
        exact ⟨he, rfl, rfl⟩
      · intro bs hbs; cases hbs
  · intro f hf
    rw [safe_read_skip_eintr sys fds count f f errno
      (fun i hi => hintr i (by omega)) (le_refl _)]
    simp [safe_read]
  · intro f fd en cnt e fd2 en2 h
    exact (safe_read_not_eintr sys f fd en cnt e fd2 en2 h).1

end safe_read_lemmas

/-! ## `transformer_write` -/

section sink_lemmas

variable {σ τ : Type} (sys : Sys σ τ) (junk : Nat → Byte)

theorem ssize_of_small (n : Nat) (h : n < 2 ^ 63) : ssize_of n = (n : Int) := by
  have h1 : n % SIZE_MOD = n := Nat.mod_eq_of_lt (by unfold SIZE_MOD; omega)
  unfold ssize_of
  rw [h1, if_pos h]

theorem realloc_length (p : Option (List Byte)) (n : Nat) :
    (realloc junk p n).length = n := by
  simp [realloc]

theorem realloc_take (p : Option (List Byte)) (n s : Nat)
    (hs : s ≤ (p.getD []).length) (hn : s ≤ n) :
    (realloc junk p n).take s = (p.getD []).take s := by
  apply List.ext_getElem
  · simp [realloc, List.length_take]; omega
  · intro i h1 h2
    have hi : i < s := by
      simp only [List.length_take] at h2; omega
    have hi2 : i < (p.getD []).length := by omega
    rw [List.getElem_take, List.getElem_take]
    simp [realloc, hi2, List.getD_eq_getElem _ _ hi2]

theorem memcpy_length (dst src : List Byte) (off : Nat) (h : off + src.length ≤ dst.length) :
    (memcpy dst off src).length = dst.length := by
  simp [memcpy, List.length_take, List.length_drop]; omega

theorem memcpy_take (dst src : List Byte) (off : Nat) (h : off ≤ dst.length) :
    (memcpy dst off src).take (off + src.length) = dst.take off ++ src := by
  unfold memcpy
  apply List.take_left'
  simp [List.length_take]; omega

/-- The buffer after a successful bounded write: the old bytes, the new
bytes, one NUL. -/
theorem sink_buffer_after (p : Option (List Byte)) (b w : List Byte)
    (hb : (p.getD []).take b.length = b) :
    (memcpy (realloc junk p (b.length + w.length + 1)) b.length w).set (b.length + w.length) 0
      = b ++ w ++ [0] := by
  have hlen : b.length ≤ (p.getD []).length := by
    have := congrArg List.length hb
    simp only [List.length_take] at this
    omega
  have h1 : (realloc junk p (b.length + w.length + 1)).take b.length = b := by
    rw [realloc_take junk p _ _ hlen (by omega), hb]
  have h2 : ((realloc junk p (b.length + w.length + 1)).drop (b.length + w.length)).length = 1 := by
    simp [realloc_length]
  obtain ⟨c, hc⟩ := List.length_eq_one.mp h2
  unfold memcpy
  rw [h1, hc, List.set_append_right _ _ (by simp)]
  simp

theorem transformer_write_bounded_eq (x : transformer_state_t σ τ) (buf : List Byte)
    (hmax : x.mem_output_size_max ≠ 0)
    (hfit : x.mem_output_size + buf.length < SIZE_MOD) :
    transformer_write sys junk x buf =
      if x.mem_output_size_max < x.mem_output_size + buf.length then
        (.abort, { x with mem_output_size := x.mem_output_size + buf.length
                          mem_output_buf := none })
      else
        (.ret (ssize_of buf.length),
          { x with
            mem_output_size := x.mem_output_size + buf.length
            mem_output_buf := some ((memcpy (realloc junk x.mem_output_buf
              ((x.mem_output_size + buf.length + 1) % SIZE_MOD)) x.mem_output_size buf).set
                (x.mem_output_size + buf.length) 0) }) := by
  have h1 : buf.length % SIZE_MOD = buf.length := Nat.mod_eq_of_lt (by omega)
  have h2 : (x.mem_output_size + buf.length) % SIZE_MOD = x.mem_output_size + buf.length :=
    Nat.mod_eq_of_lt hfit
  simp only [transformer_write, h1, h2, hmax, ne_eq, not_false_eq_true, if_true, gt_iff_lt]

theorem transformer_write_ret_size (x x1 : transformer_state_t σ τ) (buf : List Byte) (n : Int)
    (hmax : x.mem_output_size_max ≠ 0)
    (h : transformer_write sys junk x buf = (.ret n, x1)) :
    x1.mem_output_size ≤ x1.mem_output_size_max ∧
      x1.mem_output_size_max = x.mem_output_size_max := by
  unfold transformer_write at h
  simp only [hmax, ne_eq, not_false_eq_true, if_true, gt_iff_lt] at h
  split at h
  · simp at h
  · rename_i hle
    simp only [Prod.mk.injEq, Outcome.ret.injEq] at h
    obtain ⟨-, rfl⟩ := h
    exact ⟨Nat.le_of_not_lt hle, rfl⟩

theorem transformer_write_all_size :
    ∀ (ws : List (List Byte)) (x x1 : transformer_state_t σ τ) (outs : List Int),
      x.mem_output_size_max ≠ 0 →
      transformer_write_all sys junk x ws = (.ret outs, x1) →
      x1.mem_output_size_max = x.mem_output_size_max ∧
      (ws ≠ [] ∨ x.mem_output_size ≤ x.mem_output_size_max →
        x1.mem_output_size ≤ x1.mem_output_size_max) := by
  intro ws
  induction ws with
  | nil =>
    intro x x1 outs _ h
    simp only [transformer_write_all, Prod.mk.injEq, Outcome.ret.injEq] at h
    obtain ⟨-, rfl⟩ := h
    exact ⟨rfl, fun h => h.elim (fun h => absurd rfl h) id⟩
  | cons w ws ih =>
    intro x x1 outs hmax h
    rw [transformer_write_all] at h
    rcases hw : transformer_write sys junk x w with ⟨o, x2⟩
    rw [hw] at h
    cases o with
    | abort => simp at h
    | ret n =>
      dsimp only at h
      rcases hws : transformer_write_all sys junk x2 ws with ⟨o2, x3⟩
      rw [hws] at h
      cases o2 with
      | abort => simp at h
      | ret ns =>
        simp only [Prod.mk.injEq, Outcome.ret.injEq] at h
        obtain ⟨-, rfl⟩ := h
        obtain ⟨h1, h2⟩ := transformer_write_ret_size sys junk x x2 w n hmax hw
        obtain ⟨h3, h4⟩ := ih x2 x3 ns (by rw [h2]; exact hmax) hws
        exact ⟨by rw [h3, h2], fun _ => h4 (Or.inr h1)⟩

/-- C6. Bounded sink enforcement: on a bounded sink
(`mem_output_size_max != 0`), for a write whose size fits the address
space next to the bytes already held, `transformer_write` aborts exactly
when the current size plus the length of the write exceeds the maximum
(a write that reaches the maximum exactly succeeds); when it aborts the
buffer has been freed and its pointer cleared, so no byte of the write
is appended, and `xtransformer_write` aborts too.  After every non-empty
sequence of successful writes the current size is at most the maximum,
which no write changes. -/
theorem transformer_write_cap (x : transformer_state_t σ τ) (buf : List Byte)
    (hmax : x.mem_output_size_max ≠ 0)
    (hfit : x.mem_output_size + buf.length < SIZE_MOD) :
    ((transformer_write sys junk x buf).1 = .abort ↔
      x.mem_output_size_max < x.mem_output_size + buf.length) ∧
    (x.mem_output_size + buf.length = x.mem_output_size_max →
      ∃ n, (transformer_write sys junk x buf).1 = .ret n) ∧
    ((transformer_write sys junk x buf).1 = .abort →
      (transformer_write sys junk x buf).2.mem_output_buf = none ∧
      xtransformer_write sys junk x buf =
        (.abort, (transformer_write sys junk x buf).2)) ∧
    (∀ (ws : List (List Byte)) (outs : List Int) (x1 : transformer_state_t σ τ),
      ws ≠ [] → transformer_write_all sys junk x ws = (.ret outs, x1) →
      x1.mem_output_size ≤ x1.mem_output_size_max ∧
      x1.mem_output_size_max = x.mem_output_size_max) := by
  have heq := transformer_write_bounded_eq sys junk x buf hmax hfit
  refine ⟨?_, ?_, ?_, ?_⟩
  · rw [heq]
    by_cases hc : x.mem_output_size_max < x.mem_output_size + buf.length
    · simp [hc]
    · simp [hc]
  · intro hc
    rw [heq, if_neg (by omega)]
    exact ⟨_, rfl⟩
  · intro hab
    rw [heq] at hab ⊢
    by_cases hc : x.mem_output_size_max < x.mem_output_size + buf.length
    · rw [if_pos hc]
      refine ⟨rfl, ?_⟩
      unfold xtransformer_write
      rw [heq, if_pos hc]
    · rw [if_neg hc] at hab
      simp at hab
  · intro ws outs x1 hne h
    obtain ⟨h1, h2⟩ := transformer_write_all_size sys junk ws x x1 outs hmax h
    exact ⟨h2 (Or.inl hne), h1⟩

theorem transformer_write_append_one (x : transformer_state_t σ τ) (b w : List Byte)
    (hmax : x.mem_output_size_max ≠ 0)
    (hb : b.length = x.mem_output_size)
    (hbuf : (x.mem_output_buf.getD []).take x.mem_output_size = b)
    (hcap : x.mem_output_size + w.length ≤ x.mem_output_size_max)
    (hterm : x.mem_output_size + w.length + 1 < SIZE_MOD)
    (hw : w.length < 2 ^ 63) :
    transformer_write sys junk x w =
      (.ret (w.length : Int),
        { x with mem_output_size := x.mem_output_size + w.length
                 mem_output_buf := some (b ++ w ++ [0]) }) := by
  rw [transformer_write_bounded_eq sys junk x w hmax (by omega), if_neg (by omega),
    ssize_of_small _ hw, Nat.mod_eq_of_lt hterm]
  have := sink_buffer_after junk x.mem_output_buf b w (by rw [hb]; exact hbuf)
  rw [hb] at this
  rw [this]

theorem transformer_write_all_append :
    ∀ (ws : List (List Byte)) (x : transformer_state_t σ τ) (b : List Byte),
      x.mem_output_size_max ≠ 0 →
      b.length = x.mem_output_size →
      (x.mem_output_buf.getD []).take x.mem_output_size = b →
      x.mem_output_size + ws.flatten.length ≤ x.mem_output_size_max →
      x.mem_output_size + ws.flatten.length + 1 < SIZE_MOD →
      (∀ w ∈ ws, w.length < 2 ^ 63) →
      ws ≠ [] →
      transformer_write_all sys junk x ws =
        (.ret (ws.map fun w => (w.length : Int)),
          { x with mem_output_size := x.mem_output_size + ws.flatten.length
                   mem_output_buf := some (b ++ ws.flatten ++ [0]) }) := by
  intro ws
  induction ws with
  | nil => intro x b _ _ _ _ _ _ h; exact absurd rfl h
  | cons w ws ih =>
    intro x b hmax hb hbuf hcap hterm hw _
    simp only [List.flatten_cons, List.length_append] at hcap hterm
    have h1 := transformer_write_append_one sys junk x b w hmax hb hbuf (by omega) (by omega)
      (hw w (List.mem_cons_self _ _))
    rw [transformer_write_all, h1]
    dsimp only
    by_cases hws : ws = []
    · subst hws
      simp [transformer_write_all]
    · have h2 := ih { x with mem_output_size := x.mem_output_size + w.length
                             mem_output_buf := some (b ++ w ++ [0]) } (b ++ w)
        hmax (by simp [hb])
        (by
          dsimp only [Option.getD_some]
          rw [← hb, ← List.length_append]
          exact List.take_left' rfl)
        (by dsimp only; omega) (by dsimp only; omega)
        (fun w1 hw1 => hw w1 (List.mem_cons_of_mem _ hw1)) hws
      rw [h2]
      simp [Nat.add_assoc]

/-- C7. Bounded sink append: on a bounded sink whose buffer holds the
`s = mem_output_size` bytes `b`, a write of `w` that stays within the
maximum (the sizes being representable: the buffer with its terminator
fits `size_t`, the write fits `ssize_t`) returns `|w|`, leaves
`mem_output_size = s + |w|` and the maximum as it was, and leaves the
buffer `b ++ w` followed by one NUL that is not counted.  A non-empty
sequence of such writes leaves the buffer equal to `b`, the
concatenation of the chunks, and one NUL. -/
theorem transformer_write_appends (x : transformer_state_t σ τ) (b w : List Byte)
    (ws : List (List Byte))
    (hmax : x.mem_output_size_max ≠ 0)
    (hb : b.length = x.mem_output_size)
    (hbuf : (x.mem_output_buf.getD []).take x.mem_output_size = b)
    (hcap : x.mem_output_size + (w :: ws).flatten.length ≤ x.mem_output_size_max)
    (hterm : x.mem_output_size + (w :: ws).flatten.length + 1 < SIZE_MOD)
    (hw : ∀ w1 ∈ w :: ws, w1.length < 2 ^ 63) :
    (∃ x1, transformer_write sys junk x w = (.ret (w.length : Int), x1) ∧
      x1.mem_output_buf = some (b ++ w ++ [0]) ∧
      (∀ buf1, x1.mem_output_buf = some buf1 →
        buf1.take (x.mem_output_size + w.length) = b ++ w ∧
        buf1.getD (x.mem_output_size + w.length) 1 = 0 ∧
        buf1.length = x.mem_output_size + w.length + 1) ∧
      x1.mem_output_size = x.mem_output_size + w.length ∧
      x1.mem_output_size_max = x.mem_output_size_max ∧
      xtransformer_write sys junk x w = (.ret (w.length : Int), x1)) ∧
    (∃ x2, transformer_write_all sys junk x (w :: ws) =
        (.ret ((w :: ws).map fun w1 => (w1.length : Int)), x2) ∧
      x2.mem_output_buf = some (b ++ (w :: ws).flatten ++ [0]) ∧
      x2.mem_output_size = x.mem_output_size + (w :: ws).flatten.length ∧
      x2.mem_output_size_max = x.mem_output_size_max) := by
  constructor
  · have hlen : (w :: ws).flatten.length = w.length + ws.flatten.length := by simp
    have hw0 := hw w (List.mem_cons_self _ _)
    have h1 := transformer_write_append_one sys junk x b w hmax hb hbuf (by omega) (by omega) hw0
    refine ⟨_, h1, rfl, ?_, rfl, rfl, ?_⟩
    · intro buf1 hbuf1
      simp only [Option.some.injEq] at hbuf1
      subst hbuf1
      refine ⟨?_, ?_, ?_⟩
      · apply List.take_left'
        simp [hb]
      · rw [List.getD_eq_getElem?_getD, List.getElem?_append_right (by simp [hb])]
        simp [hb]
      · simp [hb]; omega
    · unfold xtransformer_write
      rw [h1]
      have : w.length % SIZE_MOD = w.length := Nat.mod_eq_of_lt (by unfold SIZE_MOD; omega)
      simp [this, ssize_of_small _ hw0]
  · exact ⟨_, transformer_write_all_append sys junk (w :: ws) x b hmax hb hbuf hcap hterm hw
      (by simp), rfl, rfl, rfl⟩

end sink_lemmas

/-! ## `roundupsize` -/

theorem and_mask_1024 (x : Nat) (hx : x < 2 ^ 64) :
    x &&& (2 ^ 64 - 1024) = x / 1024 * 1024 := by
  apply Nat.eq_of_testBit_eq
  intro i
  have h1 : (2 : Nat) ^ 64 - 1024 = 2 ^ 64 - (1023 + 1) := by norm_num
  have h2 : (1023 : Nat) = 2 ^ 10 - 1 := by norm_num
  have h3 : x / 1024 * 1024 = 2 ^ 10 * (x >>> 10) := by
    rw [Nat.shiftRight_eq_div_pow]; norm_num [Nat.mul_comm]
  rw [Nat.testBit_and, h1, Nat.testBit_two_pow_sub_succ (by norm_num), h2,
    Nat.testBit_two_pow_sub_one, h3, Nat.testBit_mul_pow_two, Nat.testBit_shiftRight]
  by_cases h10 : i < 10
  · have : ¬ (10 ≤ i) := by omega
    simp [h10, this]
  · have h10a : 10 ≤ i := by omega
    have e : 10 + (i - 10) = i := by omega
    simp only [h10, h10a, ge_iff_le, decide_False, decide_True, Bool.not_false, Bool.and_true,
      Bool.true_and, e]
    by_cases h64 : i < 64
    · simp [h64]
    · simp only [h64, decide_False, Bool.and_false]
      exact (Nat.testBit_eq_false_of_lt
        (lt_of_lt_of_le hx (Nat.pow_le_pow_right (by norm_num) (by omega)))).symm

theorem roundupsize_1024 (n : Nat) (h : n + 1023 < SIZE_MOD) :
    roundupsize n 1024 = (n + 1023) / 1024 * 1024 := by
  unfold SIZE_MOD at h
  have h1 : sub_sz (add_sz n 1024) 1 = n + 1023 := by
    unfold sub_sz add_sz SIZE_MOD
    omega
  have h2 : not_sz (sub_sz 1024 1) = 2 ^ 64 - 1024 := by
    unfold not_sz sub_sz SIZE_MOD
    norm_num
  unfold roundupsize
  rw [h1, h2, and_mask_1024 _ h]

/-- What `roundupsize(n, 1024)` is when `n + 1023` does not overflow:
the least multiple of 1024 that is at least `n`. -/
theorem roundupsize_spec (n : Nat) (h : n + 1023 < SIZE_MOD) :
    n ≤ roundupsize n 1024 ∧ roundupsize n 1024 % 1024 = 0 ∧
    roundupsize n 1024 < n + 1024 ∧ roundupsize n 1024 < SIZE_MOD ∧
    (∀ m, m % 1024 = 0 → n ≤ m → roundupsize n 1024 ≤ m) := by
  rw [roundupsize_1024 n h]
  unfold SIZE_MOD at *
  refine ⟨by omega, by omega, by omega, by omega, ?_⟩
  intro m hm hn
  omega

/-! ## The decode loop -/

section decode_lemmas

variable {σ τ D : Type} (sys : Sys σ τ) (Z : Zstd D) (B : Build) (out : Nat)

theorem decode_loop_done (f : Nat) (input : ZSTD_inBuffer) (v : Vars σ τ D)
    (h : ¬ input.pos < input.size) :
    decode_loop sys Z B out (f + 1) input v = some (.done, v, []) := by
  simp [decode_loop, h]

theorem decode_loop_error (f : Nat) (input : ZSTD_inBuffer) (v : Vars σ τ D)
    (h : input.pos < input.size)
    (he : Z.ZSTD_isError (stepRes Z out input v).result = true) :
    decode_loop sys Z B out (f + 1) input v =
      some (.has_error, afterStep Z out input v, [stepEv Z out input v]) := by
  simp [decode_loop, h, he]

theorem decode_loop_abort (f : Nat) (input : ZSTD_inBuffer) (v : Vars σ τ D)
    (x : transformer_state_t σ τ)
    (h : input.pos < input.size)
    (he : Z.ZSTD_isError (stepRes Z out input v).result = false)
    (hw : xtransformer_write sys B.junk v.xstate (stepRes Z out input v).dst = (.abort, x)) :
    decode_loop sys Z B out (f + 1) input v =
      some (.aborted, { afterStep Z out input v with xstate := x },
        [stepEv Z out input v, .write (stepRes Z out input v).dst]) := by
  simp [decode_loop, h, he, hw]

theorem decode_loop_cont (f : Nat) (input : ZSTD_inBuffer) (v : Vars σ τ D)
    (x : transformer_state_t σ τ) (n : Int)
    (h : input.pos < input.size)
    (he : Z.ZSTD_isError (stepRes Z out input v).result = false)
    (hw : xtransformer_write sys B.junk v.xstate (stepRes Z out input v).dst = (.ret n, x)) :
    decode_loop sys Z B out (f + 1) input v =
      (decode_loop sys Z B out f { input with pos := (stepRes Z out input v).pos }
        (afterWrite Z B out input v x)).map
        fun q => (q.1, q.2.1,
          stepEv Z out input v :: .write (stepRes Z out input v).dst :: q.2.2) := by
  simp [decode_loop, h, he, hw]

/-- Induction on a run of the decode loop. -/
theorem decode_loop_induct
    (P : ZSTD_inBuffer → Vars σ τ D → InnerExit × Vars σ τ D × List Event → Prop)
    (hdone : ∀ input v, ¬ input.pos < input.size → P input v (.done, v, []))
    (herr : ∀ input v, input.pos < input.size →
      Z.ZSTD_isError (stepRes Z out input v).result = true →
      P input v (.has_error, afterStep Z out input v, [stepEv Z out input v]))
    (habort : ∀ input v x, input.pos < input.size →
      Z.ZSTD_isError (stepRes Z out input v).result = false →
      xtransformer_write sys B.junk v.xstate (stepRes Z out input v).dst = (.abort, x) →
      P input v (.aborted, { afterStep Z out input v with xstate := x },
        [stepEv Z out input v, .write (stepRes Z out input v).dst]))
    (hcont : ∀ input v x n f q, input.pos < input.size →
      Z.ZSTD_isError (stepRes Z out input v).result = false →
      xtransformer_write sys B.junk v.xstate (stepRes Z out input v).dst = (.ret n, x) →
      decode_loop sys Z B out f { input with pos := (stepRes Z out input v).pos }
        (afterWrite Z B out input v x) = some q →
      P { input with pos := (stepRes Z out input v).pos } (afterWrite Z B out input v x) q →
      P input v (q.1, q.2.1,
        stepEv Z out input v :: .write (stepRes Z out input v).dst :: q.2.2)) :
    ∀ f input v q, decode_loop sys Z B out f input v = some q → P input v q := by
  intro f
  induction f with
  | zero => intro input v q h; simp [decode_loop] at h
  | succ f ih =>
    intro input v q h
    by_cases hlt : input.pos < input.size
    · cases he : Z.ZSTD_isError (stepRes Z out input v).result with
      | true =>
        rw [decode_loop_error sys Z B out f input v hlt he] at h
        cases h
        exact herr input v hlt he
      | false =>
        rcases hw : xtransformer_write sys B.junk v.xstate (stepRes Z out input v).dst
          with ⟨o, x⟩
        cases o with
        | abort =>
          rw [decode_loop_abort sys Z B out f input v x hlt he hw] at h
          cases h
          exact habort input v x hlt he hw
        | ret n =>
          rw [decode_loop_cont sys Z B out f input v x n hlt he hw] at h
          cases hq : decode_loop sys Z B out f { input with pos := (stepRes Z out input v).pos }
            (afterWrite Z B out input v x) with
          | none => rw [hq] at h; simp at h
          | some q1 =>
            rw [hq] at h
            simp only [Option.map_some', Option.some.injEq] at h
            subst h
            exact hcont input v x n f q1 hlt he hw hq (ih _ _ _ hq)
    · rw [decode_loop_done sys Z B out f input v hlt] at h
      cases h
      exact hdone input v hlt

theorem decode_loop_mono :
    ∀ f input (v : Vars σ τ D) q, decode_loop sys Z B out f input v = some q →
      ∀ g, f ≤ g → decode_loop sys Z B out g input v = some q := by
  intro f
  induction f with
  | zero => intro input v q h; simp [decode_loop] at h
  | succ f ih =>
    intro input v q h g hg
    obtain ⟨g, rfl⟩ : ∃ g1, g = g1 + 1 := ⟨g - 1, by omega⟩
    by_cases hlt : input.pos < input.size
    · cases he : Z.ZSTD_isError (stepRes Z out input v).result with
      | true =>
        rw [decode_loop_error sys Z B out _ input v hlt he] at h ⊢
        exact h
      | false =>
        rcases hw : xtransformer_write sys B.junk v.xstate (stepRes Z out input v).dst
          with ⟨o, x⟩
        cases o with
        | abort =>
          rw [decode_loop_abort sys Z B out _ input v x hlt he hw] at h ⊢
          exact h
        | ret n =>
          rw [decode_loop_cont sys Z B out _ input v x n hlt he hw] at h ⊢
          cases hq : decode_loop sys Z B out f { input with pos := (stepRes Z out input v).pos }
            (afterWrite Z B out input v x) with
          | none => rw [hq] at h; simp at h
          | some q1 =>
            rw [hq] at h
            rw [ih _ _ _ hq g (by omega)]
            exact h
    · rw [decode_loop_done sys Z B out _ input v hlt] at h ⊢
      exact h

end decode_lemmas

/-! ## The read loop -/

section read_lemmas

variable {σ τ D : Type} (sys : Sys σ τ) (Z : Zstd D) (B : Build) (inn out : Nat)

theorem read_loop_error (f : Nat) (v : Vars σ τ D) (e : Nat) (fd : σ) (en : Nat)
    (hr : safe_read sys f v.xstate.src_fd v.errno (sub_sz inn v.input_fixup)
      = some (.error e, fd, en)) :
    read_loop sys Z B inn out (f + 1) v =
      some (.ret (-1), afterReadErr v fd en, [readEv inn v (.error e)]) := by
  simp [read_loop, hr]

theorem read_loop_eof (f : Nat) (v : Vars σ τ D) (bs : List Byte) (fd : σ) (en : Nat)
    (hr : safe_read sys f v.xstate.src_fd v.errno (sub_sz inn v.input_fixup)
      = some (.bytes bs, fd, en))
    (hbs : bs.length = 0) :
    read_loop sys Z B inn out (f + 1) v =
      some (.ret (finish B (afterRead v fd en bs)), afterRead v fd en bs,
        [readEv inn v (.bytes bs)]) := by
  simp only [read_loop, hr, hbs, if_true]

theorem read_loop_aborted (f : Nat) (v : Vars σ τ D) (bs : List Byte) (fd : σ) (en : Nat)
    (v3 : Vars σ τ D) (evs : List Event)
    (hr : safe_read sys f v.xstate.src_fd v.errno (sub_sz inn v.input_fixup)
      = some (.bytes bs, fd, en))
    (hbs : bs.length ≠ 0)
    (hd : decode_loop sys Z B out f (window v bs) (atDecode v fd en bs)
      = some (.aborted, v3, evs)) :
    read_loop sys Z B inn out (f + 1) v =
      some (.abort, v3, readEv inn v (.bytes bs) :: evs) := by
  simp only [read_loop, hr, hbs, if_false, hd]

theorem read_loop_has_error (f : Nat) (v : Vars σ τ D) (bs : List Byte) (fd : σ) (en : Nat)
    (v3 : Vars σ τ D) (evs : List Event)
    (hr : safe_read sys f v.xstate.src_fd v.errno (sub_sz inn v.input_fixup)
      = some (.bytes bs, fd, en))
    (hbs : bs.length ≠ 0)
    (hd : decode_loop sys Z B out f (window v bs) (atDecode v fd en bs)
      = some (.has_error, v3, evs)) :
    read_loop sys Z B inn out (f + 1) v =
      some (.ret (finish B v3), v3, readEv inn v (.bytes bs) :: evs) := by
  simp only [read_loop, hr, hbs, if_false, hd]

theorem read_loop_cont (f : Nat) (v : Vars σ τ D) (bs : List Byte) (fd : σ) (en : Nat)
    (v3 : Vars σ τ D) (evs : List Event)
    (hr : safe_read sys f v.xstate.src_fd v.errno (sub_sz inn v.input_fixup)
      = some (.bytes bs, fd, en))
    (hbs : bs.length ≠ 0)
    (hd : decode_loop sys Z B out f (window v bs) (atDecode v fd en bs)
      = some (.done, v3, evs)) :
    read_loop sys Z B inn out (f + 1) v =
      (read_loop sys Z B inn out f v3).map
        fun q => (q.1, q.2.1, readEv inn v (.bytes bs) :: (evs ++ q.2.2)) := by
  simp only [read_loop, hr, hbs, if_false, hd]

theorem read_loop_read_none (f : Nat) (v : Vars σ τ D)
    (hr : safe_read sys f v.xstate.src_fd v.errno (sub_sz inn v.input_fixup) = none) :
    read_loop sys Z B inn out (f + 1) v = none := by
  simp only [read_loop, hr]

theorem read_loop_decode_none (f : Nat) (v : Vars σ τ D) (bs : List Byte) (fd : σ) (en : Nat)
    (hr : safe_read sys f v.xstate.src_fd v.errno (sub_sz inn v.input_fixup)
      = some (.bytes bs, fd, en))
    (hbs : bs.length ≠ 0)
    (hd : decode_loop sys Z B out f (window v bs) (atDecode v fd en bs) = none) :
    read_loop sys Z B inn out (f + 1) v = none := by
  simp only [read_loop, hr, hbs, if_false, hd]

/-- Induction on a run of the read loop. -/
theorem read_loop_induct
    (P : Vars σ τ D → Outcome Int × Vars σ τ D × List Event → Prop)
    (herror : ∀ f v e fd en,
      safe_read sys f v.xstate.src_fd v.errno (sub_sz inn v.input_fixup)
        = some (.error e, fd, en) →
      P v (.ret (-1), afterReadErr v fd en, [readEv inn v (.error e)]))
    (heof : ∀ f v bs fd en,
      safe_read sys f v.xstate.src_fd v.errno (sub_sz inn v.input_fixup)
        = some (.bytes bs, fd, en) →
      bs.length = 0 →
      P v (.ret (finish B (afterRead v fd en bs)), afterRead v fd en bs,
        [readEv inn v (.bytes bs)]))
    (haborted : ∀ f v bs fd en v3 evs,
      safe_read sys f v.xstate.src_fd v.errno (sub_sz inn v.input_fixup)
        = some (.bytes bs, fd, en) →
      bs.length ≠ 0 →
      decode_loop sys Z B out f (window v bs) (atDecode v fd en bs)
        = some (.aborted, v3, evs) →
      P v (.abort, v3, readEv inn v (.bytes bs) :: evs))
    (hhas_error : ∀ f v bs fd en v3 evs,
      safe_read sys f v.xstate.src_fd v.errno (sub_sz inn v.input_fixup)
        = some (.bytes bs, fd, en) →
      bs.length ≠ 0 →
      decode_loop sys Z B out f (window v bs) (atDecode v fd en bs)
        = some (.has_error, v3, evs) →
      P v (.ret (finish B v3), v3, readEv inn v (.bytes bs) :: evs))
    (hcont : ∀ f v bs fd en v3 evs q,
      safe_read sys f v.xstate.src_fd v.errno (sub_sz inn v.input_fixup)
        = some (.bytes bs, fd, en) →
      bs.length ≠ 0 →
      decode_loop sys Z B out f (window v bs) (atDecode v fd en bs)
        = some (.done, v3, evs) →
      read_loop sys Z B inn out f v3 = some q →
      P v3 q →
      P v (q.1, q.2.1, readEv inn v (.bytes bs) :: (evs ++ q.2.2))) :
    ∀ f v q, read_loop sys Z B inn out f v = some q → P v q := by
  intro f
  induction f with
  | zero => intro v q h; simp [read_loop] at h
  | succ f ih =>
    intro v q h
    cases hr : safe_read sys f v.xstate.src_fd v.errno (sub_sz inn v.input_fixup) with
    | none => simp [read_loop, hr] at h
    | some r =>
      obtain ⟨rr, fd, en⟩ := r
      cases rr with
      | error e =>
        rw [read_loop_error sys Z B inn out f v e fd en hr] at h
        cases h
        exact herror f v e fd en hr
      | bytes bs =>
        by_cases hbs : bs.length = 0
        · rw [read_loop_eof sys Z B inn out f v bs fd en hr hbs] at h
          cases h
          exact heof f v bs fd en hr hbs
        · cases hd : decode_loop sys Z B out f (window v bs) (atDecode v fd en bs) with
          | none => simp only [read_loop, hr, hbs, if_false, hd] at h; simp at h
          | some d =>
            obtain ⟨ex, v3, evs⟩ := d
            cases ex with
            | aborted =>
              rw [read_loop_aborted sys Z B inn out f v bs fd en v3 evs hr hbs hd] at h
              cases h
              exact haborted f v bs fd en v3 evs hr hbs hd
            | has_error =>
              rw [read_loop_has_error sys Z B inn out f v bs fd en v3 evs hr hbs hd] at h
              cases h
              exact hhas_error f v bs fd en v3 evs hr hbs hd
            | done =>
              rw [read_loop_cont sys Z B inn out f v bs fd en v3 evs hr hbs hd] at h
              cases hq : read_loop sys Z B inn out f v3 with
              | none => rw [hq] at h; simp at h
              | some q1 =>
                rw [hq] at h
                simp only [Option.map_some', Option.some.injEq] at h
                subst h
                exact hcont f v bs fd en v3 evs q1 hr hbs hd hq (ih _ _ hq)

theorem read_loop_mono :
    ∀ f (v : Vars σ τ D) q, read_loop sys Z B inn out f v = some q →
      ∀ g, f ≤ g → read_loop sys Z B inn out g v = some q := by
  intro f
  induction f with
  | zero => intro v q h; simp [read_loop] at h
  | succ f ih =>
    intro v q h g hg
    obtain ⟨g, rfl⟩ : ∃ g1, g = g1 + 1 := ⟨g - 1, by omega⟩
    have hfg : f ≤ g := by omega
    cases hr : safe_read sys f v.xstate.src_fd v.errno (sub_sz inn v.input_fixup) with
    | none => simp [read_loop, hr] at h
    | some r =>
      obtain ⟨rr, fd, en⟩ := r
      have hr1 := safe_read_mono sys f _ _ _ _ hr g hfg
      cases rr with
      | error e =>
        rw [read_loop_error sys Z B inn out f v e fd en hr] at h
        rw [read_loop_error sys Z B inn out g v e fd en hr1]
        exact h
      | bytes bs =>
        by_cases hbs : bs.length = 0
        · rw [read_loop_eof sys Z B inn out f v bs fd en hr hbs] at h
          rw [read_loop_eof sys Z B inn out g v bs fd en hr1 hbs]
          exact h
        · cases hd : decode_loop sys Z B out f (window v bs) (atDecode v fd en bs) with
          | none => simp only [read_loop, hr, hbs, if_false, hd] at h; simp at h
          | some d =>
            obtain ⟨ex, v3, evs⟩ := d
            have hd1 := decode_loop_mono sys Z B out f _ _ _ hd g hfg
            cases ex with
            | aborted =>
              rw [read_loop_aborted sys Z B inn out f v bs fd en v3 evs hr hbs hd] at h
              rw [read_loop_aborted sys Z B inn out g v bs fd en v3 evs hr1 hbs hd1]
              exact h
            | has_error =>
              rw [read_loop_has_error sys Z B inn out f v bs fd en v3 evs hr hbs hd] at h
              rw [read_loop_has_error sys Z B inn out g v bs fd en v3 evs hr1 hbs hd1]
              exact h
            | done =>
              rw [read_loop_cont sys Z B inn out f v bs fd en v3 evs hr hbs hd] at h
              rw [read_loop_cont sys Z B inn out g v bs fd en v3 evs hr1 hbs hd1]
              cases hq : read_loop sys Z B inn out f v3 with
              | none => rw [hq] at h; simp at h
              | some q1 =>
                rw [hq] at h
                rw [ih _ _ hq g hfg]
                exact h

end read_lemmas


/-! ## Termination -/

section termination

variable {σ τ D : Type} (sys : Sys σ τ) (Z : Zstd D) (B : Build) (inn out : Nat)

theorem safe_read_terminates (μ : σ → Nat) (hsrc : SourceEnds sys μ) (count : Nat) :
    ∀ (m : Nat) (fd : σ) (errno : Nat), μ fd ≤ m →
      ∃ f r fd1 en, safe_read sys f fd errno count = some (r, fd1, en) ∧
        (∀ bs, r = .bytes bs → bs ≠ [] → μ fd1 < μ fd) := by
  intro m
  induction m with
  | zero =>
    intro fd errno hm
    rcases hread : sys.read fd count with ⟨rr, fd1⟩
    have h := hsrc fd count
    rw [hread] at h
    cases rr with
    | bytes bs =>
      exact ⟨1, _, _, _, safe_read_bytes sys 0 _ _ _ _ _ hread,
        fun bs1 hb hne => by cases hb; exact h.2 bs rfl hne⟩
    | error e =>
      by_cases he : e = EINTR
      · subst he
        have := h.1 rfl
        omega
      · exact ⟨1, _, _, _, safe_read_error sys 0 _ _ _ _ _ hread he,
          fun bs1 hb => by cases hb⟩
  | succ m ih =>
    intro fd errno hm
    rcases hread : sys.read fd count with ⟨rr, fd1⟩
    have h := hsrc fd count
    rw [hread] at h
    cases rr with
    | bytes bs =>
      exact ⟨1, _, _, _, safe_read_bytes sys 0 _ _ _ _ _ hread,
        fun bs1 hb hne => by cases hb; exact h.2 bs rfl hne⟩
    | error e =>
      by_cases he : e = EINTR
      · subst he
        have hlt := h.1 rfl
        obtain ⟨f, r, fd2, en, hf, hμ⟩ := ih fd1 0 (by dsimp only at hlt; omega)
        refine ⟨f + 1, r, fd2, en, ?_, ?_⟩
        · rw [safe_read_eintr sys f _ _ _ _ hread]
          exact hf
        · intro bs hb hne
          have := hμ bs hb hne
          dsimp only at hlt
          omega
      · exact ⟨1, _, _, _, safe_read_error sys 0 _ _ _ _ _ hread he,
          fun bs1 hb => by cases hb⟩

theorem decode_loop_terminates (ν : D → ZSTD_inBuffer → Nat) (heng : EngineProgresses Z ν) :
    ∀ (m : Nat) (input : ZSTD_inBuffer) (v : Vars σ τ D), ν v.dctx input ≤ m →
      ∃ f q, decode_loop sys Z B out f input v = some q := by
  intro m
  induction m with
  | zero =>
    intro input v hm
    by_cases hlt : input.pos < input.size
    · cases he : Z.ZSTD_isError (stepRes Z out input v).result with
      | true => exact ⟨1, _, decode_loop_error sys Z B out 0 input v hlt he⟩
      | false =>
        have := heng v.dctx { size := out, pos := 0 } input hlt he
        omega
    · exact ⟨1, _, decode_loop_done sys Z B out 0 input v hlt⟩
  | succ m ih =>
    intro input v hm
    by_cases hlt : input.pos < input.size
    · cases he : Z.ZSTD_isError (stepRes Z out input v).result with
      | true => exact ⟨1, _, decode_loop_error sys Z B out 0 input v hlt he⟩
      | false =>
        have hν := heng v.dctx { size := out, pos := 0 } input hlt he
        rcases hw : xtransformer_write sys B.junk v.xstate (stepRes Z out input v).dst
          with ⟨o, x⟩
        cases o with
        | abort => exact ⟨1, _, decode_loop_abort sys Z B out 0 input v x hlt he hw⟩
        | ret n =>
          obtain ⟨f, q, hq⟩ := ih { input with pos := (stepRes Z out input v).pos }
            (afterWrite Z B out input v x) (Nat.le_of_lt_succ (lt_of_lt_of_le hν hm))
          refine ⟨f + 1, (q.1, q.2.1,
            stepEv Z out input v :: .write (stepRes Z out input v).dst :: q.2.2), ?_⟩
          rw [decode_loop_cont sys Z B out f input v x n hlt he hw, hq]
          rfl
    · exact ⟨1, _, decode_loop_done sys Z B out 0 input v hlt⟩

theorem transformer_write_src_fd (junk : Nat → Byte) (x : transformer_state_t σ τ)
    (buf : List Byte) :
    (transformer_write sys junk x buf).2.src_fd = x.src_fd ∧
    (transformer_write sys junk x buf).2.signature_skipped = x.signature_skipped := by
  unfold transformer_write
  dsimp only
  split
  · split <;> exact ⟨rfl, rfl⟩
  · split <;> exact ⟨rfl, rfl⟩

theorem xtransformer_write_src_fd (junk : Nat → Byte) (x : transformer_state_t σ τ)
    (buf : List Byte) :
    (xtransformer_write sys junk x buf).2.src_fd = x.src_fd ∧
    (xtransformer_write sys junk x buf).2.signature_skipped = x.signature_skipped := by
  have h := transformer_write_src_fd sys junk x buf
  unfold xtransformer_write
  rcases hw : transformer_write sys junk x buf with ⟨o, x1⟩
  rw [hw] at h
  cases o with
  | abort => exact h
  | ret n =>
    dsimp only
    split <;> exact h

/-- The decode loop leaves the source, `errno`, the input region and the
fixup alone. -/
theorem decode_loop_frame :
    ∀ f input (v : Vars σ τ D) q, decode_loop sys Z B out f input v = some q →
      q.2.1.xstate.src_fd = v.xstate.src_fd ∧
      q.2.1.xstate.signature_skipped = v.xstate.signature_skipped ∧
      q.2.1.errno = v.errno ∧ q.2.1.in_buff = v.in_buff ∧
      q.2.1.input_fixup = v.input_fixup := by
  apply decode_loop_induct sys Z B out
  · intro input v _; exact ⟨rfl, rfl, rfl, rfl, rfl⟩
  · intro input v _ _; exact ⟨rfl, rfl, rfl, rfl, rfl⟩
  · intro input v x _ _ hw
    have := xtransformer_write_src_fd sys B.junk v.xstate (stepRes Z out input v).dst
    rw [hw] at this
    exact ⟨this.1, this.2, rfl, rfl, rfl⟩
  · intro input v x n f q _ _ hw _ ih
    have := xtransformer_write_src_fd sys B.junk v.xstate (stepRes Z out input v).dst
    rw [hw] at this
    obtain ⟨h1, h2, h3, h4, h5⟩ := ih
    exact ⟨h1.trans this.1, h2.trans this.2, h3, h4, h5⟩

theorem read_loop_terminates (μ : σ → Nat) (ν : D → ZSTD_inBuffer → Nat)
    (hsrc : SourceEnds sys μ) (heng : EngineProgresses Z ν) :
    ∀ (m : Nat) (v : Vars σ τ D), μ v.xstate.src_fd ≤ m →
      ∃ f q, read_loop sys Z B inn out f v = some q := by
  intro m
  induction m with
  | zero =>
    intro v hm
    obtain ⟨f1, r, fd1, en, hr, hμ⟩ :=
      safe_read_terminates sys μ hsrc (sub_sz inn v.input_fixup) _ v.xstate.src_fd v.errno
        (le_refl _)
    cases r with
    | error e => exact ⟨f1 + 1, _, read_loop_error sys Z B inn out f1 v e fd1 en hr⟩
    | bytes bs =>
      by_cases hbs : bs.length = 0
      · exact ⟨f1 + 1, _, read_loop_eof sys Z B inn out f1 v bs fd1 en hr hbs⟩
      · have := hμ bs rfl (by intro h; apply hbs; rw [h]; rfl)
        omega
  | succ m ih =>
    intro v hm
    obtain ⟨f1, r, fd1, en, hr, hμ⟩ :=
      safe_read_terminates sys μ hsrc (sub_sz inn v.input_fixup) _ v.xstate.src_fd v.errno
        (le_refl _)
    cases r with
    | error e => exact ⟨f1 + 1, _, read_loop_error sys Z B inn out f1 v e fd1 en hr⟩
    | bytes bs =>
      by_cases hbs : bs.length = 0
      · exact ⟨f1 + 1, _, read_loop_eof sys Z B inn out f1 v bs fd1 en hr hbs⟩
      · have hlt := hμ bs rfl (by intro h; apply hbs; rw [h]; rfl)
        obtain ⟨f2, ⟨ex, v3, evs⟩, hd⟩ :=
          decode_loop_terminates sys Z B out ν heng _ (window v bs) (atDecode v fd1 en bs)
            (le_refl _)
        have hr1 := safe_read_mono sys f1 _ _ _ _ hr (max f1 f2) (le_max_left _ _)
        have hd1 := decode_loop_mono sys Z B out f2 _ _ _ hd (max f1 f2) (le_max_right _ _)
        cases ex with
        | aborted =>
          exact ⟨max f1 f2 + 1, _,
            read_loop_aborted sys Z B inn out _ v bs fd1 en v3 evs hr1 hbs hd1⟩
        | has_error =>
          exact ⟨max f1 f2 + 1, _,
            read_loop_has_error sys Z B inn out _ v bs fd1 en v3 evs hr1 hbs hd1⟩
        | done =>
          have hfr := (decode_loop_frame sys Z B out f2 _ _ _ hd).1
          dsimp only at hfr
          obtain ⟨f3, q, hq⟩ := ih v3 (by rw [hfr]; omega)
          have hr2 := safe_read_mono sys f1 _ _ _ _ hr (max (max f1 f2) f3)
            (le_trans (le_max_left _ _) (le_max_left _ _))
          have hd2 := decode_loop_mono sys Z B out f2 _ _ _ hd (max (max f1 f2) f3)
            (le_trans (le_max_right _ _) (le_max_left _ _))
          have hq2 := read_loop_mono sys Z B inn out f3 _ _ hq (max (max f1 f2) f3)
            (le_max_right _ _)
          refine ⟨max (max f1 f2) f3 + 1,
            (q.1, q.2.1, readEv inn v (.bytes bs) :: (evs ++ q.2.2)), ?_⟩
          rw [read_loop_cont sys Z B inn out _ v bs fd1 en v3 evs hr2 hbs hd2, hq2]
          rfl

/-- Enough fuel gives the result: when the source ends and the engine
progresses, `unpack_zstd_stream` has one result for every fuel from
some bound on. -/
theorem unpack_zstd_stream_terminates (μ : σ → Nat) (ν : D → ZSTD_inBuffer → Nat)
    (hsrc : SourceEnds sys μ) (heng : EngineProgresses Z ν)
    (xstate : transformer_state_t σ τ) (errno : Nat) :
    ∃ f0 q, ∀ f, f0 ≤ f → unpack_zstd_stream sys Z B f xstate errno = some q := by
  cases hc : Z.ZSTD_createDStream with
  | none =>
    refine ⟨0, (.abort, xstate, []), fun f _ => ?_⟩
    simp [unpack_zstd_stream, hc]
  | some dctx =>
    obtain ⟨f0, q, hq⟩ := read_loop_terminates sys Z B
      (roundupsize Z.ZSTD_DStreamInSize 1024) (roundupsize Z.ZSTD_DStreamOutSize 1024)
      μ ν hsrc heng _
      { xstate := xstate
        errno := errno
        dctx := dctx
        in_buff := memcpy ((List.range (roundupsize Z.ZSTD_DStreamInSize 1024)).map B.junk) 0
          (u32_bytes B.bigEndian Z.ZSTD_MAGIC)
        total := 0
        last_result := (Z.ZSTD_error_maxCode + 1) % SIZE_MOD
        input_fixup := if xstate.signature_skipped then 4 else 0 } (le_refl _)
    refine ⟨f0, (q.1, q.2.1.xstate, q.2.2), fun f hf => ?_⟩
    have := read_loop_mono sys Z B _ _ f0 _ _ hq f hf
    simp only [unpack_zstd_stream, hc, unpack_zstd_stream_inner, this, Option.map_some']

end termination

/-! ## Observations of a run -/

section observers

theorem lastStep_read (off count : Nat) (r : ReadResult) (es : List Event) :
    lastStep (.read off count r :: es) = lastStep es := by
  simp only [lastStep]
  cases lastStep es <;> rfl

theorem lastStep_write (bs : List Byte) (es : List Event) :
    lastStep (.write bs :: es) = lastStep es := by
  simp only [lastStep]
  cases lastStep es <;> rfl

theorem lastStep_step (input : ZSTD_inBuffer) (output : ZSTD_outBuffer) (result : Nat)
    (dst : List Byte) (pos : Nat) (es : List Event) :
    lastStep (.step input output result dst pos :: es) = some ((lastStep es).getD result) := by
  simp only [lastStep]
  cases lastStep es <;> rfl

theorem lastStep_append_getD (a b : List Event) (d : Nat) :
    (lastStep (a ++ b)).getD d = (lastStep b).getD ((lastStep a).getD d) := by
  induction a generalizing d with
  | nil => simp [lastStep]
  | cons e a ih =>
    cases e with
    | read off count r => simp only [List.cons_append, lastStep_read]; exact ih d
    | write bs => simp only [List.cons_append, lastStep_write]; exact ih d
    | step input output result dst pos =>
      simp only [List.cons_append, lastStep_step, Option.getD_some]
      exact ih result

theorem writes_append (a b : List Event) : writes (a ++ b) = writes a ++ writes b := by
  induction a with
  | nil => rfl
  | cons e a ih => cases e <;> simp [writes, ih]

theorem produced_append (a b : List Event) : produced (a ++ b) = produced a ++ produced b := by
  induction a with
  | nil => rfl
  | cons e a ih => cases e <;> simp [produced, ih]

theorem steps_append (a b : List Event) : steps (a ++ b) = steps a ++ steps b := by
  induction a with
  | nil => rfl
  | cons e a ih => cases e <;> simp [steps, ih]

theorem totalAfter_append (t : Int) (a b : List (List Byte)) :
    totalAfter t (a ++ b) = totalAfter (totalAfter t a) b := by
  induction a generalizing t with
  | nil => rfl
  | cons w a ih => simp only [List.cons_append, totalAfter]; exact ih _

theorem ssize_of_size_of_int_add (t : Int) (n : Nat) (h0 : 0 ≤ t) (h : t + n < 2 ^ 63) :
    ssize_of (size_of_int t + n) = t + n := by
  have h1 : size_of_int t = t.toNat := by
    unfold size_of_int
    rw [Int.emod_eq_of_lt h0 (by omega)]
  have h2 : (t.toNat : Int) = t := Int.toNat_of_nonneg h0
  rw [h1, ssize_of_small _ (by omega)]
  push_cast
  omega

theorem totalAfter_small (ws : List (List Byte)) :
    ∀ t : Int, 0 ≤ t → t + (ws.flatten.length : Int) < 2 ^ 63 →
      totalAfter t ws = t + ws.flatten.length := by
  induction ws with
  | nil => intro t _ _; simp [totalAfter]
  | cons w ws ih =>
    intro t h0 h
    simp only [List.flatten_cons, List.length_append, Nat.cast_add] at h
    have h1 := ssize_of_size_of_int_add t w.length h0 (by omega)
    simp only [totalAfter, h1]
    rw [ih _ (by omega) (by omega)]
    simp only [List.flatten_cons, List.length_append, Nat.cast_add]
    omega

end observers

/-! ## The shape of a run -/

section shape

variable {σ τ D : Type} (sys : Sys σ τ) (Z : Zstd D) (B : Build) (inn out : Nat)

/-- What a run of the decode loop looks like, by the way it is left. -/
theorem decode_loop_shape :
    ∀ f input (v : Vars σ τ D) q, decode_loop sys Z B out f input v = some q →
      q.2.1.last_result = (lastStep q.2.2).getD v.last_result ∧
      (q.1 = .done →
        (∀ e ∈ q.2.2, calm Z e = true) ∧ writes q.2.2 = produced q.2.2 ∧
        q.2.1.total = if B.desktop then totalAfter v.total (writes q.2.2) else v.total) ∧
      (q.1 = .has_error →
        ∃ pre last, q.2.2 = pre ++ [last] ∧ (∀ e ∈ pre, calm Z e = true) ∧
          isErrorStep Z last = true ∧ writes pre = produced pre) ∧
      (q.1 = .aborted →
        ∃ pre w, q.2.2 = pre ++ [.write w] ∧ (∀ e ∈ pre, calm Z e = true) ∧
          produced pre = writes pre ++ [w]) := by
  apply decode_loop_induct sys Z B out
  · intro input v _
    refine ⟨rfl, ?_, ?_, ?_⟩
    · intro _
      exact ⟨by simp, rfl, by simp [writes, totalAfter]⟩
    · intro h; cases h
    · intro h; cases h
  · intro input v _ he
    refine ⟨by simp [lastStep], ?_, ?_, ?_⟩
    · intro h; cases h
    · intro _
      exact ⟨[], _, rfl, by simp, by simpa [isErrorStep] using he, rfl⟩
    · intro h; cases h
  · intro input v x _ he _
    refine ⟨by simp [lastStep], ?_, ?_, ?_⟩
    · intro h; cases h
    · intro h; cases h
    · intro _
      refine ⟨[stepEv Z out input v], _, rfl, ?_, by simp [produced, writes]⟩
      intro e hmem
      simp only [List.mem_singleton] at hmem
      subst hmem
      simp [calm, he]
  · intro input v x n f q _ he _ _ ih
    obtain ⟨h1, h2, h3, h4⟩ := ih
    have hcalm : ∀ (l : List Event), (∀ e ∈ l, calm Z e = true) →
        ∀ e ∈ stepEv Z out input v :: Event.write (stepRes Z out input v).dst :: l,
          calm Z e = true := by
      intro l hl e hmem
      simp only [List.mem_cons] at hmem
      rcases hmem with rfl | rfl | hmem
      · simp [calm, he]
      · rfl
      · exact hl e hmem
    refine ⟨?_, ?_, ?_, ?_⟩
    · simp only [lastStep_step, lastStep_write, Option.getD_some]
      exact h1
    · intro hd
      obtain ⟨c1, c2, c3⟩ := h2 hd
      refine ⟨hcalm _ c1, by simp [writes, produced, c2], ?_⟩
      dsimp only at c3 ⊢
      rw [c3]
      cases B.desktop <;> simp [writes, totalAfter]
    · intro hd
      obtain ⟨pre, last, e1, e2, e3, e4⟩ := h3 hd
      exact ⟨stepEv Z out input v :: Event.write (stepRes Z out input v).dst :: pre, last,
        by simp [e1], hcalm _ e2, e3, by simp [writes, produced, e4]⟩
    · intro hd
      obtain ⟨pre, w, e1, e2, e3⟩ := h4 hd
      exact ⟨stepEv Z out input v :: Event.write (stepRes Z out input v).dst :: pre, w,
        by simp [e1], hcalm _ e2, by simp [writes, produced, e3]⟩

/-- What a run of the read loop looks like: events that do not end the
run, then the one that does, which decides the outcome. -/
theorem read_loop_shape :
    ∀ f (v : Vars σ τ D) q, read_loop sys Z B inn out f v = some q →
      ∃ pre last, q.2.2 = pre ++ [last] ∧ (∀ e ∈ pre, calm Z e = true) ∧
        q.2.1.last_result = (lastStep q.2.2).getD v.last_result ∧
        ((∃ off count e, last = .read off count (.error e) ∧ q.1 = .ret (-1) ∧
            writes pre = produced pre) ∨
         (∃ off count bs, last = .read off count (.bytes bs) ∧ bs.length = 0 ∧
            q.1 = .ret (finish B q.2.1) ∧ writes pre = produced pre ∧
            q.2.1.total = if B.desktop then totalAfter v.total (writes pre) else v.total) ∨
         (isErrorStep Z last = true ∧ q.1 = .ret (finish B q.2.1) ∧
            writes pre = produced pre) ∨
         (∃ w, last = .write w ∧ q.1 = .abort ∧ produced pre = writes pre ++ [w])) := by
  apply read_loop_induct sys Z B inn out
  · intro f v e fd en _
    exact ⟨[], _, rfl, by simp, by simp [lastStep], Or.inl ⟨_, _, _, rfl, rfl, rfl⟩⟩
  · intro f v bs fd en _ hbs
    exact ⟨[], _, rfl, by simp, by simp [lastStep],
      Or.inr (Or.inl ⟨_, _, _, rfl, hbs, rfl, rfl, by simp [writes, totalAfter]⟩)⟩
  · intro f v bs fd en v3 evs _ hbs hd
    obtain ⟨h1, -, -, h4⟩ := decode_loop_shape sys Z B out f _ _ _ hd
    obtain ⟨pre, w, e1, e2, e3⟩ := h4 rfl
    dsimp only at e1 h1
    refine ⟨readEv inn v (.bytes bs) :: pre, .write w, by simp [e1], ?_, ?_,
      Or.inr (Or.inr (Or.inr ⟨w, rfl, rfl, by simp [produced, writes, e3]⟩))⟩
    · intro e hmem
      simp only [List.mem_cons] at hmem
      rcases hmem with rfl | hmem
      · simp [calm, hbs]
      · exact e2 e hmem
    · simp only [lastStep_read]
      exact h1
  · intro f v bs fd en v3 evs _ hbs hd
    obtain ⟨h1, -, h3, -⟩ := decode_loop_shape sys Z B out f _ _ _ hd
    obtain ⟨pre, last, e1, e2, e3, e4⟩ := h3 rfl
    dsimp only at e1 h1
    refine ⟨readEv inn v (.bytes bs) :: pre, last, by simp [e1], ?_, ?_,
      Or.inr (Or.inr (Or.inl ⟨e3, rfl, by simp [produced, writes, e4]⟩))⟩
    · intro e hmem
      simp only [List.mem_cons] at hmem
      rcases hmem with rfl | hmem
      · simp [calm, hbs]
      · exact e2 e hmem
    · simp only [lastStep_read]
      exact h1
  · intro f v bs fd en v3 evs q _ hbs hd _ ih
    obtain ⟨h1, h2, -, -⟩ := decode_loop_shape sys Z B out f _ _ _ hd
    obtain ⟨c1, c2, c3⟩ := h2 rfl
    dsimp only at c1 c2 c3 h1
    obtain ⟨pre, last, e1, e2, e3, e4⟩ := ih
    have hw : writes (readEv inn v (.bytes bs) :: (evs ++ pre)) = writes evs ++ writes pre := by
      simp [writes, writes_append]
    have hp : produced (readEv inn v (.bytes bs) :: (evs ++ pre))
        = produced evs ++ produced pre := by
      simp [produced, produced_append]
    refine ⟨readEv inn v (.bytes bs) :: (evs ++ pre), last, by simp [e1], ?_, ?_, ?_⟩
    · intro e hmem
      simp only [List.mem_cons, List.mem_append] at hmem
      rcases hmem with rfl | hmem | hmem
      · simp [calm, hbs]
      · exact c1 e hmem
      · exact e2 e hmem
    · dsimp only
      rw [lastStep_read, lastStep_append_getD, e3, h1]
    · rcases e4 with ⟨off, count, e, l1, l2, l3⟩ | ⟨off, count, bs1, l1, l2, l3, l4, l5⟩ |
        ⟨l1, l2, l3⟩ | ⟨w, l1, l2, l3⟩
      · exact Or.inl ⟨off, count, e, l1, l2, by rw [hw, hp, c2, l3]⟩
      · refine Or.inr (Or.inl ⟨off, count, bs1, l1, l2, l3, by rw [hw, hp, c2, l4], ?_⟩)
        dsimp only
        rw [l5, c3, hw]
        cases B.desktop
        · simp
        · simp [totalAfter_append]
      · exact Or.inr (Or.inr (Or.inl ⟨l1, l2, by rw [hw, hp, c2, l3]⟩))
      · exact Or.inr (Or.inr (Or.inr ⟨w, l1, l2, by rw [hw, hp, c2, l3]; simp⟩))

end shape

/-! ## `unpack_zstd_stream` -/

section unpack

variable {σ τ D : Type} (sys : Sys σ τ) (Z : Zstd D) (B : Build)

theorem split_last {α : Type} (p : α → Bool) :
    ∀ (pre pre1 post : List α) (last e : α),
      (∀ x ∈ pre, p x = true) → p e = false →
      pre ++ [last] = pre1 ++ e :: post →
      post = [] ∧ pre1 = pre ∧ last = e := by
  intro pre
  induction pre with
  | nil =>
    intro pre1 post last e _ _ h
    cases pre1 with
    | nil =>
      simp only [List.nil_append, List.cons.injEq] at h
      exact ⟨h.2.symm, rfl, h.1⟩
    | cons a pre1 =>
      simp only [List.nil_append, List.cons_append, List.cons.injEq] at h
      have := congrArg List.length h.2
      simp at this
      omega
  | cons a pre ih =>
    intro pre1 post last e hp he h
    cases pre1 with
    | nil =>
      simp only [List.nil_append, List.cons_append, List.cons.injEq] at h
      have := hp a (List.mem_cons_self _ _)
      rw [h.1, he] at this
      cases this
    | cons b pre1 =>
      simp only [List.cons_append, List.cons.injEq] at h
      obtain ⟨h1, h2, h3⟩ := ih pre1 post last e
        (fun x hx => hp x (List.mem_cons_of_mem _ hx)) he h.2
      exact ⟨h1, by rw [h.1, h2], h3⟩

theorem unpack_cases (f : Nat) (xstate : transformer_state_t σ τ) (errno : Nat)
    (q : Outcome Int × transformer_state_t σ τ × List Event)
    (h : unpack_zstd_stream sys Z B f xstate errno = some q) :
    (Z.ZSTD_createDStream = none ∧ q = (.abort, xstate, [])) ∨
    ∃ dctx v1, Z.ZSTD_createDStream = some dctx ∧
      read_loop sys Z B (roundupsize Z.ZSTD_DStreamInSize 1024)
        (roundupsize Z.ZSTD_DStreamOutSize 1024) f (initVars Z B xstate errno dctx)
        = some (q.1, v1, q.2.2) ∧ q.2.1 = v1.xstate := by
  cases hc : Z.ZSTD_createDStream with
  | none =>
    left
    simp only [unpack_zstd_stream, hc, Option.some.injEq] at h
    exact ⟨rfl, h.symm⟩
  | some dctx =>
    right
    simp only [unpack_zstd_stream, hc, unpack_zstd_stream_inner] at h
    cases hr : read_loop sys Z B (roundupsize Z.ZSTD_DStreamInSize 1024)
        (roundupsize Z.ZSTD_DStreamOutSize 1024) f (initVars Z B xstate errno dctx) with
    | none => rw [hr] at h; simp at h
    | some r =>
      rw [hr] at h
      simp only [Option.map_some', Option.some.injEq] at h
      subst h
      exact ⟨dctx, r.2.1, rfl, hr, rfl⟩

theorem lastStep_snoc_step (pre : List Event) (input : ZSTD_inBuffer) (output : ZSTD_outBuffer)
    (result : Nat) (dst : List Byte) (pos : Nat) :
    lastStep (pre ++ [.step input output result dst pos]) = some result := by
  induction pre with
  | nil => rfl
  | cons e pre ih =>
    cases e with
    | read off count r => simp only [List.cons_append, lastStep_read]; exact ih
    | write bs => simp only [List.cons_append, lastStep_write]; exact ih
    | step i o r d p => simp only [List.cons_append, lastStep_step, ih, Option.getD_some]

/-- Every run of `unpack_zstd_stream`: the context could not be created
(`abort`, nothing done), or the calls are events that do not end the
run followed by the one that does: a failed read (`-1`), a read at
end-of-input (`-1` unless the last status was `0`, then the total or
`0`), a decode error (the failing step's output is not written), or a
write that aborted. -/
theorem unpack_shape (f : Nat) (xstate : transformer_state_t σ τ) (errno : Nat)
    (q : Outcome Int × transformer_state_t σ τ × List Event)
    (h : unpack_zstd_stream sys Z B f xstate errno = some q) :
    (Z.ZSTD_createDStream = none ∧ q = (.abort, xstate, [])) ∨
    ∃ pre last, q.2.2 = pre ++ [last] ∧ (∀ e ∈ pre, calm Z e = true) ∧
      ((∃ off count e, last = .read off count (.error e) ∧ q.1 = .ret (-1) ∧
          writes pre = produced pre) ∨
       (∃ off count bs, last = .read off count (.bytes bs) ∧ bs.length = 0 ∧
          q.1 = .ret (eofValue Z B (lastStep q.2.2) (writes pre)) ∧
          writes pre = produced pre) ∨
       (isErrorStep Z last = true ∧ (Z.ZSTD_isError 0 = false → q.1 = .ret (-1)) ∧
          writes pre = produced pre) ∨
       (∃ w, last = .write w ∧ q.1 = .abort ∧ produced pre = writes pre ++ [w])) := by
  rcases unpack_cases sys Z B f xstate errno q h with hc | ⟨dctx, v1, -, hr, -⟩
  · exact Or.inl hc
  · right
    obtain ⟨pre, last, e1, e2, e3, e4⟩ := read_loop_shape sys Z B _ _ f _ _ hr
    dsimp only at e1 e3 e4
    refine ⟨pre, last, e1, e2, ?_⟩
    rcases e4 with ⟨off, count, e, l1, l2, l3⟩ | ⟨off, count, bs1, l1, l2, l3, l4, l5⟩ |
      ⟨l1, l2, l3⟩ | ⟨w, l1, l2, l3⟩
    · exact Or.inl ⟨off, count, e, l1, l2, l3⟩
    · refine Or.inr (Or.inl ⟨off, count, bs1, l1, l2, ?_, l4⟩)
      rw [l3]
      unfold finish eofValue
      rw [e3, l5]
      cases B.desktop <;> simp
    · refine Or.inr (Or.inr (Or.inl ⟨l1, ?_, l3⟩))
      intro h0
      rw [l2]
      cases last with
      | read off count r => simp [isErrorStep] at l1
      | write bs => simp [isErrorStep] at l1
      | step input output result dst pos =>
        simp only [isErrorStep] at l1
        rw [e1, lastStep_snoc_step] at e3
        have hne : result ≠ 0 := by
          intro h
          rw [h, h0] at l1
          cases l1
        unfold finish
        rw [e3]
        simp [hne]
    · exact Or.inr (Or.inr (Or.inr ⟨w, l1, l2, l3⟩))

end unpack

/-! ## The sink after a run -/

section sink_trace

variable {σ τ D : Type} (sys : Sys σ τ) (Z : Zstd D) (B : Build) (inn out : Nat)

theorem withSrc_self (x : transformer_state_t σ τ) : withSrc x.src_fd x = x := by
  cases x
  rfl

theorem transformer_write_withSrc (junk : Nat → Byte) (fd : σ)
    (x : transformer_state_t σ τ) (buf : List Byte) :
    transformer_write sys junk (withSrc fd x) buf =
      ((transformer_write sys junk x buf).1,
        withSrc fd (transformer_write sys junk x buf).2) := by
  unfold transformer_write withSrc
  dsimp only
  split
  · split <;> rfl
  · split <;> rfl

theorem xtransformer_write_withSrc (junk : Nat → Byte) (fd : σ)
    (x : transformer_state_t σ τ) (buf : List Byte) :
    xtransformer_write sys junk (withSrc fd x) buf =
      ((xtransformer_write sys junk x buf).1,
        withSrc fd (xtransformer_write sys junk x buf).2) := by
  unfold xtransformer_write
  rw [transformer_write_withSrc]
  rcases transformer_write sys junk x buf with ⟨o, x1⟩
  cases o with
  | abort => rfl
  | ret n =>
    dsimp only
    split <;> rfl

theorem xtransformer_write_all_abort (junk : Nat → Byte) (x x1 : transformer_state_t σ τ)
    (w : List Byte) (ws : List (List Byte))
    (h : xtransformer_write sys junk x w = (.abort, x1)) :
    xtransformer_write_all sys junk x (w :: ws) = (.abort, x1) := by
  simp only [xtransformer_write_all, h]

theorem xtransformer_write_all_ret_abort (junk : Nat → Byte)
    (x x1 x2 : transformer_state_t σ τ) (w : List Byte) (ws : List (List Byte)) (n : Int)
    (h : xtransformer_write sys junk x w = (.ret n, x1))
    (h2 : xtransformer_write_all sys junk x1 ws = (.abort, x2)) :
    xtransformer_write_all sys junk x (w :: ws) = (.abort, x2) := by
  simp only [xtransformer_write_all, h, h2]

theorem xtransformer_write_all_ret_ret (junk : Nat → Byte)
    (x x1 x2 : transformer_state_t σ τ) (w : List Byte) (ws : List (List Byte)) (n : Int)
    (ns : List Int)
    (h : xtransformer_write sys junk x w = (.ret n, x1))
    (h2 : xtransformer_write_all sys junk x1 ws = (.ret ns, x2)) :
    xtransformer_write_all sys junk x (w :: ws) = (.ret (n :: ns), x2) := by
  simp only [xtransformer_write_all, h, h2]

/-- A sequence of writes that returned, seen from its first call. -/
theorem xtransformer_write_all_cons_inv (junk : Nat → Byte)
    (x x2 : transformer_state_t σ τ) (w : List Byte) (ws : List (List Byte))
    (outs : List Int)
    (h : xtransformer_write_all sys junk x (w :: ws) = (.ret outs, x2)) :
    ∃ n ns x1, xtransformer_write sys junk x w = (.ret n, x1) ∧
      xtransformer_write_all sys junk x1 ws = (.ret ns, x2) ∧ outs = n :: ns := by
  rcases hw : xtransformer_write sys junk x w with ⟨o, x1⟩
  cases o with
  | abort =>
    rw [xtransformer_write_all_abort sys junk x x1 w ws hw] at h
    cases h
  | ret n =>
    rcases hr : xtransformer_write_all sys junk x1 ws with ⟨o2, x3⟩
    cases o2 with
    | abort =>
      rw [xtransformer_write_all_ret_abort sys junk x x1 x3 w ws n hw hr] at h
      cases h
    | ret ns =>
      rw [xtransformer_write_all_ret_ret sys junk x x1 x3 w ws n ns hw hr] at h
      cases h
      exact ⟨n, ns, x1, rfl, hr, rfl⟩

theorem xtransformer_write_all_withSrc (junk : Nat → Byte) (fd : σ) :
    ∀ (ws : List (List Byte)) (x : transformer_state_t σ τ),
      xtransformer_write_all sys junk (withSrc fd x) ws =
        ((xtransformer_write_all sys junk x ws).1,
          withSrc fd (xtransformer_write_all sys junk x ws).2) := by
  intro ws
  induction ws with
  | nil => intro x; rfl
  | cons w ws ih =>
    intro x
    have hx := xtransformer_write_withSrc sys junk fd x w
    rcases hw : xtransformer_write sys junk x w with ⟨o, x1⟩
    rw [hw] at hx
    cases o with
    | abort =>
      rw [xtransformer_write_all_abort sys junk _ _ w ws hx,
        xtransformer_write_all_abort sys junk _ _ w ws hw]
    | ret n =>
      have hi := ih x1
      rcases hr : xtransformer_write_all sys junk x1 ws with ⟨o2, x2⟩
      rw [hr] at hi
      cases o2 with
      | abort =>
        rw [xtransformer_write_all_ret_abort sys junk _ _ _ w ws n hx hi,
          xtransformer_write_all_ret_abort sys junk _ _ _ w ws n hw hr]
      | ret ns =>
        rw [xtransformer_write_all_ret_ret sys junk _ _ _ w ws n ns hx hi,
          xtransformer_write_all_ret_ret sys junk _ _ _ w ws n ns hw hr]

theorem xtransformer_write_all_rebase (junk : Nat → Byte) (fd : σ) (ws : List (List Byte))
    (x x1 : transformer_state_t σ τ) (o : Outcome (List Int))
    (h : xtransformer_write_all sys junk x ws = (o, x1)) :
    xtransformer_write_all sys junk (withSrc fd x) ws = (o, withSrc fd x1) := by
  rw [xtransformer_write_all_withSrc, h]

theorem xtransformer_write_all_append_ret (junk : Nat → Byte) :
    ∀ (a b : List (List Byte)) (x x1 x2 : transformer_state_t σ τ) (o1 : List Int)
      (o : Outcome (List Int)),
      xtransformer_write_all sys junk x a = (.ret o1, x1) →
      xtransformer_write_all sys junk x1 b = (o, x2) →
      (o = .abort → xtransformer_write_all sys junk x (a ++ b) = (.abort, x2)) ∧
      (∀ o2, o = .ret o2 →
        xtransformer_write_all sys junk x (a ++ b) = (.ret (o1 ++ o2), x2)) := by
  intro a
  induction a with
  | nil =>
    intro b x x1 x2 o1 o h1 h2
    simp only [xtransformer_write_all, Prod.mk.injEq, Outcome.ret.injEq] at h1
    obtain ⟨rfl, rfl⟩ := h1
    refine ⟨?_, ?_⟩
    · intro ho
      rw [List.nil_append, h2, ho]
    · intro o2 ho
      rw [List.nil_append, h2, ho]
      rfl
  | cons w a ih =>
    intro b x x1 x2 o1 o h1 h2
    obtain ⟨n, ns, x3, hw, hr, rfl⟩ :=
      xtransformer_write_all_cons_inv sys junk x x1 w a o1 h1
    obtain ⟨i1, i2⟩ := ih b x3 x1 x2 ns o hr h2
    refine ⟨?_, ?_⟩
    · intro ho
      rw [List.cons_append]
      exact xtransformer_write_all_ret_abort sys junk x x3 x2 w (a ++ b) n hw (i1 ho)
    · intro o2 ho
      rw [List.cons_append, List.cons_append]
      exact xtransformer_write_all_ret_ret sys junk x x3 x2 w (a ++ b) n (ns ++ o2) hw
        (i2 o2 ho)

/-- The decode loop leaves the session as the writes it made leave it. -/
theorem decode_loop_sink :
    ∀ f input (v : Vars σ τ D) q, decode_loop sys Z B out f input v = some q →
      (q.1 = .aborted →
        xtransformer_write_all sys B.junk v.xstate (writes q.2.2) = (.abort, q.2.1.xstate)) ∧
      (q.1 ≠ .aborted →
        ∃ outs, xtransformer_write_all sys B.junk v.xstate (writes q.2.2)
          = (.ret outs, q.2.1.xstate)) := by
  apply decode_loop_induct sys Z B out
    (fun _ v q =>
      (q.1 = .aborted →
        xtransformer_write_all sys B.junk v.xstate (writes q.2.2) = (.abort, q.2.1.xstate)) ∧
      (q.1 ≠ .aborted →
        ∃ outs, xtransformer_write_all sys B.junk v.xstate (writes q.2.2)
          = (.ret outs, q.2.1.xstate)))
  · intro input v _
    refine ⟨?_, ?_⟩
    · intro h; cases h
    · intro _; exact ⟨[], rfl⟩
  · intro input v _ _
    refine ⟨?_, ?_⟩
    · intro h; cases h
    · intro _; exact ⟨[], rfl⟩
  · intro input v x _ _ hw
    refine ⟨?_, ?_⟩
    · intro _
      exact xtransformer_write_all_abort sys B.junk v.xstate x _ [] hw
    · intro h; exact absurd rfl h
  · intro input v x n f q _ _ hw _ ih
    obtain ⟨i1, i2⟩ := ih
    refine ⟨?_, ?_⟩
    · intro h
      exact xtransformer_write_all_ret_abort sys B.junk v.xstate x _ _ (writes q.2.2) n hw
        (i1 h)
    · intro h
      obtain ⟨outs, ho⟩ := i2 h
      exact ⟨n :: outs,
        xtransformer_write_all_ret_ret sys B.junk v.xstate x _ _ (writes q.2.2) n outs hw ho⟩

/-- The read loop leaves the session, its source descriptor apart, as
the writes it made leave it. -/
theorem read_loop_sink :
    ∀ f (v : Vars σ τ D) q, read_loop sys Z B inn out f v = some q →
      ∀ fd0 : σ,
      (q.1 = .abort →
        xtransformer_write_all sys B.junk (withSrc fd0 v.xstate) (writes q.2.2)
          = (.abort, withSrc fd0 q.2.1.xstate)) ∧
      (q.1 ≠ .abort →
        ∃ outs, xtransformer_write_all sys B.junk (withSrc fd0 v.xstate) (writes q.2.2)
          = (.ret outs, withSrc fd0 q.2.1.xstate)) := by
  apply read_loop_induct sys Z B inn out
    (fun v q => ∀ fd0 : σ,
      (q.1 = .abort →
        xtransformer_write_all sys B.junk (withSrc fd0 v.xstate) (writes q.2.2)
          = (.abort, withSrc fd0 q.2.1.xstate)) ∧
      (q.1 ≠ .abort →
        ∃ outs, xtransformer_write_all sys B.junk (withSrc fd0 v.xstate) (writes q.2.2)
          = (.ret outs, withSrc fd0 q.2.1.xstate)))
  · intro f v e fd en _ fd0
    refine ⟨?_, ?_⟩
    · intro h; cases h
    · intro _; exact ⟨[], rfl⟩
  · intro f v bs fd en _ _ fd0
    refine ⟨?_, ?_⟩
    · intro h; cases h
    · intro _; exact ⟨[], rfl⟩
  · intro f v bs fd en v3 evs _ _ hd fd0
    have hs := (decode_loop_sink sys Z B out f _ _ _ hd).1 rfl
    have hs0 := xtransformer_write_all_rebase sys B.junk fd0 (writes evs)
      (atDecode v fd en bs).xstate v3.xstate .abort hs
    refine ⟨?_, ?_⟩
    · intro _
      exact hs0
    · intro h; exact absurd rfl h
  · intro f v bs fd en v3 evs _ _ hd fd0
    obtain ⟨outs, hs⟩ := (decode_loop_sink sys Z B out f _ _ _ hd).2
      (by intro h; cases h)
    have hs0 := xtransformer_write_all_rebase sys B.junk fd0 (writes evs)
      (atDecode v fd en bs).xstate v3.xstate (.ret outs) hs
    refine ⟨?_, ?_⟩
    · intro h; cases h
    · intro _
      exact ⟨outs, hs0⟩
  · intro f v bs fd en v3 evs q _ _ hd _ ih fd0
    obtain ⟨o1, hs⟩ := (decode_loop_sink sys Z B out f _ _ _ hd).2
      (by intro h; cases h)
    have hs0 : xtransformer_write_all sys B.junk (withSrc fd0 v.xstate) (writes evs)
        = (.ret o1, withSrc fd0 v3.xstate) :=
      xtransformer_write_all_rebase sys B.junk fd0 (writes evs)
        (atDecode v fd en bs).xstate v3.xstate (.ret o1) hs
    obtain ⟨i1, i2⟩ := ih fd0
    have hwr : writes (readEv inn v (.bytes bs) :: (evs ++ q.2.2))
        = writes evs ++ writes q.2.2 := by
      rw [← writes_append]
      rfl
    refine ⟨?_, ?_⟩
    · intro h
      have := (xtransformer_write_all_append_ret sys B.junk (writes evs) (writes q.2.2)
        _ _ _ o1 _ hs0 (i1 h)).1 rfl
      rw [hwr]
      exact this
    · intro h
      obtain ⟨o2, ho2⟩ := i2 h
      have := (xtransformer_write_all_append_ret sys B.junk (writes evs) (writes q.2.2)
        _ _ _ o1 _ hs0 ho2).2 o2 rfl
      rw [hwr]
      exact ⟨o1 ++ o2, this⟩

/-- A stream write that returned: `write` took every byte, and the
session is as before but for the destination descriptor. -/
theorem xtransformer_write_stream_ret (junk : Nat → Byte)
    (x x1 : transformer_state_t σ τ) (w : List Byte) (n : Int)
    (hmax : x.mem_output_size_max = 0)
    (h : xtransformer_write sys junk x w = (.ret n, x1)) :
    x1 = { x with dst_fd := (sys.write x.dst_fd w).2 } ∧
      (sys.write x.dst_fd w).1 = ssize_of (w.length % SIZE_MOD) ∧
      n = ssize_of (w.length % SIZE_MOD) := by
  have hcond : ¬ x.mem_output_size_max ≠ 0 := by
    intro hne
    exact hne hmax
  unfold xtransformer_write transformer_write at h
  rw [if_neg hcond] at h
  by_cases hc : (sys.write x.dst_fd w).1 = ssize_of (w.length % SIZE_MOD)
  · simp only [hc, ne_eq, not_true_eq_false, if_false, Prod.mk.injEq, Outcome.ret.injEq] at h
    exact ⟨h.2.symm, hc, h.1.symm⟩
  · simp only [hc, ne_eq, not_false_eq_true, if_true] at h
    cases h

/-- A sequence of stream writes that returned. -/
theorem xtransformer_write_all_stream (junk : Nat → Byte) :
    ∀ (ws : List (List Byte)) (x x1 : transformer_state_t σ τ) (outs : List Int),
      x.mem_output_size_max = 0 →
      xtransformer_write_all sys junk x ws = (.ret outs, x1) →
      x1 = { x with dst_fd := write_all sys x.dst_fd ws } ∧
      outs = ws.map (fun w => ssize_of (w.length % SIZE_MOD)) ∧
      (∀ a w b, ws = a ++ w :: b →
        (sys.write (write_all sys x.dst_fd a) w).1 = ssize_of (w.length % SIZE_MOD)) := by
  intro ws
  induction ws with
  | nil =>
    intro x x1 outs _ h
    simp only [xtransformer_write_all, Prod.mk.injEq, Outcome.ret.injEq] at h
    obtain ⟨rfl, rfl⟩ := h
    refine ⟨?_, rfl, ?_⟩
    · cases x
      rfl
    · intro a w b hab
      cases a <;> simp at hab
  | cons w0 ws ih =>
    intro x x1 outs hmax h
    obtain ⟨n, ns, x3, hw, hr, rfl⟩ :=
      xtransformer_write_all_cons_inv sys junk x x1 w0 ws outs h
    obtain ⟨e1, e2, e3⟩ := xtransformer_write_stream_ret sys junk x x3 w0 n hmax hw
    have hmax3 : x3.mem_output_size_max = 0 := by rw [e1]; exact hmax
    obtain ⟨i1, i2, i3⟩ := ih x3 x1 ns hmax3 hr
    have hd3 : x3.dst_fd = (sys.write x.dst_fd w0).2 := by rw [e1]
    refine ⟨?_, ?_, ?_⟩
    · rw [i1, hd3, e1]
      rfl
    · rw [i2, e3]
      rfl
    · intro a w b hab
      cases a with
      | nil =>
        simp only [List.nil_append, List.cons.injEq] at hab
        obtain ⟨rfl, -⟩ := hab
        exact e2
      | cons a0 a =>
        simp only [List.cons_append, List.cons.injEq] at hab
        obtain ⟨rfl, hab⟩ := hab
        have := i3 a w b hab
        rw [hd3] at this
        exact this

/-- A bounded write that returned with representable sizes: it stayed
within the maximum and appended its bytes and one NUL. -/
theorem xtransformer_write_bounded_ret (junk : Nat → Byte)
    (x x1 : transformer_state_t σ τ) (b w : List Byte) (n : Int)
    (hmax : x.mem_output_size_max ≠ 0)
    (hb : b.length = x.mem_output_size)
    (hbuf : (x.mem_output_buf.getD []).take x.mem_output_size = b)
    (hterm : x.mem_output_size + w.length + 1 < SIZE_MOD)
    (h : xtransformer_write sys junk x w = (.ret n, x1)) :
    x1 = { x with mem_output_size := x.mem_output_size + w.length
                  mem_output_buf := some (b ++ w ++ [0]) } ∧
      x.mem_output_size + w.length ≤ x.mem_output_size_max := by
  unfold xtransformer_write at h
  rw [transformer_write_bounded_eq sys junk x w hmax (by omega)] at h
  by_cases hc : x.mem_output_size_max < x.mem_output_size + w.length
  · rw [if_pos hc] at h
    cases h
  · rw [if_neg hc] at h
    have h1 : w.length % SIZE_MOD = w.length := Nat.mod_eq_of_lt (by omega)
    simp only [h1, ne_eq, not_true_eq_false, if_false, Prod.mk.injEq, Outcome.ret.injEq] at h
    have hbuf2 := sink_buffer_after junk x.mem_output_buf b w (by rw [hb]; exact hbuf)
    rw [hb] at hbuf2
    rw [Nat.mod_eq_of_lt hterm, hbuf2] at h
    exact ⟨h.2.symm, by omega⟩

/-- A non-empty sequence of bounded writes that returned with
representable sizes. -/
theorem xtransformer_write_all_bounded (junk : Nat → Byte) :
    ∀ (ws : List (List Byte)) (x x1 : transformer_state_t σ τ) (b : List Byte)
      (outs : List Int),
      x.mem_output_size_max ≠ 0 →
      b.length = x.mem_output_size →
      (x.mem_output_buf.getD []).take x.mem_output_size = b →
      x.mem_output_size + ws.flatten.length + 1 < SIZE_MOD →
      ws ≠ [] →
      xtransformer_write_all sys junk x ws = (.ret outs, x1) →
      x1 = { x with mem_output_size := x.mem_output_size + ws.flatten.length
                    mem_output_buf := some (b ++ ws.flatten ++ [0]) } ∧
      x.mem_output_size + ws.flatten.length ≤ x.mem_output_size_max := by
  intro ws
  induction ws with
  | nil => intro x x1 b outs _ _ _ _ h; exact absurd rfl h
  | cons w ws ih =>
    intro x x1 b outs hmax hb hbuf hterm _ h
    simp only [List.flatten_cons, List.length_append] at hterm
    obtain ⟨n, ns, x3, hw, hr, rfl⟩ :=
      xtransformer_write_all_cons_inv sys junk x x1 w ws outs h
    obtain ⟨e1, e2⟩ := xtransformer_write_bounded_ret sys junk x x3 b w n hmax hb hbuf
      (by omega) hw
    by_cases hws : ws = []
    · subst hws
      simp only [xtransformer_write_all, Prod.mk.injEq, Outcome.ret.injEq] at hr
      obtain ⟨-, rfl⟩ := hr
      simp only [List.flatten_cons, List.flatten_nil, List.append_nil]
      exact ⟨e1, e2⟩
    · have hs3 : x3.mem_output_size = x.mem_output_size + w.length := by rw [e1]
      have hm3 : x3.mem_output_size_max = x.mem_output_size_max := by rw [e1]
      have hb3 : x3.mem_output_buf = some (b ++ w ++ [0]) := by rw [e1]
      obtain ⟨i1, i2⟩ := ih x3 x1 (b ++ w) ns (by rw [hm3]; exact hmax)
        (by rw [hs3, List.length_append, hb])
        (by
          rw [hb3, hs3, Option.getD_some, ← hb, ← List.length_append]
          exact List.take_left' rfl)
        (by rw [hs3]; omega) hws hr
      refine ⟨?_, ?_⟩
      · rw [i1, hs3, e1]
        simp [Nat.add_assoc, List.append_assoc]
      · rw [hs3, hm3] at i2
        simp only [List.flatten_cons, List.length_append]
        omega

end sink_trace

section sink_unpack

variable {σ τ D : Type} (sys : Sys σ τ) (Z : Zstd D) (B : Build)

/-- A run that returned leaves the session, its source descriptor apart,
as the writes it made leave it: every call of `xtransformer_write`
returned; on the destination descriptor `write` was called with each
chunk in turn and took every byte of it; on the bounded buffer (sizes
representable) the chunks were appended, one NUL after them, within the
maximum. -/
theorem unpack_sink (f : Nat) (xstate : transformer_state_t σ τ) (errno : Nat)
    (q : Outcome Int × transformer_state_t σ τ × List Event)
    (h : unpack_zstd_stream sys Z B f xstate errno = some q) (hna : q.1 ≠ .abort) :
    (∃ outs, xtransformer_write_all sys B.junk xstate (writes q.2.2)
      = (.ret outs, withSrc xstate.src_fd q.2.1)) ∧
    (xstate.mem_output_size_max = 0 →
      q.2.1.dst_fd = write_all sys xstate.dst_fd (writes q.2.2) ∧
      (∀ a w b, writes q.2.2 = a ++ w :: b →
        (sys.write (write_all sys xstate.dst_fd a) w).1 = ssize_of (w.length % SIZE_MOD)) ∧
      q.2.1.mem_output_size = xstate.mem_output_size ∧
      q.2.1.mem_output_buf = xstate.mem_output_buf) ∧
    (xstate.mem_output_size_max ≠ 0 →
      ∀ b : List Byte, b.length = xstate.mem_output_size →
        (xstate.mem_output_buf.getD []).take xstate.mem_output_size = b →
        xstate.mem_output_size + (writes q.2.2).flatten.length + 1 < SIZE_MOD →
        writes q.2.2 ≠ [] →
        q.2.1.mem_output_buf = some (b ++ (writes q.2.2).flatten ++ [0]) ∧
        q.2.1.mem_output_size = xstate.mem_output_size + (writes q.2.2).flatten.length ∧
        q.2.1.mem_output_size ≤ xstate.mem_output_size_max ∧
        q.2.1.dst_fd = xstate.dst_fd) ∧
    (writes q.2.2 = [] → withSrc xstate.src_fd q.2.1 = xstate) := by
  have hall : ∃ outs, xtransformer_write_all sys B.junk xstate (writes q.2.2)
      = (.ret outs, withSrc xstate.src_fd q.2.1) := by
    rcases unpack_cases sys Z B f xstate errno q h with ⟨-, hq⟩ | ⟨dctx, v1, -, hr, hx⟩
    · rw [hq] at hna
      exact absurd rfl hna
    · have := (read_loop_sink sys Z B _ _ f _ _ hr xstate.src_fd).2 hna
      rw [hx]
      have e : withSrc xstate.src_fd (initVars Z B xstate errno dctx).xstate = xstate :=
        withSrc_self xstate
      rw [e] at this
      exact this
  obtain ⟨outs, ho⟩ := hall
  have hd : (withSrc xstate.src_fd q.2.1).dst_fd = q.2.1.dst_fd := rfl
  have hs : (withSrc xstate.src_fd q.2.1).mem_output_size = q.2.1.mem_output_size := rfl
  have hb : (withSrc xstate.src_fd q.2.1).mem_output_buf = q.2.1.mem_output_buf := rfl
  refine ⟨⟨outs, ho⟩, ?_, ?_, ?_⟩
  · intro hmax
    obtain ⟨e1, -, e3⟩ := xtransformer_write_all_stream sys B.junk _ _ _ outs hmax ho
    refine ⟨?_, e3, ?_, ?_⟩
    · rw [← hd, e1]
    · rw [← hs, e1]
    · rw [← hb, e1]
  · intro hmax b hbl hbuf hterm hne
    obtain ⟨e1, e2⟩ :=
      xtransformer_write_all_bounded sys B.junk _ _ _ b outs hmax hbl hbuf hterm hne ho
    refine ⟨?_, ?_, ?_, ?_⟩
    · rw [← hb, e1]
    · rw [← hs, e1]
    · rw [← hs, e1]
      exact e2
    · rw [← hd, e1]
  · intro hnil
    rw [hnil] at ho
    simp only [xtransformer_write_all, Prod.mk.injEq, Outcome.ret.injEq] at ho
    exact ho.2.symm

end sink_unpack

/-! ## Results of a session -/

section results

variable {σ τ D : Type} (sys : Sys σ τ) (Z : Zstd D) (B : Build)

theorem getLast_snoc {α : Type} (pre : List α) (last : α) :
    (pre ++ [last]).getLast? = some last := by
  simp

/-- A run that ends with a read at end-of-input: the value returned and
the chunks written. -/
theorem unpack_at_eof (f : Nat) (xstate : transformer_state_t σ τ) (errno : Nat)
    (q : Outcome Int × transformer_state_t σ τ × List Event)
    (h : unpack_zstd_stream sys Z B f xstate errno = some q)
    (off count : Nat) (bs : List Byte)
    (hlast : q.2.2.getLast? = some (.read off count (.bytes bs))) :
    bs.length = 0 ∧ q.1 = .ret (eofValue Z B (lastStep q.2.2) (writes q.2.2)) ∧
      writes q.2.2 = produced q.2.2 := by
  rcases unpack_shape sys Z B f xstate errno q h with ⟨-, hq⟩ | ⟨pre, last, e1, e2, e3⟩
  · rw [hq] at hlast
    simp at hlast
  · rw [e1, getLast_snoc] at hlast
    simp only [Option.some.injEq] at hlast
    subst hlast
    have hw : writes q.2.2 = writes pre := by rw [e1, writes_append]; simp [writes]
    have hp : produced q.2.2 = produced pre := by rw [e1, produced_append]; simp [produced]
    rcases e3 with ⟨_, _, _, l1, -⟩ | ⟨_, _, bs1, l1, l2, l3, l4⟩ | ⟨l1, -⟩ | ⟨_, l1, -⟩
    · cases l1
    · cases l1
      exact ⟨l2, by rw [hw]; exact l3, by rw [hw, hp]; exact l4⟩
    · simp [isErrorStep] at l1
    · cases l1

/-- C1. Truncation: whenever `unpack_zstd_stream` returns after a read
at end-of-input (`safe_read` returned `0`, so no read failed and no
decode step was an error) and the status of the last decode step is not
`0`, or no decode step ran at all, the value returned is `-1`.  When
the source ends and the engine progresses, the run does return, for
every fuel from some bound on.  For a zero-length input (the first
`read` returns `0`) the driver makes no decode step and no write,
leaves the sink as it was and returns `-1`. -/
theorem unpack_truncated (hmax : (Z.ZSTD_error_maxCode + 1) % SIZE_MOD ≠ 0)
    (xstate : transformer_state_t σ τ) (errno : Nat) :
    (∀ f q, unpack_zstd_stream sys Z B f xstate errno = some q →
      ∀ off count bs, q.2.2.getLast? = some (.read off count (.bytes bs)) →
        (lastStep q.2.2 = none ∨ ∃ s, lastStep q.2.2 = some s ∧ s ≠ 0) →
        bs.length = 0 ∧ q.1 = .ret (-1)) ∧
    (∀ (μ : σ → Nat) (ν : D → ZSTD_inBuffer → Nat),
      SourceEnds sys μ → EngineProgresses Z ν →
      ∃ f0 q, ∀ f, f0 ≤ f → unpack_zstd_stream sys Z B f xstate errno = some q) ∧
    (∀ dctx fd1, Z.ZSTD_createDStream = some dctx →
      sys.read xstate.src_fd (sub_sz (roundupsize Z.ZSTD_DStreamInSize 1024)
        (if xstate.signature_skipped then 4 else 0)) = (.bytes [], fd1) →
      ∀ f, 2 ≤ f → ∃ ev,
        unpack_zstd_stream sys Z B f xstate errno =
          some (.ret (-1), { xstate with src_fd := fd1 }, [ev]) ∧
        steps [ev] = [] ∧ writes [ev] = [] ∧ isEof ev = true) := by
  refine ⟨?_, ?_, ?_⟩
  · intro f q h off count bs hlast hstat
    obtain ⟨h1, h2, -⟩ := unpack_at_eof sys Z B f xstate errno q h off count bs hlast
    refine ⟨h1, ?_⟩
    rw [h2]
    unfold eofValue
    rcases hstat with hn | ⟨s, hs, hne⟩
    · rw [hn]
      simp [hmax]
    · rw [hs]
      simp [hne]
  · intro μ ν hsrc heng
    exact unpack_zstd_stream_terminates sys Z B μ ν hsrc heng xstate errno
  · intro dctx fd1 hc hread f hf
    obtain ⟨g, rfl⟩ : ∃ g, f = g + 2 := ⟨f - 2, by omega⟩
    have hr := safe_read_bytes sys g xstate.src_fd fd1 errno _ [] hread
    have := read_loop_eof sys Z B (roundupsize Z.ZSTD_DStreamInSize 1024)
      (roundupsize Z.ZSTD_DStreamOutSize 1024) (g + 1) (initVars Z B xstate errno dctx)
      [] fd1 errno hr rfl
    refine ⟨.read (if xstate.signature_skipped then 4 else 0)
      (sub_sz (roundupsize Z.ZSTD_DStreamInSize 1024)
        (if xstate.signature_skipped then 4 else 0)) (.bytes []), ?_, rfl, rfl, rfl⟩
    simp only [unpack_zstd_stream, hc, unpack_zstd_stream_inner]
    rw [this]
    simp [finish, hmax]

theorem lastStep_some_produced :
    ∀ (l : List Event) (s : Nat), lastStep l = some s → produced l ≠ [] := by
  intro l
  induction l with
  | nil => intro s h; simp [lastStep] at h
  | cons e es ih =>
    intro s h
    cases e with
    | read off count r =>
      rw [lastStep_read] at h
      exact ih s h
    | write bs =>
      rw [lastStep_write] at h
      exact ih s h
    | step i o r d p => simp [produced]

/-- C2. Success: whenever `unpack_zstd_stream` returns after a read at
end-of-input and the last decode step returned status `0`, the chunks
passed to `xtransformer_write` are, in call order, the bytes each decode
step produced; with accounting (`IF_DESKTOP`) the value returned is the
running total of their lengths, which is the sum of `output.pos` over
the steps, equal to the number of bytes written, when that sum is below
`2 ^ 63`; without accounting it is `0`.  The sink received those bytes:
the session is left, its source descriptor apart, as the calls of
`xtransformer_write` with the produced chunks leave it, each of which
returned; when the sink is the destination descriptor, `write` was
called on it with each produced chunk in turn and took every byte, and
the buffer fields are untouched; when the sink is the bounded buffer
holding `b` (sizes representable), the buffer is left holding `b`, the
produced bytes and one NUL, with `mem_output_size` advanced by their
number, within the maximum, and the descriptor untouched.  When the
source ends and the engine progresses, the run does return. -/
theorem unpack_success (xstate : transformer_state_t σ τ) (errno : Nat) :
    (∀ f q, unpack_zstd_stream sys Z B f xstate errno = some q →
      ∀ off count bs, q.2.2.getLast? = some (.read off count (.bytes bs)) →
        lastStep q.2.2 = some 0 →
        writes q.2.2 = produced q.2.2 ∧
        (writes q.2.2).flatten = (produced q.2.2).flatten ∧
        ((produced q.2.2).map List.length).sum = (writes q.2.2).flatten.length ∧
        (B.desktop = true → q.1 = .ret (totalAfter 0 (produced q.2.2))) ∧
        (B.desktop = true → ((produced q.2.2).map List.length).sum < 2 ^ 63 →
          q.1 = .ret (((produced q.2.2).map List.length).sum : Nat)) ∧
        (B.desktop = false → q.1 = .ret 0) ∧
        (∃ outs, xtransformer_write_all sys B.junk xstate (produced q.2.2)
          = (.ret outs, withSrc xstate.src_fd q.2.1)) ∧
        (xstate.mem_output_size_max = 0 →
          q.2.1.dst_fd = write_all sys xstate.dst_fd (produced q.2.2) ∧
          (∀ a w b, produced q.2.2 = a ++ w :: b →
            (sys.write (write_all sys xstate.dst_fd a) w).1
              = ssize_of (w.length % SIZE_MOD)) ∧
          q.2.1.mem_output_size = xstate.mem_output_size ∧
          q.2.1.mem_output_buf = xstate.mem_output_buf) ∧
        (xstate.mem_output_size_max ≠ 0 →
          ∀ b : List Byte, b.length = xstate.mem_output_size →
            (xstate.mem_output_buf.getD []).take xstate.mem_output_size = b →
            xstate.mem_output_size + (produced q.2.2).flatten.length + 1 < SIZE_MOD →
            q.2.1.mem_output_buf = some (b ++ (produced q.2.2).flatten ++ [0]) ∧
            q.2.1.mem_output_size
              = xstate.mem_output_size + (produced q.2.2).flatten.length ∧
            q.2.1.mem_output_size ≤ xstate.mem_output_size_max ∧
            q.2.1.dst_fd = xstate.dst_fd)) ∧
    (∀ (μ : σ → Nat) (ν : D → ZSTD_inBuffer → Nat),
      SourceEnds sys μ → EngineProgresses Z ν →
      ∃ f0 q, ∀ f, f0 ≤ f → unpack_zstd_stream sys Z B f xstate errno = some q) := by
  refine ⟨?_, ?_⟩
  · intro f q h off count bs hlast hstat
    obtain ⟨-, h2, h3⟩ := unpack_at_eof sys Z B f xstate errno q h off count bs hlast
    have hsum : ((produced q.2.2).map List.length).sum = (writes q.2.2).flatten.length := by
      rw [h3, List.length_flatten]
    have hna : q.1 ≠ .abort := by
      rw [h2]
      intro hc
      cases hc
    obtain ⟨s1, s2, s3, -⟩ := unpack_sink sys Z B f xstate errno q h hna
    have hne : produced q.2.2 ≠ [] := lastStep_some_produced _ _ hstat
    refine ⟨h3, by rw [h3], hsum, ?_, ?_, ?_, ?_, ?_, ?_⟩
    · intro hd
      rw [h2, h3]
      simp [eofValue, hstat, hd]
    · intro hd hlt
      rw [h2]
      have := totalAfter_small (writes q.2.2) 0 (le_refl _)
        (by rw [← hsum]; simp only [zero_add]; exact_mod_cast hlt)
      simp only [eofValue, hstat, hd, Option.getD_some, ne_eq, not_true_eq_false, if_false,
        if_true, this, zero_add, add_zero, hsum]
    · intro hd
      rw [h2]
      simp [eofValue, hstat, hd]
    · rw [← h3]
      exact s1
    · intro hmax
      rw [← h3]
      exact s2 hmax
    · intro hmax b hb hbuf hterm
      rw [← h3] at hterm hne ⊢
      exact s3 hmax b hb hbuf hterm hne
  · intro μ ν hsrc heng
    exact unpack_zstd_stream_terminates sys Z B μ ν hsrc heng xstate errno

/-- C5. Decoder error: whenever a decode step of a run returns a status
for which `ZSTD_isError` holds (status `0` not being an error), that
step is the last call of the run: no decode step, read or write follows
it, so its output is not passed to the sink; the chunks written are
exactly the outputs of the steps before it, none of which was an error;
and `unpack_zstd_stream` returns `-1`.  The sink holds exactly the
outputs of those preceding steps: the session is left, its source
descriptor apart, as the calls of `xtransformer_write` with their
outputs leave it, each of which returned, and just as it was when there
was no such step; when the sink is the destination descriptor, `write`
was called on it with each of those outputs in turn and took every
byte, and the buffer fields are untouched; when the sink is the bounded
buffer holding `b` (sizes representable) and there was such a step, the
buffer is left holding `b`, those outputs and one NUL, with
`mem_output_size` advanced by their number, within the maximum, and the
descriptor untouched.  When the source ends and the engine progresses,
the run does return. -/
theorem unpack_decode_error (h0 : Z.ZSTD_isError 0 = false)
    (xstate : transformer_state_t σ τ) (errno : Nat) :
    (∀ f q, unpack_zstd_stream sys Z B f xstate errno = some q →
      ∀ pre input output result dst pos post,
        q.2.2 = pre ++ .step input output result dst pos :: post →
        Z.ZSTD_isError result = true →
        q.1 = .ret (-1) ∧ post = [] ∧ writes q.2.2 = produced pre ∧
        (∀ e ∈ pre, isErrorStep Z e = false) ∧
        (∃ outs, xtransformer_write_all sys B.junk xstate (produced pre)
          = (.ret outs, withSrc xstate.src_fd q.2.1)) ∧
        (produced pre = [] → withSrc xstate.src_fd q.2.1 = xstate) ∧
        (xstate.mem_output_size_max = 0 →
          q.2.1.dst_fd = write_all sys xstate.dst_fd (produced pre) ∧
          (∀ a w b, produced pre = a ++ w :: b →
            (sys.write (write_all sys xstate.dst_fd a) w).1
              = ssize_of (w.length % SIZE_MOD)) ∧
          q.2.1.mem_output_size = xstate.mem_output_size ∧
          q.2.1.mem_output_buf = xstate.mem_output_buf) ∧
        (xstate.mem_output_size_max ≠ 0 →
          ∀ b : List Byte, b.length = xstate.mem_output_size →
            (xstate.mem_output_buf.getD []).take xstate.mem_output_size = b →
            xstate.mem_output_size + (produced pre).flatten.length + 1 < SIZE_MOD →
            produced pre ≠ [] →
            q.2.1.mem_output_buf = some (b ++ (produced pre).flatten ++ [0]) ∧
            q.2.1.mem_output_size
              = xstate.mem_output_size + (produced pre).flatten.length ∧
            q.2.1.mem_output_size ≤ xstate.mem_output_size_max ∧
            q.2.1.dst_fd = xstate.dst_fd)) ∧
    (∀ (μ : σ → Nat) (ν : D → ZSTD_inBuffer → Nat),
      SourceEnds sys μ → EngineProgresses Z ν →
      ∃ f0 q, ∀ f, f0 ≤ f → unpack_zstd_stream sys Z B f xstate errno = some q) := by
  refine ⟨?_, ?_⟩
  · intro f q h pre input output result dst pos post hsplit herr
    rcases unpack_shape sys Z B f xstate errno q h with ⟨-, hq⟩ | ⟨pre0, last, e1, e2, e3⟩
    · rw [hq] at hsplit
      simp at hsplit
    · rw [e1] at hsplit
      obtain ⟨hpost, hpre, hl⟩ := split_last (calm Z) pre0 pre post last _ e2
        (by simp [calm, herr]) hsplit
      subst hpre
      subst hl
      have hw : writes q.2.2 = writes pre := by rw [e1, writes_append]; simp [writes]
      have hnoerr : ∀ e ∈ pre, isErrorStep Z e = false := by
        intro e he
        have := e2 e he
        cases e with
        | read off count r => rfl
        | write bs => rfl
        | step i o r d p => simpa [calm, isErrorStep] using this
      rcases e3 with ⟨_, _, _, l1, -⟩ | ⟨_, _, _, l1, -⟩ | ⟨-, l2, l3⟩ | ⟨_, l1, -⟩
      · cases l1
      · cases l1
      · have hwp : writes q.2.2 = produced pre := by rw [hw]; exact l3
        have hna : q.1 ≠ .abort := by
          rw [l2 h0]
          intro hc
          cases hc
        obtain ⟨s1, s2, s3, s4⟩ := unpack_sink sys Z B f xstate errno q h hna
        rw [hwp] at s1 s2 s3 s4
        exact ⟨l2 h0, hpost, hwp, hnoerr, s1, s4, s2, s3⟩
      · cases l1
  · intro μ ν hsrc heng
    exact unpack_zstd_stream_terminates sys Z B μ ν hsrc heng xstate errno

end results

section failure_value

variable {σ τ D : Type} (sys : Sys σ τ) (Z : Zstd D) (B : Build)

/-- C8, as the code has it. The three recoverable failures are reported
with one and the same value: a run ended by a failed read, a run ended
at end-of-input with the last status not `0` (or with no decode step)
and a run in which a decode step was an error all return `-1`.  That
value differs from every success value: a run ended at end-of-input
with last status `0` returns `0` without accounting and the byte total,
which is not negative, with accounting (total below `2 ^ 63`).  When
the source ends and the engine progresses, the run does return. -/
theorem unpack_failure_value (h0 : Z.ZSTD_isError 0 = false)
    (hmax : (Z.ZSTD_error_maxCode + 1) % SIZE_MOD ≠ 0)
    (xstate : transformer_state_t σ τ) (errno : Nat) :
    (∀ f q, unpack_zstd_stream sys Z B f xstate errno = some q →
      (∀ off count e, q.2.2.getLast? = some (.read off count (.error e)) →
        q.1 = .ret (-1)) ∧
      (∀ off count bs, q.2.2.getLast? = some (.read off count (.bytes bs)) →
        (lastStep q.2.2 = none ∨ ∃ s, lastStep q.2.2 = some s ∧ s ≠ 0) →
        q.1 = .ret (-1)) ∧
      (∀ pre input output result dst pos post,
        q.2.2 = pre ++ .step input output result dst pos :: post →
        Z.ZSTD_isError result = true → q.1 = .ret (-1)) ∧
      (∀ off count bs, q.2.2.getLast? = some (.read off count (.bytes bs)) →
        lastStep q.2.2 = some 0 →
        (B.desktop = false ∨ ((produced q.2.2).map List.length).sum < 2 ^ 63) →
        ∃ n : Nat, q.1 = .ret (n : Int) ∧ q.1 ≠ .ret (-1))) ∧
    (∀ (μ : σ → Nat) (ν : D → ZSTD_inBuffer → Nat),
      SourceEnds sys μ → EngineProgresses Z ν →
      ∃ f0 q, ∀ f, f0 ≤ f → unpack_zstd_stream sys Z B f xstate errno = some q) := by
  refine ⟨?_, ?_⟩
  · intro f q h
    refine ⟨?_, ?_, ?_, ?_⟩
    · intro off count e hlast
      rcases unpack_shape sys Z B f xstate errno q h with ⟨-, hq⟩ | ⟨pre, last, e1, e2, e3⟩
      · rw [hq] at hlast
        simp at hlast
      · rw [e1, getLast_snoc] at hlast
        simp only [Option.some.injEq] at hlast
        subst hlast
        rcases e3 with ⟨_, _, _, -, l2, -⟩ | ⟨_, _, _, l1, -⟩ | ⟨l1, -⟩ | ⟨_, l1, -⟩
        · exact l2
        · cases l1
        · simp [isErrorStep] at l1
        · cases l1
    · intro off count bs hlast hstat
      obtain ⟨-, h2, -⟩ := unpack_at_eof sys Z B f xstate errno q h off count bs hlast
      rw [h2]
      unfold eofValue
      rcases hstat with hn | ⟨s, hs, hne⟩
      · rw [hn]
        simp [hmax]
      · rw [hs]
        simp [hne]
    · intro pre input output result dst pos post hsplit herr
      rcases unpack_shape sys Z B f xstate errno q h with ⟨-, hq⟩ | ⟨pre0, last, e1, e2, e3⟩
      · rw [hq] at hsplit
        simp at hsplit
      · rw [e1] at hsplit
        obtain ⟨-, -, hl⟩ := split_last (calm Z) pre0 pre post last _ e2
          (by simp [calm, herr]) hsplit
        subst hl
        rcases e3 with ⟨_, _, _, l1, -⟩ | ⟨_, _, _, l1, -⟩ | ⟨-, l2, -⟩ | ⟨_, l1, -⟩
        · cases l1
        · cases l1
        · exact l2 h0
        · cases l1
    · intro off count bs hlast hstat hsmall
      obtain ⟨-, h2, h3⟩ := unpack_at_eof sys Z B f xstate errno q h off count bs hlast
      have hsum : ((produced q.2.2).map List.length).sum = (writes q.2.2).flatten.length := by
        rw [h3, List.length_flatten]
      cases hd : B.desktop with
      | false =>
        refine ⟨0, ?_, ?_⟩
        · rw [h2]; simp [eofValue, hstat, hd]
        · rw [h2]; simp [eofValue, hstat, hd]
      | true =>
        rcases hsmall with hfalse | hlt
        · rw [hd] at hfalse; cases hfalse
        · have := totalAfter_small (writes q.2.2) 0 (le_refl _)
            (by rw [← hsum]; simp only [zero_add]; exact_mod_cast hlt)
          have hv : eofValue Z B (lastStep q.2.2) (writes q.2.2)
              = ((writes q.2.2).flatten.length : Int) := by
            simp only [eofValue, hstat, hd, Option.getD_some, ne_eq, not_true_eq_false,
              if_false, if_true, this, zero_add, add_zero]
          refine ⟨(writes q.2.2).flatten.length, by rw [h2, hv], ?_⟩
          rw [h2, hv]
          intro hc
          simp only [Outcome.ret.injEq] at hc
          omega
  · intro μ ν hsrc heng
    exact unpack_zstd_stream_terminates sys Z B μ ν hsrc heng xstate errno

end failure_value

/-! ## What follows each call -/

section local_structure

variable {σ τ D : Type} (sys : Sys σ τ) (Z : Zstd D) (B : Build) (N out : Nat)

theorem suffixes_nil {α : Type} (P : List α → Prop) (h : P []) : Suffixes P [] := by
  intro pre suf hsplit
  have h1 : pre = [] ∧ suf = [] := by
    cases pre with
    | nil => exact ⟨rfl, by simpa using hsplit.symm⟩
    | cons a pre => simp at hsplit
  rw [h1.2]
  exact h

theorem suffixes_cons {α : Type} (P : List α → Prop) (a : α) (l : List α)
    (h : P (a :: l)) (hl : Suffixes P l) : Suffixes P (a :: l) := by
  intro pre suf hsplit
  cases pre with
  | nil =>
    simp only [List.nil_append] at hsplit
    rw [← hsplit]
    exact h
  | cons b pre =>
    simp only [List.cons_append, List.cons.injEq] at hsplit
    exact hl pre suf hsplit.2

theorem suffixes_at {α : Type} (P : List α → Prop) (pre suf : List α)
    (h : Suffixes P (pre ++ suf)) : P suf :=
  h pre suf rfl

theorem safe_read_bounded (hb : SourceBounded sys) :
    ∀ (f : Nat) (fd : σ) (errno count : Nat) (bs : List Byte) (fd1 : σ) (en : Nat),
      safe_read sys f fd errno count = some (.bytes bs, fd1, en) → bs.length ≤ count := by
  intro f
  induction f with
  | zero => intro fd errno count bs fd1 en h; simp [safe_read] at h
  | succ f ih =>
    intro fd errno count bs fd1 en h
    rcases hread : sys.read fd count with ⟨rr, fd2⟩
    cases rr with
    | bytes bs1 =>
      rw [safe_read_bytes sys _ _ _ _ _ _ hread] at h
      simp only [Option.some.injEq, Prod.mk.injEq, ReadResult.bytes.injEq] at h
      have := hb fd count bs1 (by rw [hread])
      rw [← h.1]
      exact this
    | error e =>
      by_cases he : e = EINTR
      · subst he
        rw [safe_read_eintr sys _ _ _ _ _ hread] at h
        exact ih fd2 0 count bs fd1 en h
      · rw [safe_read_error sys _ _ _ _ _ _ hread he] at h
        simp at h

/-- The decode loop makes no read. -/
theorem decode_loop_no_read :
    ∀ f input (v : Vars σ τ D) q, decode_loop sys Z B out f input v = some q →
      ∀ e ∈ q.2.2, isRead e = false := by
  apply decode_loop_induct sys Z B out
  · intro input v _ e he
    simp at he
  · intro input v _ _ e he
    simp only [List.mem_singleton] at he
    subst he
    rfl
  · intro input v x _ _ _ e he
    simp only [List.mem_cons, List.mem_singleton, List.not_mem_nil, or_false] at he
    rcases he with rfl | rfl <;> rfl
  · intro input v x n f q _ _ _ _ ih e he
    simp only [List.mem_cons] at he
    rcases he with rfl | rfl | he
    · rfl
    · rfl
    · exact ih e he

/-- The calls of a run of the decode loop, followed by `tail`: a read
at offset `0` when the loop is left with the window consumed, nothing
otherwise. -/
theorem decode_loop_local :
    ∀ f input (v : Vars σ τ D) q, decode_loop sys Z B out f input v = some q →
      input.size ≤ N →
      ∀ tail, Suffixes (localOK Z N out) tail →
        (q.1 = .done → ∃ r2 rest2, tail = .read 0 N r2 :: rest2) →
        (q.1 ≠ .done → tail = []) →
        Suffixes (localOK Z N out) (q.2.2 ++ tail) ∧
        (input.pos < input.size →
          ∃ o rs d p rest, q.2.2 ++ tail = .step input o rs d p :: rest) ∧
        (¬ input.pos < input.size → q.2.2 = [] ∧ q.1 = .done) := by
  apply decode_loop_induct sys Z B out
  · intro input v hlt _ tail htail _ _
    exact ⟨htail, fun h => absurd h hlt, fun _ => ⟨rfl, rfl⟩⟩
  · intro input v hlt he hN tail _ _ ht
    have ht1 : tail = [] := ht (by simp)
    subst ht1
    refine ⟨?_, fun _ => ⟨_, _, _, _, _, rfl⟩, fun h => absurd hlt h⟩
    apply suffixes_cons
    · simp only [localOK]
      refine ⟨trivial, hlt, hN, ?_, ?_⟩
      · intro _; rfl
      · intro h; rw [he] at h; cases h
    · exact suffixes_nil _ trivial
  · intro input v x hlt he _ hN tail _ _ ht
    have ht1 : tail = [] := ht (by simp)
    subst ht1
    refine ⟨?_, fun _ => ⟨_, _, _, _, _, rfl⟩, fun h => absurd hlt h⟩
    apply suffixes_cons
    · simp only [localOK]
      refine ⟨trivial, hlt, hN, ?_, ?_⟩
      · intro h; rw [he] at h; cases h
      · intro _; exact ⟨[], rfl, Or.inl rfl⟩
    · apply suffixes_cons
      · trivial
      · exact suffixes_nil _ trivial
  · intro input v x n f q hlt he _ _ ih hN tail htail hdone hnot
    obtain ⟨h1, h2, h3⟩ := ih hN tail htail hdone hnot
    refine ⟨?_, fun _ => ⟨_, _, _, _, _, rfl⟩, fun h => absurd hlt h⟩
    apply suffixes_cons
    · simp only [localOK]
      refine ⟨trivial, hlt, hN, ?_, ?_⟩
      · intro h; rw [he] at h; cases h
      · intro _
        refine ⟨q.2.2 ++ tail, rfl, ?_⟩
        by_cases hp : (stepRes Z out input v).pos < input.size
        · obtain ⟨o2, rs2, d2, p2, rest2, hr⟩ := h2 hp
          exact Or.inr (Or.inl ⟨hp, o2, rs2, d2, p2, rest2, hr⟩)
        · obtain ⟨hnil, hd⟩ := h3 hp
          obtain ⟨r2, rest2, hr⟩ := hdone hd
          refine Or.inr (Or.inr ⟨hp, r2, rest2, ?_⟩)
          rw [hnil, hr]
          rfl
    · apply suffixes_cons
      · trivial
      · exact h1

theorem split_append_right {α : Type} (p : α → Bool) :
    ∀ (a b pre post : List α) (e : α),
      (∀ x ∈ a, p x = false) → p e = true →
      a ++ b = pre ++ e :: post →
      ∃ pre2, pre = a ++ pre2 ∧ b = pre2 ++ e :: post := by
  intro a
  induction a with
  | nil => intro b pre post e _ _ h; exact ⟨pre, rfl, h⟩
  | cons x a ih =>
    intro b pre post e hp he h
    cases pre with
    | nil =>
      simp only [List.cons_append, List.nil_append, List.cons.injEq] at h
      have := hp x (List.mem_cons_self _ _)
      rw [h.1, he] at this
      cases this
    | cons y pre =>
      simp only [List.cons_append, List.cons.injEq] at h
      obtain ⟨pre2, h1, h2⟩ := ih b pre post e
        (fun z hz => hp z (List.mem_cons_of_mem _ hz)) he h.2
      exact ⟨pre2, by rw [h.1, h1]; rfl, h2⟩

theorem sub_sz_eq (a b : Nat) (hb : b ≤ a) (ha : a < SIZE_MOD) : sub_sz a b = a - b := by
  unfold sub_sz
  unfold SIZE_MOD at *
  omega

theorem add_sz_eq (a b : Nat) (h : a + b < SIZE_MOD) : add_sz a b = a + b := by
  unfold add_sz
  exact Nat.mod_eq_of_lt h

/-- The calls of a run of the read loop: what follows each of them, the
first read, and the reads after it. -/
theorem read_loop_local (hb : SourceBounded sys) (hN : N < SIZE_MOD) :
    ∀ f (v : Vars σ τ D) q, read_loop sys Z B N out f v = some q →
      v.input_fixup ≤ N →
      Suffixes (localOK Z N out) q.2.2 ∧
      (∃ r rest, q.2.2 = .read v.input_fixup (N - v.input_fixup) r :: rest) ∧
      (∀ pre off count r post, q.2.2 = pre ++ .read off count r :: post → pre ≠ [] →
        off = 0 ∧ count = N) := by
  have hone : ∀ (v : Vars σ τ D) (r : ReadResult), v.input_fixup ≤ N →
      (∀ bs, r = .bytes bs → bs.length = 0) →
      Suffixes (localOK Z N out) [readEv N v r] ∧
      (∃ r1 rest, [readEv N v r] = .read v.input_fixup (N - v.input_fixup) r1 :: rest) ∧
      (∀ pre off count r1 post, [readEv N v r] = pre ++ .read off count r1 :: post →
        pre ≠ [] → off = 0 ∧ count = N) := by
    intro v r hv hr
    refine ⟨?_, ⟨r, [], by dsimp only [readEv]; rw [sub_sz_eq N _ hv hN]⟩, ?_⟩
    · apply suffixes_cons
      · simp only [localOK]
        refine ⟨by rw [sub_sz_eq N _ hv hN]; omega, ?_⟩
        intro bs h1 h2
        exact absurd (hr bs h1) h2
      · exact suffixes_nil _ trivial
    · intro pre off count r1 post h hne
      cases pre with
      | nil => exact absurd rfl hne
      | cons a pre =>
        simp only [List.cons_append, List.cons.injEq] at h
        have := congrArg List.length h.2
        simp at this
        omega
  have hwin : ∀ (v : Vars σ τ D) (f : Nat) (bs : List Byte) (fd : σ) (en : Nat),
      v.input_fixup ≤ N →
      safe_read sys f v.xstate.src_fd v.errno (sub_sz N v.input_fixup)
        = some (.bytes bs, fd, en) →
      add_sz bs.length v.input_fixup = bs.length + v.input_fixup ∧
      bs.length + v.input_fixup ≤ N := by
    intro v f bs fd en hv hr
    have := safe_read_bounded sys hb f _ _ _ _ _ _ hr
    rw [sub_sz_eq N _ hv hN] at this
    exact ⟨add_sz_eq _ _ (by omega), by omega⟩
  have hfirst : ∀ (v : Vars σ τ D) (f : Nat) (bs : List Byte) (fd : σ) (en : Nat)
      (ievs tail : List Event) (ex : InnerExit) (v3 : Vars σ τ D),
      v.input_fixup ≤ N →
      safe_read sys f v.xstate.src_fd v.errno (sub_sz N v.input_fixup)
        = some (.bytes bs, fd, en) →
      bs.length ≠ 0 →
      decode_loop sys Z B out f (window v bs) (atDecode v fd en bs) = some (ex, v3, ievs) →
      Suffixes (localOK Z N out) tail →
      (ex = .done → ∃ r2 rest2, tail = .read 0 N r2 :: rest2) →
      (ex ≠ .done → tail = []) →
      Suffixes (localOK Z N out) (readEv N v (.bytes bs) :: (ievs ++ tail)) := by
    intro v f bs fd en ievs tail ex v3 hv hr hbs hd htail h1 h2
    obtain ⟨w1, w2⟩ := hwin v f bs fd en hv hr
    obtain ⟨l1, l2, -⟩ := decode_loop_local sys Z B N out f _ _ _ hd
      (by dsimp only; omega) tail htail h1 h2
    dsimp only at l1 l2
    apply suffixes_cons
    · simp only [localOK]
      refine ⟨by rw [sub_sz_eq N _ hv hN]; omega, ?_⟩
      intro bs1 hb1 _
      simp only [ReadResult.bytes.injEq] at hb1
      subst hb1
      obtain ⟨o, rs, d, p, rest, hrest⟩ := l2 (by omega)
      exact ⟨_, o, rs, d, p, rest, hrest, rfl, w1⟩
    · exact l1
  apply read_loop_induct sys Z B N out
  · intro f v e fd en _ hv
    exact hone v (.error e) hv (fun bs h => by cases h)
  · intro f v bs fd en _ hbs hv
    exact hone v (.bytes bs) hv (fun bs1 h => by cases h; exact hbs)
  · intro f v bs fd en v3 evs hr hbs hd hv
    have h := hfirst v f bs fd en evs [] _ v3 hv hr hbs hd (suffixes_nil _ trivial)
      (fun h => by cases h) (fun _ => rfl)
    rw [List.append_nil] at h
    refine ⟨h, ⟨_, _, by dsimp only [readEv]; rw [sub_sz_eq N _ hv hN]⟩, ?_⟩
    intro pre off count r post hsplit hne
    cases pre with
    | nil => exact absurd rfl hne
    | cons a pre =>
      simp only [List.cons_append, List.cons.injEq] at hsplit
      have hmem : Event.read off count r ∈ evs := by rw [hsplit.2]; simp
      have := decode_loop_no_read sys Z B out f _ _ _ hd _ hmem
      cases this
  · intro f v bs fd en v3 evs hr hbs hd hv
    have h := hfirst v f bs fd en evs [] _ v3 hv hr hbs hd (suffixes_nil _ trivial)
      (fun h => by cases h) (fun _ => rfl)
    rw [List.append_nil] at h
    refine ⟨h, ⟨_, _, by dsimp only [readEv]; rw [sub_sz_eq N _ hv hN]⟩, ?_⟩
    intro pre off count r post hsplit hne
    cases pre with
    | nil => exact absurd rfl hne
    | cons a pre =>
      simp only [List.cons_append, List.cons.injEq] at hsplit
      have hmem : Event.read off count r ∈ evs := by rw [hsplit.2]; simp
      have := decode_loop_no_read sys Z B out f _ _ _ hd _ hmem
      cases this
  · intro f v bs fd en v3 evs q hr hbs hd _ ih hv
    have hfix : v3.input_fixup = 0 := (decode_loop_frame sys Z B out f _ _ _ hd).2.2.2.2
    obtain ⟨i1, ⟨r2, rest2, i2⟩, i3⟩ := ih (by rw [hfix]; omega)
    rw [hfix, Nat.sub_zero] at i2
    have h := hfirst v f bs fd en evs q.2.2 _ v3 hv hr hbs hd i1
      (fun _ => ⟨r2, rest2, i2⟩) (fun h => absurd rfl h)
    refine ⟨h, ⟨_, _, by dsimp only [readEv]; rw [sub_sz_eq N _ hv hN]⟩, ?_⟩
    intro pre off count r post hsplit hne
    cases pre with
    | nil => exact absurd rfl hne
    | cons a pre =>
      simp only [List.cons_append, List.cons.injEq] at hsplit
      obtain ⟨pre2, -, hq⟩ := split_append_right isRead evs q.2.2 pre post
        (.read off count r) (decode_loop_no_read sys Z B out f _ _ _ hd) rfl hsplit.2
      cases pre2 with
      | nil =>
        rw [i2] at hq
        simp only [List.nil_append, List.cons.injEq, Event.read.injEq] at hq
        exact ⟨hq.1.1.symm, hq.1.2.1.symm⟩
      | cons b pre2 => exact i3 _ off count r post hq (by simp)

end local_structure

/-! ## The input region -/

section input_region

variable {σ τ D : Type} (sys : Sys σ τ) (Z : Zstd D) (B : Build)

/-- The calls of a session: what follows each of them, the first read,
the reads after it. -/
theorem unpack_local (hn1 : 1 ≤ Z.ZSTD_DStreamInSize)
    (hn : Z.ZSTD_DStreamInSize + 1023 < SIZE_MOD) (hb : SourceBounded sys)
    (f : Nat) (xstate : transformer_state_t σ τ) (errno : Nat)
    (q : Outcome Int × transformer_state_t σ τ × List Event)
    (h : unpack_zstd_stream sys Z B f xstate errno = some q) :
    Suffixes (localOK Z (roundupsize Z.ZSTD_DStreamInSize 1024)
      (roundupsize Z.ZSTD_DStreamOutSize 1024)) q.2.2 ∧
    (∀ off count r post, q.2.2 = .read off count r :: post →
      off = if xstate.signature_skipped then 4 else 0) ∧
    (∀ pre off count r post, q.2.2 = pre ++ .read off count r :: post → pre ≠ [] →
      off = 0 ∧ count = roundupsize Z.ZSTD_DStreamInSize 1024) := by
  rcases unpack_cases sys Z B f xstate errno q h with ⟨-, hq⟩ | ⟨dctx, v1, -, hr, -⟩
  · rw [hq]
    refine ⟨suffixes_nil _ trivial, ?_, ?_⟩
    · intro off count r post h1
      simp at h1
    · intro pre off count r post h1
      simp at h1
  · obtain ⟨s1, s2, s3, s4, -⟩ := roundupsize_spec Z.ZSTD_DStreamInSize hn
    have hfix : (initVars Z B xstate errno dctx).input_fixup
        ≤ roundupsize Z.ZSTD_DStreamInSize 1024 := by
      dsimp only
      split <;> omega
    obtain ⟨l1, ⟨r, rest, l2⟩, l3⟩ := read_loop_local sys Z B _ _ hb s4 f _ _ hr hfix
    dsimp only at l1 l2 l3
    refine ⟨l1, ?_, l3⟩
    intro off count r1 post h1
    rw [l2] at h1
    simp only [List.cons.injEq, Event.read.injEq] at h1
    exact h1.1.1.symm

/-- C10, as the code has it. With `n >= 1` the engine-recommended input
size, `n + 1023` not overflowing, and a source that never delivers more
than it is asked for: `in_allocsize = roundupsize(n, 1024)` is the least
multiple of 1024 that is at least `n`; in every session, for both values
of `signature_skipped`, every read has destination offset plus requested
count equal to `in_allocsize` (the subtraction does not underflow), the
offset being `4` or `0` for the first read and `0` for every later one;
every decode step gets an output window with `pos = 0` and
`size = out_allocsize` and an input window with `pos < size` and
`size <= in_allocsize`; the step that follows a read that delivered
bytes has `pos = 0` and `size =` bytes read plus offset; a step that
follows the write of the step before it is on the same window, at the
position that step left, which is below `size`.  When the source ends
and the engine progresses, the run does return. -/
theorem unpack_input_region (hn1 : 1 ≤ Z.ZSTD_DStreamInSize)
    (hn : Z.ZSTD_DStreamInSize + 1023 < SIZE_MOD) (hb : SourceBounded sys)
    (xstate : transformer_state_t σ τ) (errno : Nat) :
    (Z.ZSTD_DStreamInSize ≤ roundupsize Z.ZSTD_DStreamInSize 1024 ∧
      roundupsize Z.ZSTD_DStreamInSize 1024 % 1024 = 0 ∧
      ∀ m, m % 1024 = 0 → Z.ZSTD_DStreamInSize ≤ m →
        roundupsize Z.ZSTD_DStreamInSize 1024 ≤ m) ∧
    (∀ f q, unpack_zstd_stream sys Z B f xstate errno = some q →
      (∀ pre off count r post, q.2.2 = pre ++ .read off count r :: post →
        off + count = roundupsize Z.ZSTD_DStreamInSize 1024 ∧
        off ≤ roundupsize Z.ZSTD_DStreamInSize 1024 ∧
        count = sub_sz (roundupsize Z.ZSTD_DStreamInSize 1024) off ∧
        (pre = [] → off = if xstate.signature_skipped then 4 else 0) ∧
        (pre ≠ [] → off = 0)) ∧
      (∀ pre input output result dst pos post,
        q.2.2 = pre ++ .step input output result dst pos :: post →
        output = { size := roundupsize Z.ZSTD_DStreamOutSize 1024, pos := 0 } ∧
        input.pos < input.size ∧
        input.size ≤ roundupsize Z.ZSTD_DStreamInSize 1024) ∧
      (∀ pre off count bs input output result dst pos post,
        q.2.2 = pre ++ .read off count (.bytes bs) ::
          .step input output result dst pos :: post →
        input.pos = 0 ∧ input.size = bs.length + off ∧
        off + bs.length ≤ roundupsize Z.ZSTD_DStreamInSize 1024) ∧
      (∀ pre input output result dst pos w input2 output2 result2 dst2 pos2 post,
        q.2.2 = pre ++ .step input output result dst pos :: .write w ::
          .step input2 output2 result2 dst2 pos2 :: post →
        input2 = { input with pos := pos } ∧ pos < input.size ∧ w = dst)) ∧
    (∀ (μ : σ → Nat) (ν : D → ZSTD_inBuffer → Nat),
      SourceEnds sys μ → EngineProgresses Z ν →
      ∃ f0 q, ∀ f, f0 ≤ f → unpack_zstd_stream sys Z B f xstate errno = some q) := by
  obtain ⟨s1, s2, s3, s4, s5⟩ := roundupsize_spec Z.ZSTD_DStreamInSize hn
  refine ⟨⟨s1, s2, s5⟩, ?_, ?_⟩
  · intro f q h
    obtain ⟨l1, l2, l3⟩ := unpack_local sys Z B hn1 hn hb f xstate errno q h
    refine ⟨?_, ?_, ?_, ?_⟩
    · intro pre off count r post hsplit
      have hloc := l1 pre _ hsplit
      simp only [localOK] at hloc
      have hsum := hloc.1
      refine ⟨hsum, by omega, ?_, ?_, ?_⟩
      · rw [sub_sz_eq _ _ (by omega) s4]
        omega
      · intro hpre
        rw [hpre] at hsplit
        exact l2 off count r post hsplit
      · intro hpre
        exact (l3 pre off count r post hsplit hpre).1
    · intro pre input output result dst pos post hsplit
      have hloc := l1 pre _ hsplit
      simp only [localOK] at hloc
      exact ⟨hloc.1, hloc.2.1, hloc.2.2.1⟩
    · intro pre off count bs input output result dst pos post hsplit
      have hloc := l1 pre _ hsplit
      simp only [localOK] at hloc
      have hstep := l1 (pre ++ [.read off count (.bytes bs)])
        (.step input output result dst pos :: post) (by rw [hsplit]; simp)
      simp only [localOK] at hstep
      by_cases hbs : bs.length = 0
      · exfalso
        rcases unpack_shape sys Z B f xstate errno q h with ⟨-, hq⟩ | ⟨pre0, last, e1, e2, -⟩
        · rw [hq] at hsplit
          simp at hsplit
        · rw [e1] at hsplit
          obtain ⟨hpost, -, -⟩ := split_last (calm Z) pre0 pre _ last _ e2
            (by simp [calm, hbs]) hsplit
          cases hpost
      · obtain ⟨i, o, rs, d, p, rest1, hrest, hp, hsz⟩ := hloc.2 bs rfl hbs
        simp only [List.cons.injEq, Event.step.injEq] at hrest
        obtain ⟨⟨rfl, -⟩, -⟩ := hrest
        refine ⟨hp, hsz, ?_⟩
        have := hstep.2.2.1
        omega
    · intro pre input output result dst pos w input2 output2 result2 dst2 pos2 post hsplit
      have hloc := l1 pre _ hsplit
      simp only [localOK] at hloc
      cases he : Z.ZSTD_isError result with
      | true =>
        have := hloc.2.2.2.1 he
        cases this
      | false =>
        obtain ⟨rest1, hr, halt⟩ := hloc.2.2.2.2 he
        simp only [List.cons.injEq, Event.write.injEq] at hr
        obtain ⟨hw, hr1⟩ := hr
        rcases halt with hnil | ⟨hlt, o2, rs2, d2, p2, rest2, hstep⟩ | ⟨-, r2, rest2, hread⟩
        · rw [hnil] at hr1
          cases hr1
        · rw [hstep] at hr1
          simp only [List.cons.injEq, Event.step.injEq] at hr1
          exact ⟨hr1.1.1, hlt, hw⟩
        · rw [hread] at hr1
          cases hr1
  · intro μ ν hsrc heng
    exact unpack_zstd_stream_terminates sys Z B μ ν hsrc heng xstate errno

end input_region

/-! ## Signature reinjection -/

section reinjection

variable {σ τ D : Type} (sys : Sys σ τ) (Z : Zstd D) (B : Build) (inn out : Nat)

theorem transformer_write_withSkip (junk : Nat → Byte) (b : Bool)
    (x : transformer_state_t σ τ) (buf : List Byte) :
    transformer_write sys junk { x with signature_skipped := b } buf =
      ((transformer_write sys junk x buf).1,
        { (transformer_write sys junk x buf).2 with signature_skipped := b }) := by
  unfold transformer_write
  dsimp only
  split
  · split <;> rfl
  · split <;> rfl

theorem xtransformer_write_withSkip (junk : Nat → Byte) (b : Bool)
    (x : transformer_state_t σ τ) (buf : List Byte) :
    xtransformer_write sys junk { x with signature_skipped := b } buf =
      ((xtransformer_write sys junk x buf).1,
        { (xtransformer_write sys junk x buf).2 with signature_skipped := b }) := by
  unfold xtransformer_write
  rw [transformer_write_withSkip]
  rcases transformer_write sys junk x buf with ⟨o, x1⟩
  cases o with
  | abort => rfl
  | ret n =>
    dsimp only
    split <;> rfl

/-- The decode loop does not look at `signature_skipped`. -/
theorem decode_loop_withSkip (b : Bool) :
    ∀ f input (v : Vars σ τ D),
      decode_loop sys Z B out f input (withSkip b v) =
        (decode_loop sys Z B out f input v).map fun q => (q.1, withSkip b q.2.1, q.2.2) := by
  intro f
  induction f with
  | zero => intro input v; rfl
  | succ f ih =>
    intro input v
    by_cases hlt : input.pos < input.size
    · cases he : Z.ZSTD_isError (stepRes Z out input v).result with
      | true =>
        rw [decode_loop_error sys Z B out f input v hlt he,
          decode_loop_error sys Z B out f input (withSkip b v) hlt he]
        rfl
      | false =>
        have hx := xtransformer_write_withSkip sys B.junk b v.xstate (stepRes Z out input v).dst
        rcases hw : xtransformer_write sys B.junk v.xstate (stepRes Z out input v).dst
          with ⟨o, x⟩
        rw [hw] at hx
        cases o with
        | abort =>
          rw [decode_loop_abort sys Z B out f input v x hlt he hw,
            decode_loop_abort sys Z B out f input (withSkip b v)
              { x with signature_skipped := b } hlt he hx]
          rfl
        | ret n =>
          rw [decode_loop_cont sys Z B out f input v x n hlt he hw,
            decode_loop_cont sys Z B out f input (withSkip b v)
              { x with signature_skipped := b } n hlt he hx]
          have := ih { input with pos := (stepRes Z out input v).pos }
            (afterWrite Z B out input v x)
          have e : afterWrite Z B out input (withSkip b v) { x with signature_skipped := b }
              = withSkip b (afterWrite Z B out input v x) := rfl
          erw [this]
          cases decode_loop sys Z B out f { input with pos := (stepRes Z out input v).pos }
            (afterWrite Z B out input v x) <;> rfl
    · rw [decode_loop_done sys Z B out f input v hlt,
        decode_loop_done sys Z B out f input (withSkip b v) hlt]
      rfl

/-- The read loop does not look at `signature_skipped`. -/
theorem read_loop_withSkip (b : Bool) :
    ∀ f (v : Vars σ τ D),
      read_loop sys Z B inn out f (withSkip b v) =
        (read_loop sys Z B inn out f v).map fun q => (q.1, withSkip b q.2.1, q.2.2) := by
  intro f
  induction f with
  | zero => intro v; rfl
  | succ f ih =>
    intro v
    cases hr : safe_read sys f v.xstate.src_fd v.errno (sub_sz inn v.input_fixup) with
    | none =>
      have h1 : read_loop sys Z B inn out (f + 1) v = none := by simp [read_loop, hr]
      have h2 : read_loop sys Z B inn out (f + 1) (withSkip b v) = none := by
        simp [read_loop, withSkip, hr]
      rw [h1, h2]
      rfl
    | some r =>
      obtain ⟨rr, fd, en⟩ := r
      have hr1 : safe_read sys f (withSkip b v).xstate.src_fd (withSkip b v).errno
          (sub_sz inn (withSkip b v).input_fixup) = some (rr, fd, en) := hr
      cases rr with
      | error e =>
        rw [read_loop_error sys Z B inn out f v e fd en hr,
          read_loop_error sys Z B inn out f (withSkip b v) e fd en hr1]
        rfl
      | bytes bs =>
        by_cases hbs : bs.length = 0
        · rw [read_loop_eof sys Z B inn out f v bs fd en hr hbs,
            read_loop_eof sys Z B inn out f (withSkip b v) bs fd en hr1 hbs]
          rfl
        · have hd1 := decode_loop_withSkip sys Z B out b f (window v bs) (atDecode v fd en bs)
          have e1 : atDecode (withSkip b v) fd en bs = withSkip b (atDecode v fd en bs) := rfl
          have e2 : window (withSkip b v) bs = window v bs := rfl
          cases hd : decode_loop sys Z B out f (window v bs) (atDecode v fd en bs) with
          | none =>
            rw [hd] at hd1
            have h1 : read_loop sys Z B inn out (f + 1) v = none := by
              simp only [read_loop, hr, hbs, if_false, hd]
            have h2 : read_loop sys Z B inn out (f + 1) (withSkip b v) = none := by
              simp only [read_loop, hr1, hbs, if_false]
              erw [hd1]
              rfl
            rw [h1, h2]
            rfl
          | some d =>
            obtain ⟨ex, v3, evs⟩ := d
            rw [hd] at hd1
            simp only [Option.map_some'] at hd1
            rw [← e1, ← e2] at hd1
            cases ex with
            | aborted =>
              rw [read_loop_aborted sys Z B inn out f v bs fd en v3 evs hr hbs hd,
                read_loop_aborted sys Z B inn out f (withSkip b v) bs fd en _ evs hr1 hbs hd1]
              rfl
            | has_error =>
              rw [read_loop_has_error sys Z B inn out f v bs fd en v3 evs hr hbs hd,
                read_loop_has_error sys Z B inn out f (withSkip b v) bs fd en _ evs hr1 hbs
                  hd1]
              rfl
            | done =>
              rw [read_loop_cont sys Z B inn out f v bs fd en v3 evs hr hbs hd,
                read_loop_cont sys Z B inn out f (withSkip b v) bs fd en _ evs hr1 hbs hd1,
                ih v3]
              cases read_loop sys Z B inn out f v3 <;> rfl

end reinjection

section reinjection_run

variable {τ D : Type} (write : τ → List Byte → Int × τ) (Z : Zstd D) (B : Build)

theorem u32_bytes_length (b : Bool) (v : Nat) : (u32_bytes b v).length = 4 := by
  cases b <;> rfl

theorem chunkSys_bounded : SourceBounded (chunkSys write) := by
  intro fd count bs h
  simp only [chunkSys, ReadResult.bytes.injEq] at h
  rw [← h, List.length_take]
  omega

theorem chunkSys_ends : SourceEnds (chunkSys write) List.length := by
  intro fd count
  refine ⟨?_, ?_⟩
  · intro h
    simp [chunkSys] at h
  · intro bs h hne
    simp only [chunkSys, ReadResult.bytes.injEq] at h
    have hlen : bs.length ≠ 0 := fun h0 => hne (List.length_eq_zero.mp h0)
    rw [← h, List.length_take] at hlen
    simp only [chunkSys, List.length_drop]
    omega

theorem take_length_ne_zero (l : List Byte) (n : Nat) (h : l ≠ []) (hn : 0 < n) :
    (l.take n).length ≠ 0 := by
  cases l with
  | nil => exact absurd rfl h
  | cons a l => simp [List.length_take]; omega

/-- The first refill with the signature skipped leaves the input region,
the window and the source as the first refill of the untouched stream
does. -/
theorem first_refill (junkRegion magic rest : List Byte) (N : Nat)
    (hm : magic.length = 4) (hN : 4 ≤ N) :
    memcpy (memcpy junkRegion 0 magic) 4 (rest.take (N - 4))
      = memcpy (memcpy junkRegion 0 magic) 0 ((magic ++ rest).take N) ∧
    add_sz (rest.take (N - 4)).length 4 = add_sz ((magic ++ rest).take N).length 0 ∧
    rest.drop (N - 4) = (magic ++ rest).drop N := by
  have h1 : (magic ++ rest).take N = magic ++ rest.take (N - 4) := by
    rw [List.take_append_eq_append_take, List.take_of_length_le (by omega), hm]
  have h2 : (magic ++ rest).drop N = rest.drop (N - 4) := by
    rw [List.drop_append_eq_append_drop, List.drop_of_length_le (by omega), hm]
    simp
  refine ⟨?_, ?_, h2.symm⟩
  · rw [h1]
    unfold memcpy
    simp only [List.take_zero, List.nil_append, Nat.zero_add, List.length_append, hm]
    rw [List.take_left' hm]
  · rw [h1]
    unfold add_sz
    simp only [List.length_append, hm]
    congr 1
    omega

/-- The read loop from variables that differ as those of the stripped
stream with the signature skipped differ from those of the untouched
stream. -/
theorem read_loop_reinjection_core (N out : Nat) (magic rest : List Byte)
    (hm : magic.length = 4) (hrest : rest ≠ []) (hN : 1024 ≤ N) (hNlt : N < SIZE_MOD)
    (vA vB : Vars (List Byte) τ D)
    (hfA : vA.input_fixup = 0) (hfB : vB.input_fixup = 4)
    (hsA : vA.xstate.src_fd = magic ++ rest) (hsB : vB.xstate.src_fd = rest)
    (hwin : window vB (rest.take (N - 4)) = window vA ((magic ++ rest).take N))
    (hat : atDecode vB (rest.drop (N - 4)) vB.errno (rest.take (N - 4))
      = withSkip true (atDecode vA ((magic ++ rest).drop N) vA.errno
          ((magic ++ rest).take N))) :
    ∀ f,
      read_loop (chunkSys write) Z B N out f vB
      = (read_loop (chunkSys write) Z B N out f vA).map
        fun q => (q.1, withSkip true q.2.1,
          .read 4 (N - 4) (.bytes (rest.take (N - 4))) :: q.2.2.tail) := by
  have hA0 : sub_sz N 0 = N := by rw [sub_sz_eq N 0 (by omega) hNlt]; rfl
  have hB4 : sub_sz N 4 = N - 4 := sub_sz_eq N 4 (by omega) hNlt
  intro f
  cases f with
  | zero => rfl
  | succ f =>
    cases f with
    | zero =>
      rw [read_loop_read_none (chunkSys write) Z B N out 0 vA rfl,
        read_loop_read_none (chunkSys write) Z B N out 0 vB rfl]
      rfl
    | succ g =>
      have hrA : safe_read (chunkSys write) (g + 1) vA.xstate.src_fd vA.errno
          (sub_sz N vA.input_fixup)
          = some (.bytes ((magic ++ rest).take N), (magic ++ rest).drop N, vA.errno) := by
        rw [hfA, hA0, hsA]
        exact safe_read_bytes _ g _ _ _ _ _ rfl
      have hrB : safe_read (chunkSys write) (g + 1) vB.xstate.src_fd vB.errno
          (sub_sz N vB.input_fixup)
          = some (.bytes (rest.take (N - 4)), rest.drop (N - 4), vB.errno) := by
        rw [hfB, hB4, hsB]
        exact safe_read_bytes _ g _ _ _ _ _ rfl
      have hbA : ((magic ++ rest).take N).length ≠ 0 :=
        take_length_ne_zero _ _ (by
          intro h
          have := congrArg List.length h
          simp [hm] at this) (by omega)
      have hbB : (rest.take (N - 4)).length ≠ 0 := take_length_ne_zero _ _ hrest (by omega)
      have hevB : ∀ r, readEv N vB r = Event.read 4 (N - 4) r := by
        intro r
        simp only [readEv, hfB, hB4]
      have hdec : decode_loop (chunkSys write) Z B out (g + 1)
          (window vB (rest.take (N - 4)))
          (atDecode vB (rest.drop (N - 4)) vB.errno (rest.take (N - 4)))
          = (decode_loop (chunkSys write) Z B out (g + 1)
              (window vA ((magic ++ rest).take N))
              (atDecode vA ((magic ++ rest).drop N) vA.errno ((magic ++ rest).take N))).map
              fun q => (q.1, withSkip true q.2.1, q.2.2) := by
        rw [hat, hwin]
        exact decode_loop_withSkip (chunkSys write) Z B out true (g + 1) _ _
      cases hd : decode_loop (chunkSys write) Z B out (g + 1)
        (window vA ((magic ++ rest).take N))
        (atDecode vA ((magic ++ rest).drop N) vA.errno ((magic ++ rest).take N)) with
      | none =>
        rw [hd] at hdec
        rw [read_loop_decode_none (chunkSys write) Z B N out (g + 1) vA _ _ _ hrA hbA hd,
          read_loop_decode_none (chunkSys write) Z B N out (g + 1) vB _ _ _ hrB hbB hdec]
        rfl
      | some dr =>
        obtain ⟨ex, v3, evs⟩ := dr
        rw [hd] at hdec
        simp only [Option.map_some'] at hdec
        cases ex with
        | aborted =>
          rw [read_loop_aborted (chunkSys write) Z B N out (g + 1) vA _ _ _ v3 evs hrA hbA hd,
            read_loop_aborted (chunkSys write) Z B N out (g + 1) vB _ _ _ _ evs hrB hbB hdec]
          simp only [Option.map_some', List.tail_cons, hevB]
        | has_error =>
          rw [read_loop_has_error (chunkSys write) Z B N out (g + 1) vA _ _ _ v3 evs hrA hbA
              hd,
            read_loop_has_error (chunkSys write) Z B N out (g + 1) vB _ _ _ _ evs hrB hbB
              hdec]
          simp only [Option.map_some', List.tail_cons, hevB]
          rfl
        | done =>
          rw [read_loop_cont (chunkSys write) Z B N out (g + 1) vA _ _ _ v3 evs hrA hbA hd,
            read_loop_cont (chunkSys write) Z B N out (g + 1) vB _ _ _ _ evs hrB hbB hdec,
            read_loop_withSkip (chunkSys write) Z B N out true (g + 1) v3]
          cases read_loop (chunkSys write) Z B N out (g + 1) v3 with
          | none => rfl
          | some q => simp only [Option.map_some', List.tail_cons, hevB]

/-- The read loop of the stripped stream with the signature skipped,
against that of the untouched stream. -/
theorem read_loop_reinjection (hn1 : 1 ≤ Z.ZSTD_DStreamInSize)
    (hn : Z.ZSTD_DStreamInSize + 1023 < SIZE_MOD)
    (rest : List Byte) (hrest : rest ≠ [])
    (x : transformer_state_t (List Byte) τ) (errno : Nat) (d : D) (out : Nat) (f : Nat) :
    read_loop (chunkSys write) Z B (roundupsize Z.ZSTD_DStreamInSize 1024) out f
      (initVars Z B (strippedState x rest) errno d)
    = (read_loop (chunkSys write) Z B (roundupsize Z.ZSTD_DStreamInSize 1024) out f
      (initVars Z B (untouchedState x (u32_bytes B.bigEndian Z.ZSTD_MAGIC ++ rest))
        errno d)).map
      fun q => (q.1, withSkip true q.2.1,
        .read 4 (roundupsize Z.ZSTD_DStreamInSize 1024 - 4)
          (.bytes (rest.take (roundupsize Z.ZSTD_DStreamInSize 1024 - 4))) :: q.2.2.tail) := by
  obtain ⟨s1, s2, -, s4, -⟩ := roundupsize_spec Z.ZSTD_DStreamInSize hn
  have hN : 1024 ≤ roundupsize Z.ZSTD_DStreamInSize 1024 := by omega
  have hm := u32_bytes_length B.bigEndian Z.ZSTD_MAGIC
  obtain ⟨r1, r2, r3⟩ := first_refill
    ((List.range (roundupsize Z.ZSTD_DStreamInSize 1024)).map B.junk)
    (u32_bytes B.bigEndian Z.ZSTD_MAGIC) rest (roundupsize Z.ZSTD_DStreamInSize 1024) hm
    (by omega)
  apply read_loop_reinjection_core write Z B (roundupsize Z.ZSTD_DStreamInSize 1024) out
    (u32_bytes B.bigEndian Z.ZSTD_MAGIC) rest hm hrest hN s4
  · rfl
  · rfl
  · rfl
  · rfl
  · simp only [window, initVars, untouchedState, strippedState, if_true,
      Bool.false_eq_true, if_false, r1, r2]
  · simp only [atDecode, initVars, withSkip, untouchedState, strippedState, if_true,
      Bool.false_eq_true, if_false, r1, r3]

/-- A run of the read loop starts with a read. -/
theorem read_loop_head {σ : Type} (sys : Sys σ τ) (inn out : Nat) :
    ∀ f (v : Vars σ τ D) q, read_loop sys Z B inn out f v = some q →
      ∃ off count r rest, q.2.2 = .read off count r :: rest := by
  apply read_loop_induct sys Z B inn out
  · intro f v e fd en _; exact ⟨_, _, _, _, rfl⟩
  · intro f v bs fd en _ _; exact ⟨_, _, _, _, rfl⟩
  · intro f v bs fd en v3 evs _ _ _; exact ⟨_, _, _, _, rfl⟩
  · intro f v bs fd en v3 evs _ _ _; exact ⟨_, _, _, _, rfl⟩
  · intro f v bs fd en v3 evs q _ _ _ _ _; exact ⟨_, _, _, _, rfl⟩

theorem unpack_reinjection_obs (hn1 : 1 ≤ Z.ZSTD_DStreamInSize)
    (hn : Z.ZSTD_DStreamInSize + 1023 < SIZE_MOD)
    (rest : List Byte) (hrest : rest ≠ [])
    (x : transformer_state_t (List Byte) τ) (errno : Nat) (f : Nat) :
    (unpack_zstd_stream (chunkSys write) Z B f (strippedState x rest) errno).map observation =
      (unpack_zstd_stream (chunkSys write) Z B f
        (untouchedState x (u32_bytes B.bigEndian Z.ZSTD_MAGIC ++ rest)) errno).map
        observation := by
  cases hc : Z.ZSTD_createDStream with
  | none =>
    simp only [unpack_zstd_stream, hc, Option.map_some']
    rfl
  | some d =>
    have hre := read_loop_reinjection write Z B hn1 hn rest hrest x errno d
      (roundupsize Z.ZSTD_DStreamOutSize 1024) f
    have e1 : unpack_zstd_stream (chunkSys write) Z B f (strippedState x rest) errno
        = (read_loop (chunkSys write) Z B (roundupsize Z.ZSTD_DStreamInSize 1024)
            (roundupsize Z.ZSTD_DStreamOutSize 1024) f
            (initVars Z B (strippedState x rest) errno d)).map
            fun q => (q.1, q.2.1.xstate, q.2.2) := by
      simp only [unpack_zstd_stream, hc, unpack_zstd_stream_inner]
    have e2 : unpack_zstd_stream (chunkSys write) Z B f
          (untouchedState x (u32_bytes B.bigEndian Z.ZSTD_MAGIC ++ rest)) errno
        = (read_loop (chunkSys write) Z B (roundupsize Z.ZSTD_DStreamInSize 1024)
            (roundupsize Z.ZSTD_DStreamOutSize 1024) f
            (initVars Z B (untouchedState x (u32_bytes B.bigEndian Z.ZSTD_MAGIC ++ rest))
              errno d)).map
            fun q => (q.1, q.2.1.xstate, q.2.2) := by
      simp only [unpack_zstd_stream, hc, unpack_zstd_stream_inner]
    rw [e1, e2, hre]
    cases hq : read_loop (chunkSys write) Z B (roundupsize Z.ZSTD_DStreamInSize 1024)
        (roundupsize Z.ZSTD_DStreamOutSize 1024) f
        (initVars Z B (untouchedState x (u32_bytes B.bigEndian Z.ZSTD_MAGIC ++ rest))
          errno d) with
    | none => rfl
    | some q =>
      obtain ⟨off, count, r, tl, hev⟩ := read_loop_head (τ := τ) Z B (chunkSys write) _ _ f _ _ hq
      simp only [Option.map_some', observation, withSkip, hev, List.tail_cons, steps, writes]

/-- C3. Signature reinjection: for a stream that is the 4 bytes of
`ZSTD_MAGIC` in host byte order followed by at least one byte, read
from a source that delivers `min(requested, remaining)` bytes, the
session on the stream without its first 4 bytes with
`signature_skipped` set and the session on the untouched stream with
`signature_skipped` clear have, for every fuel, a result together or
not at all, and then the same decode steps on the same input windows,
the same chunks written, the same sink and the same value returned.
In the session with the signature skipped the first read is at offset 4
of the input region for the rest of it, every later read at offset 0
for the whole region.  When the engine progresses both sessions return. -/
theorem unpack_signature_reinjection (hn1 : 1 ≤ Z.ZSTD_DStreamInSize)
    (hn : Z.ZSTD_DStreamInSize + 1023 < SIZE_MOD)
    (rest : List Byte) (hrest : rest ≠ [])
    (x : transformer_state_t (List Byte) τ) (errno : Nat) :
    (∀ f,
      (unpack_zstd_stream (chunkSys write) Z B f (strippedState x rest) errno).map observation =
        (unpack_zstd_stream (chunkSys write) Z B f
          (untouchedState x (u32_bytes B.bigEndian Z.ZSTD_MAGIC ++ rest)) errno).map
          observation) ∧
    (∀ f q, unpack_zstd_stream (chunkSys write) Z B f (strippedState x rest) errno = some q →
      (∀ off count r post, q.2.2 = .read off count r :: post →
        off = 4 ∧ off + count = roundupsize Z.ZSTD_DStreamInSize 1024) ∧
      (∀ pre off count r post, q.2.2 = pre ++ .read off count r :: post → pre ≠ [] →
        off = 0 ∧ count = roundupsize Z.ZSTD_DStreamInSize 1024)) ∧
    (∀ (ν : D → ZSTD_inBuffer → Nat), EngineProgresses Z ν →
      ∃ f0 qA qB, ∀ f, f0 ≤ f →
        unpack_zstd_stream (chunkSys write) Z B f
          (untouchedState x (u32_bytes B.bigEndian Z.ZSTD_MAGIC ++ rest)) errno = some qA ∧
        unpack_zstd_stream (chunkSys write) Z B f (strippedState x rest) errno = some qB ∧
        observation qB = observation qA) := by
  refine ⟨unpack_reinjection_obs write Z B hn1 hn rest hrest x errno, ?_, ?_⟩
  · intro f q h
    obtain ⟨l1, l2, l3⟩ := unpack_local (chunkSys write) Z B hn1 hn (chunkSys_bounded write)
      f _ errno q h
    refine ⟨?_, l3⟩
    intro off count r post hev
    have hoff := l2 off count r post hev
    have hloc := l1 [] _ hev
    simp only [localOK] at hloc
    exact ⟨hoff, hloc.1⟩
  · intro ν heng
    obtain ⟨fA, qA, hA⟩ := unpack_zstd_stream_terminates (chunkSys write) Z B List.length ν
      (chunkSys_ends write) heng
      (untouchedState x (u32_bytes B.bigEndian Z.ZSTD_MAGIC ++ rest)) errno
    obtain ⟨fB, qB, hB⟩ := unpack_zstd_stream_terminates (chunkSys write) Z B List.length ν
      (chunkSys_ends write) heng (strippedState x rest) errno
    refine ⟨max fA fB, qA, qB, fun f hf => ?_⟩
    have h1 := hA f (le_trans (le_max_left _ _) hf)
    have h2 := hB f (le_trans (le_max_right _ _) hf)
    refine ⟨h1, h2, ?_⟩
    have := unpack_reinjection_obs write Z B hn1 hn rest hrest x errno f
    rw [h1, h2] at this
    simpa using this

end reinjection_run

/-! ## Concatenated frames -/

section frames

variable {σ D : Type} (sys : Sys σ (List Byte)) (Z : Zstd D) (B : Build) (out : Nat)

theorem adv_nil (v : Vars σ (List Byte) D) : adv B v v.dctx v.last_result [] = v := by
  cases v with
  | mk xstate errno dctx in_buff total last_result input_fixup =>
    cases xstate
    simp [adv]

theorem adv_adv (v : Vars σ (List Byte) D) (d1 d2 : D) (l1 l2 : Nat) (o1 o2 : List Byte) :
    adv B (adv B v d1 l1 o1) d2 l2 o2 = adv B v d2 l2 (o1 ++ o2) := by
  cases hd : B.desktop <;> simp [adv, hd, List.append_assoc, Int.add_assoc]

theorem xtransformer_write_stream (hwr : ∀ d bs, sys.write d bs = ((bs.length : Int), d ++ bs))
    (junk : Nat → Byte) (x : transformer_state_t σ (List Byte)) (bs : List Byte)
    (hmax : x.mem_output_size_max = 0) (hlen : bs.length < 2 ^ 63) :
    xtransformer_write sys junk x bs =
      (.ret (bs.length : Int), { x with dst_fd := x.dst_fd ++ bs }) := by
  have h1 : bs.length % SIZE_MOD = bs.length := Nat.mod_eq_of_lt (by unfold SIZE_MOD; omega)
  have h2 : ssize_of bs.length = (bs.length : Int) := ssize_of_small _ hlen
  simp [xtransformer_write, transformer_write, hmax, hwr, h1, h2]

theorem option_map_append_nil {α β : Type} (o : Option (α × β × List Event)) :
    o.map (fun q => (q.1, q.2.1, [] ++ q.2.2)) = o := by
  cases o with
  | none => rfl
  | some q => rfl

theorem option_map_prepend {α β : Type} (o : Option (α × β × List Event))
    (a b : List Event) :
    (o.map (fun q => (q.1, q.2.1, b ++ q.2.2))).map (fun q => (q.1, q.2.1, a ++ q.2.2))
      = o.map (fun q => (q.1, q.2.1, (a ++ b) ++ q.2.2)) := by
  cases o with
  | none => rfl
  | some q => simp [List.append_assoc]

/-- Within one frame: from a position of a window the decode loop runs
until the frame is complete or the window is consumed, then goes on from
there. -/
theorem frame_progress (hwr : ∀ d bs, sys.write d bs = ((bs.length : Int), d ++ bs))
    (d0 : D) :
    ∀ d r p, Decodes Z out d0 d r p →
      ∀ (W : List Byte) (pos : Nat) (v : Vars σ (List Byte) D) (T S : List Byte),
        v.dctx = d → v.xstate.mem_output_size_max = 0 → 0 ≤ v.total →
        v.total + (p.length : Int) < 2 ^ 63 →
        pos ≤ W.length → W.drop pos ++ T = r ++ S →
        ∃ k pos1 d1 lr o evs,
          pos ≤ pos1 ∧ pos1 ≤ W.length ∧ (writes evs).flatten = o ∧
          (∀ f, decode_loop sys Z B out (k + f) { src := W, size := W.length, pos := pos } v =
            (decode_loop sys Z B out f { src := W, size := W.length, pos := pos1 }
              (adv B v d1 lr o)).map fun q => (q.1, q.2.1, evs ++ q.2.2)) ∧
          ((pos1 - pos = r.length ∧ d1 = d0 ∧ lr = 0 ∧ o = p) ∨
           (pos1 = W.length ∧ pos1 - pos < r.length ∧
            Decodes Z out d0 d1 (r.drop (pos1 - pos)) (p.drop o.length) ∧
            o ++ p.drop o.length = p)) := by
  intro d r p h
  induction h with
  | intro d r p hr hstep hrec ih =>
    intro W pos v T S hd hmax h0 htot hpos hcons
    by_cases hlt : pos < W.length
    · have hs := hstep { src := W, size := W.length, pos := pos } T S rfl hlt hcons
      have hrc := hrec { src := W, size := W.length, pos := pos } T S rfl hlt hcons
      have hi := ih { src := W, size := W.length, pos := pos } T S rfl hlt hcons
      rw [← hd] at hs hrc hi
      generalize hres : Z.ZSTD_decompressStream v.dctx { size := out, pos := 0 }
        { src := W, size := W.length, pos := pos } = res at hs hrc hi
      dsimp only at hs hrc hi
      obtain ⟨s1, s2, s3, s4, s5, s6, s7⟩ := hs
      have hdl : res.dst.length ≤ p.length := by
        have := congrArg List.length s5
        simp only [List.length_append, List.length_drop] at this
        omega
      have hw := xtransformer_write_stream sys hwr B.junk v.xstate res.dst hmax
        (by
          have : (p.length : Int) < 2 ^ 63 := by omega
          have h2 : p.length < 2 ^ 63 := by exact_mod_cast this
          omega)
      have haw : afterWrite Z B out { src := W, size := W.length, pos := pos } v
          { v.xstate with dst_fd := v.xstate.dst_fd ++ res.dst }
          = adv B v res.dctx res.result res.dst := by
        simp only [afterWrite, stepRes, hres, adv]
        cases hdesk : B.desktop
        · simp
        · simp only [if_true]
          rw [ssize_of_size_of_int_add v.total res.dst.length h0 (by omega)]
      have hcont : ∀ f, decode_loop sys Z B out (f + 1)
          { src := W, size := W.length, pos := pos } v =
          (decode_loop sys Z B out f { src := W, size := W.length, pos := res.pos }
            (adv B v res.dctx res.result res.dst)).map fun q => (q.1, q.2.1,
              [Event.step { src := W, size := W.length, pos := pos } { size := out, pos := 0 }
                res.result res.dst res.pos, Event.write res.dst] ++ q.2.2) := by
        intro f
        have := decode_loop_cont sys Z B out f { src := W, size := W.length, pos := pos } v
          { v.xstate with dst_fd := v.xstate.dst_fd ++ res.dst } (res.dst.length : Int)
          hlt (by simp only [stepRes, hres]; exact s1) (by simp only [stepRes, hres]; exact hw)
        rw [this, haw]
        simp only [stepRes, stepEv, hres]
        rfl
      by_cases hc : res.pos - pos = r.length
      · obtain ⟨c1, c2, c3⟩ := s6 hc
        refine ⟨1, res.pos, res.dctx, res.result, res.dst,
          [Event.step { src := W, size := W.length, pos := pos } { size := out, pos := 0 }
            res.result res.dst res.pos, Event.write res.dst], s2, s3, ?_, ?_, ?_⟩
        · simp [writes]
        · intro f
          rw [Nat.add_comm]
          exact hcont f
        · exact Or.inl ⟨hc, c3, c1, c2⟩
      · have hclt : res.pos - pos < r.length := by omega
        have hcons2 : W.drop res.pos ++ T = r.drop (res.pos - pos) ++ S := by
          have e := congrArg (List.drop (res.pos - pos)) hcons
          rw [List.drop_append_of_le_length (by simp only [List.length_drop]; omega),
            List.drop_append_of_le_length (by omega), List.drop_drop] at e
          have e2 : pos + (res.pos - pos) = res.pos := by omega
          rw [e2] at e
          exact e
        obtain ⟨k, pos1, d1, lr, o, evs, i1, i2, i3, i4, i5⟩ :=
          hi hclt W res.pos (adv B v res.dctx res.result res.dst) T S rfl hmax
            (by simp only [adv]; split <;> omega)
            (by
              simp only [adv, List.length_drop]
              split <;> omega)
            s3 hcons2
        refine ⟨k + 1, pos1, d1, lr, res.dst ++ o,
          [Event.step { src := W, size := W.length, pos := pos } { size := out, pos := 0 }
            res.result res.dst res.pos, Event.write res.dst] ++ evs,
          by omega, i2, ?_, ?_, ?_⟩
        · rw [writes_append, List.flatten_append, i3]
          simp [writes]
        · intro f
          have e1 : k + 1 + f = (k + f) + 1 := by omega
          rw [e1, hcont (k + f), i4 f, adv_adv, option_map_prepend]
        · rcases i5 with ⟨j1, j2, j3, j4⟩ | ⟨j1, j2, j3, j4⟩
          · left
            refine ⟨?_, j2, j3, ?_⟩
            · simp only [List.length_drop] at j1
              omega
            · rw [j4]
              exact s5
          · right
            refine ⟨j1, ?_, ?_, ?_⟩
            · simp only [List.length_drop] at j2
              omega
            · rw [List.drop_drop, List.drop_drop] at j3
              have e1 : res.pos - pos + (pos1 - res.pos) = pos1 - pos := by omega
              rw [e1] at j3
              rw [List.length_append]
              exact j3
            · rw [List.drop_drop] at j4
              rw [List.length_append, List.append_assoc]
              have e2 : p.drop res.dst.length = o ++ p.drop (res.dst.length + o.length) := j4.symm
              rw [← e2]
              exact s5
    · have hp : pos = W.length := by omega
      refine ⟨0, pos, v.dctx, v.last_result, [], [], le_refl _, hpos, rfl, ?_, ?_⟩
      · intro f
        rw [adv_nil, Nat.zero_add, option_map_append_nil]
      · right
        refine ⟨hp, ?_, ?_, ?_⟩
        · have : 0 < r.length := List.length_pos.mpr hr
          omega
        · rw [Nat.sub_self, hd]
          exact Decodes.intro d r p hr hstep hrec
        · simp

/-- Within one window: the decode loop runs through the frames that end
in the window and is left when the window is consumed, at the end of the
last frame or inside a frame. -/
theorem window_progress (hwr : ∀ d bs, sys.write d bs = ((bs.length : Int), d ++ bs))
    (d0 : D) :
    ∀ (fs : List (List Byte × List Byte)), (∀ fp ∈ fs, Decodes Z out d0 d0 fp.1 fp.2) →
      ∀ d r p, Decodes Z out d0 d r p →
      ∀ (W : List Byte) (pos : Nat) (v : Vars σ (List Byte) D) (T : List Byte),
        v.dctx = d → v.xstate.mem_output_size_max = 0 → 0 ≤ v.total →
        v.total + (p.length : Int) + ((fs.map Prod.snd).flatten.length : Int) < 2 ^ 63 →
        pos ≤ W.length → W.drop pos ++ T = r ++ (fs.map Prod.fst).flatten →
        ∃ k d1 lr evs,
          decode_loop sys Z B out k { src := W, size := W.length, pos := pos } v =
            some (.done, adv B v d1 lr (writes evs).flatten, evs) ∧
          ((T = [] ∧ lr = 0 ∧ (writes evs).flatten = p ++ (fs.map Prod.snd).flatten) ∨
           (∃ (r1 p1 : List Byte) (fs1 : List (List Byte × List Byte)),
              Decodes Z out d0 d1 r1 p1 ∧ (∀ fp ∈ fs1, Decodes Z out d0 d0 fp.1 fp.2) ∧
              T = r1 ++ (fs1.map Prod.fst).flatten ∧
              (writes evs).flatten ++ (p1 ++ (fs1.map Prod.snd).flatten)
                = p ++ (fs.map Prod.snd).flatten)) := by
  intro fs
  induction fs with
  | nil =>
    intro _ d r p hdec W pos v T hd hmax h0 htot hpos hcons
    obtain ⟨k, pos1, d1, lr, o, evs, i1, i2, i3, i4, i5⟩ :=
      frame_progress sys Z B out hwr d0 d r p hdec W pos v T [] hd hmax h0
        (by simp at htot; omega) hpos hcons
    rcases i5 with ⟨j1, j2, j3, j4⟩ | ⟨j1, j2, j3, j4⟩
    · have hrem : W.drop pos1 ++ T = [] := by
        have e := congrArg (List.drop r.length) hcons
        rw [List.drop_append_of_le_length (by simp only [List.length_drop]; omega),
          List.drop_drop, List.drop_left] at e
        have e2 : pos + r.length = pos1 := by omega
        rw [e2] at e
        simpa using e
      have hW : W.drop pos1 = [] := (List.append_eq_nil.mp hrem).1
      have hT : T = [] := (List.append_eq_nil.mp hrem).2
      have hge : ¬ pos1 < W.length := by
        have := List.drop_eq_nil_iff.mp hW
        omega
      refine ⟨k + 1, d1, lr, evs, ?_, Or.inl ⟨hT, j3, by rw [i3, j4]; simp⟩⟩
      rw [i4 1, decode_loop_done sys Z B out 0 _ _ hge, i3]
      simp
    · have hge : ¬ pos1 < W.length := by omega
      refine ⟨k + 1, d1, lr, evs, ?_, Or.inr ⟨_, _, [], j3, by simp, ?_, ?_⟩⟩
      · rw [i4 1, decode_loop_done sys Z B out 0 _ _ hge, i3]
        simp
      · have e := congrArg (List.drop (pos1 - pos)) hcons
        rw [List.drop_append_of_le_length (by simp only [List.length_drop]; omega),
          List.drop_append_of_le_length (by omega),
          List.drop_of_length_le (by simp only [List.length_drop]; omega)] at e
        simpa using e
      · rw [i3]
        simp only [List.map_nil, List.flatten_nil, List.append_nil]
        exact j4
  | cons fp fs ih =>
    intro hall d r p hdec W pos v T hd hmax h0 htot hpos hcons
    simp only [List.map_cons, List.flatten_cons, List.length_append, Nat.cast_add] at htot
    obtain ⟨k, pos1, d1, lr, o, evs, i1, i2, i3, i4, i5⟩ :=
      frame_progress sys Z B out hwr d0 d r p hdec W pos v T
        ((List.map Prod.fst (fp :: fs)).flatten) hd hmax h0 (by omega) hpos hcons
    rcases i5 with ⟨j1, j2, j3, j4⟩ | ⟨j1, j2, j3, j4⟩
    · have hrem : W.drop pos1 ++ T = fp.1 ++ (fs.map Prod.fst).flatten := by
        have e := congrArg (List.drop r.length) hcons
        rw [List.drop_append_of_le_length (by simp only [List.length_drop]; omega),
          List.drop_drop, List.drop_left] at e
        have e2 : pos + r.length = pos1 := by omega
        rw [e2] at e
        simpa using e
      obtain ⟨k2, d2, lr2, evs2, g1, g2⟩ :=
        ih (fun q hq => hall q (List.mem_cons_of_mem _ hq)) d0 fp.1 fp.2
          (hall fp (List.mem_cons_self _ _)) W pos1 (adv B v d1 lr o) T
          (by rw [j2]; rfl) hmax
          (by simp only [adv]; split <;> omega)
          (by
            rw [j4]
            simp only [adv]
            split <;> omega)
          i2 hrem
      refine ⟨k + k2, d2, lr2, evs ++ evs2, ?_, ?_⟩
      · rw [i4 k2, g1]
        simp only [Option.map_some', adv_adv, writes_append, List.flatten_append, i3]
      · rw [writes_append, List.flatten_append, i3, j4]
        rcases g2 with ⟨t1, t2, t3⟩ | ⟨r1, p1, fs1, t1, t2, t3, t4⟩
        · left
          refine ⟨t1, t2, ?_⟩
          rw [t3]
          simp
        · right
          refine ⟨r1, p1, fs1, t1, t2, t3, ?_⟩
          rw [List.append_assoc, t4]
          simp
    · have hge : ¬ pos1 < W.length := by omega
      refine ⟨k + 1, d1, lr, evs, ?_, Or.inr ⟨_, _, fp :: fs, j3, hall, ?_, ?_⟩⟩
      · rw [i4 1, decode_loop_done sys Z B out 0 _ _ hge, i3]
        simp
      · have e := congrArg (List.drop (pos1 - pos)) hcons
        rw [List.drop_append_of_le_length (by simp only [List.length_drop]; omega),
          List.drop_append_of_le_length (by omega),
          List.drop_of_length_le (by simp only [List.length_drop]; omega)] at e
        simpa using e
      · rw [i3, ← List.append_assoc, j4]

end frames

section chunks

variable {D : Type} (Z : Zstd D) (B : Build) (N out : Nat)

theorem decodes_ne_nil (d0 d : D) (r p : List Byte) (h : Decodes Z out d0 d r p) : r ≠ [] := by
  cases h with
  | intro _ _ _ hr _ _ => exact hr

theorem scriptSys_write (d bs : List Byte) :
    scriptSys.write d bs = ((bs.length : Int), d ++ bs) := rfl

theorem window_at_zero {σ τ : Type} (v : Vars σ τ D) (c : List Byte)
    (hfix : v.input_fixup = 0) (hc : c.length < SIZE_MOD) :
    window v c = { src := c, size := c.length, pos := 0 } := by
  have h1 : add_sz c.length 0 = c.length := add_sz_eq _ _ (by omega)
  simp only [window, hfix, h1, memcpy, List.take_zero, List.nil_append, Nat.zero_add]
  rw [List.take_left]

/-- The read loop on a source that delivers the chunks `cs`: the frames
still to come are decoded, their plaintext `P` is written, and the
session ends at end-of-input with the last status `0`. -/
theorem chunks_progress (d0 : D) (hN : N < SIZE_MOD) :
    ∀ (cs : List (List Byte)), (∀ c ∈ cs, c ≠ [] ∧ c.length ≤ N) →
      ∀ (v : Vars (List ReadResult) (List Byte) D) (P : List Byte),
        v.xstate.src_fd = cs.map ReadResult.bytes → v.input_fixup = 0 →
        v.xstate.mem_output_size_max = 0 → 0 ≤ v.total →
        v.total + (P.length : Int) < 2 ^ 63 →
        ((cs = [] ∧ v.last_result = 0 ∧ P = []) ∨
         (∃ (r p : List Byte) (fs : List (List Byte × List Byte)),
            Decodes Z out d0 v.dctx r p ∧ (∀ fp ∈ fs, Decodes Z out d0 d0 fp.1 fp.2) ∧
            cs.flatten = r ++ (fs.map Prod.fst).flatten ∧
            P = p ++ (fs.map Prod.snd).flatten)) →
        ∃ k v1 evs,
          read_loop scriptSys Z B N out k v =
            some (.ret (if B.desktop then v.total + (P.length : Int) else 0), v1, evs) ∧
          (writes evs).flatten = P ∧
          v1.xstate = { v.xstate with src_fd := [], dst_fd := v.xstate.dst_fd ++ P } := by
  intro cs
  induction cs with
  | nil =>
    intro _ v P hsrc hfix hmax h0 htot halt
    rcases halt with ⟨-, hl, hP⟩ | ⟨r, p, fs, hdec, -, hflat, -⟩
    · have hr : safe_read scriptSys 1 v.xstate.src_fd v.errno (sub_sz N v.input_fixup)
          = some (.bytes [], [], v.errno) := by
        rw [hsrc]
        exact safe_read_bytes scriptSys 0 _ _ _ _ _ rfl
      refine ⟨2, afterRead v [] v.errno [], [readEv N v (.bytes [])], ?_, ?_, ?_⟩
      · rw [read_loop_eof scriptSys Z B N out 1 v [] [] v.errno hr rfl]
        simp [finish, hl, hP]
      · simp [writes, hP]
      · simp [hP]
    · exfalso
      have hne := decodes_ne_nil Z out d0 _ r p hdec
      have := congrArg List.length hflat
      simp at this
      have : 0 < r.length := List.length_pos.mpr hne
      omega
  | cons c cs ih =>
    intro hcs v P hsrc hfix hmax h0 htot halt
    rcases halt with ⟨hnil, -, -⟩ | ⟨r, p, fs, hdec, hall, hflat, hP⟩
    · cases hnil
    · obtain ⟨hcne, hclen⟩ := hcs c (List.mem_cons_self _ _)
      have hclen0 : c.length ≠ 0 := fun h => hcne (List.length_eq_zero.mp h)
      have hr : safe_read scriptSys 1 v.xstate.src_fd v.errno (sub_sz N v.input_fixup)
          = some (.bytes c, cs.map ReadResult.bytes, v.errno) := by
        rw [hsrc]
        exact safe_read_bytes scriptSys 0 _ _ _ _ _ rfl
      have hwin := window_at_zero v c hfix (by omega)
      have hPlen : P.length = p.length + (fs.map Prod.snd).flatten.length := by
        rw [hP, List.length_append]
      obtain ⟨k, d1, lr, evs, hdl, halt2⟩ :=
        window_progress scriptSys Z B out scriptSys_write d0 fs hall v.dctx r p hdec
          c 0 (atDecode v (cs.map ReadResult.bytes) v.errno c) cs.flatten rfl hmax h0
          (by
            have : v.total + (P.length : Int) < 2 ^ 63 := htot
            rw [hPlen] at this
            push_cast at this
            show v.total + (p.length : Int) + _ < _
            omega)
          (Nat.zero_le _)
          (by rw [List.drop_zero, ← hflat, List.flatten_cons])
      have hsplit : ∃ P1, P = (writes evs).flatten ++ P1 ∧
          ((cs = [] ∧ lr = 0 ∧ P1 = []) ∨
           (∃ (r1 p1 : List Byte) (fs1 : List (List Byte × List Byte)),
              Decodes Z out d0 d1 r1 p1 ∧ (∀ fp ∈ fs1, Decodes Z out d0 d0 fp.1 fp.2) ∧
              cs.flatten = r1 ++ (fs1.map Prod.fst).flatten ∧
              P1 = p1 ++ (fs1.map Prod.snd).flatten)) := by
        rcases halt2 with ⟨t1, t2, t3⟩ | ⟨r1, p1, fs1, t1, t2, t3, t4⟩
        · refine ⟨[], by rw [hP, t3]; simp, Or.inl ⟨?_, t2, rfl⟩⟩
          cases cs with
          | nil => rfl
          | cons c1 cs1 =>
            exfalso
            have hc1 := (hcs c1 (by simp)).1
            have := congrArg List.length t1
            simp at this
            exact hc1 this.1
        · exact ⟨p1 ++ (fs1.map Prod.snd).flatten, by rw [hP, t4],
            Or.inr ⟨r1, p1, fs1, t1, t2, t3, rfl⟩⟩
      obtain ⟨P1, hPP, halt3⟩ := hsplit
      have hPlen2 : (P.length : Int) = ((writes evs).flatten.length : Int) + (P1.length : Int) := by
        rw [hPP, List.length_append]
        push_cast
        rfl
      obtain ⟨k1, v4, evs1, hrl, hw1, hx1⟩ :=
        ih (fun c1 hc1 => hcs c1 (List.mem_cons_of_mem _ hc1))
          (adv B (atDecode v (cs.map ReadResult.bytes) v.errno c) d1 lr (writes evs).flatten)
          P1 rfl rfl hmax
          (by simp only [adv]; split <;> omega)
          (by simp only [adv]; split <;> omega)
          halt3
      have hr2 := safe_read_mono scriptSys 1 _ _ _ _ hr (max (max 1 k) k1)
        (le_trans (le_max_left _ _) (le_max_left _ _))
      have hdl2 := decode_loop_mono scriptSys Z B out k _ _ _ hdl (max (max 1 k) k1)
        (le_trans (le_max_right _ _) (le_max_left _ _))
      have hrl2 := read_loop_mono scriptSys Z B N out k1 _ _ hrl (max (max 1 k) k1)
        (le_max_right _ _)
      rw [← hwin] at hdl2
      refine ⟨max (max 1 k) k1 + 1, v4, readEv N v (.bytes c) :: (evs ++ evs1), ?_, ?_, ?_⟩
      · rw [read_loop_cont scriptSys Z B N out _ v c _ _ _ evs hr2 hclen0 hdl2, hrl2]
        simp only [Option.map_some', adv]
        cases hdesk : B.desktop
        · simp
        · simp only [if_true]
          rw [hPlen2]
          congr 3
          omega
      · simp only [writes, writes_append, List.flatten_append, hw1]
        exact hPP.symm
      · rw [hx1, hPP]
        simp [adv, List.append_assoc]

end chunks

section concatenation

variable {σ τ D : Type} (sys : Sys σ τ) (Z : Zstd D) (B : Build)

/-- C4. Multi-frame concatenation.  A decode step that returns status
`0` (which is not an error) does not end the session: its output is
written, and then, unless that write aborts, the next call is a decode
step on the same window at the position the step left when that window
has unconsumed bytes, and a read at offset `0` for the whole input
region when it has none.  Consequently, for an engine that, handed the
output window of the driver (a fresh window of the whole output region
at every step, which its output does not exceed), decodes the frame
`f1` to `p1` and the frame `f2` to `p2` from a fresh context, and a
source that delivers `f1 ++ f2` in any non-empty chunks that fit the
input region, the session (signature not skipped, destination taking
every byte, plaintext below `2 ^ 63` bytes) returns for every fuel from
some bound on, with success (the byte total with accounting, `0`
without), having written `p1 ++ p2` to the destination. -/
theorem unpack_concatenated_frames (hn1 : 1 ≤ Z.ZSTD_DStreamInSize)
    (hn : Z.ZSTD_DStreamInSize + 1023 < SIZE_MOD) (h0 : Z.ZSTD_isError 0 = false) :
    (∀ (xstate : transformer_state_t σ τ) (errno f : Nat)
        (q : Outcome Int × transformer_state_t σ τ × List Event),
      SourceBounded sys → unpack_zstd_stream sys Z B f xstate errno = some q →
      ∀ pre input output dst pos post,
        q.2.2 = pre ++ .step input output 0 dst pos :: post →
        ∃ post1, post = .write dst :: post1 ∧
          ((post1 = [] ∧ q.1 = .abort) ∨
           (pos < input.size ∧ ∃ o2 rs2 d2 p2 post2,
              post1 = .step { input with pos := pos } o2 rs2 d2 p2 :: post2) ∨
           (¬ pos < input.size ∧ ∃ r2 post2,
              post1 = .read 0 (roundupsize Z.ZSTD_DStreamInSize 1024) r2 :: post2))) ∧
    (∀ (d0 : D) (f1 p1 f2 p2 : List Byte) (cs : List (List Byte))
        (x : transformer_state_t (List ReadResult) (List Byte)) (errno : Nat),
      Z.ZSTD_createDStream = some d0 →
      Decodes Z (roundupsize Z.ZSTD_DStreamOutSize 1024) d0 d0 f1 p1 →
      Decodes Z (roundupsize Z.ZSTD_DStreamOutSize 1024) d0 d0 f2 p2 →
      cs.flatten = f1 ++ f2 →
      (∀ c ∈ cs, c ≠ [] ∧ c.length ≤ roundupsize Z.ZSTD_DStreamInSize 1024) →
      p1.length + p2.length < 2 ^ 63 →
      x.signature_skipped = false → x.mem_output_size_max = 0 →
      x.src_fd = cs.map ReadResult.bytes →
      ∃ f0 evs,
        (∀ f, f0 ≤ f →
          unpack_zstd_stream scriptSys Z B f x errno =
            some (.ret (if B.desktop then ((p1.length + p2.length : Nat) : Int) else 0),
              { x with src_fd := [], dst_fd := x.dst_fd ++ (p1 ++ p2) }, evs)) ∧
        (writes evs).flatten = p1 ++ p2) := by
  refine ⟨?_, ?_⟩
  · intro xstate errno f q hb h pre input output dst pos post hsplit
    obtain ⟨l1, -, -⟩ := unpack_local sys Z B hn1 hn hb f xstate errno q h
    have hloc := l1 pre _ hsplit
    simp only [localOK] at hloc
    obtain ⟨post1, hp1, halt⟩ := hloc.2.2.2.2 h0
    refine ⟨post1, hp1, ?_⟩
    rcases halt with hnil | hstep | hread
    · left
      refine ⟨hnil, ?_⟩
      rcases unpack_shape sys Z B f xstate errno q h with ⟨-, hq⟩ | ⟨pre0, last, e1, -, e3⟩
      · rw [hq] at hsplit
        simp at hsplit
      · have hlast : q.2.2.getLast? = some (.write dst) := by
          rw [hsplit, hp1, hnil]
          simp
        rw [e1, getLast_snoc] at hlast
        simp only [Option.some.injEq] at hlast
        subst hlast
        rcases e3 with ⟨_, _, _, t1, -⟩ | ⟨_, _, _, t1, -⟩ | ⟨t1, -⟩ | ⟨_, -, t2, -⟩
        · cases t1
        · cases t1
        · simp [isErrorStep] at t1
        · exact t2
    · exact Or.inr (Or.inl hstep)
    · exact Or.inr (Or.inr hread)
  · intro d0 f1 p1 f2 p2 cs x errno hc hd1 hd2 hflat hcs hp hx1 hx2 hx3
    obtain ⟨-, -, -, s4, -⟩ := roundupsize_spec Z.ZSTD_DStreamInSize hn
    obtain ⟨k, v1, evs, hrl, hw, hx⟩ :=
      chunks_progress Z B (roundupsize Z.ZSTD_DStreamInSize 1024)
        (roundupsize Z.ZSTD_DStreamOutSize 1024) d0 s4 cs hcs
        (initVars Z B x errno d0) (p1 ++ p2) hx3 (by simp [hx1]) hx2 (le_refl _)
        (by
          simp only [List.length_append, zero_add]
          exact_mod_cast hp)
        (Or.inr ⟨f1, p1, [(f2, p2)], hd1, by simpa using hd2, by simpa using hflat, by simp⟩)
    refine ⟨k, evs, ?_, hw⟩
    intro f hf
    have := read_loop_mono scriptSys Z B _ _ k _ _ hrl f hf
    simp only [unpack_zstd_stream, hc, unpack_zstd_stream_inner]
    rw [this]
    simp only [Option.map_some', hx, List.length_append, zero_add, Nat.cast_add]

end concatenation

/-! ## The statements at concrete sessions -/

section concrete

set_option maxRecDepth 100000 in
/-- C8 does not hold as stated: a session ended by a failed read, a
session ended by truncation and a session ended by a decoder error
return the same value. -/
theorem failure_values_coincide :
    unpack_zstd_stream failSys toyZstd toyBuild 5 failState 0 =
      some (.ret (-1), failState, [.read 0 1024 (.error 5)]) ∧
    unpack_zstd_stream bytesSys toyZstd toyBuild 5 (toyState false [7] 0) 0 =
      some (.ret (-1), { toyState false [] 0 with dst_fd := [7] },
        [.read 0 1024 (.bytes [7]),
         .step { src := [7], size := 1, pos := 0 } { size := 1024, pos := 0 } 1 [7] 1,
         .write [7], .read 0 1024 (.bytes [])]) ∧
    unpack_zstd_stream bytesSys toyZstd toyBuild 5 (toyState false [255] 0) 0 =
      some (.ret (-1), toyState false [] 0,
        [.read 0 1024 (.bytes [255]),
         .step { src := [255], size := 1, pos := 0 } { size := 1024, pos := 0 }
           (SIZE_MOD - 1) [] 1]) ∧
    toyZstd.ZSTD_isError (SIZE_MOD - 1) = true := by
  refine ⟨rfl, rfl, rfl, rfl⟩

theorem safe_read_retries_witness :
    (∃ errno1,
      safe_read scriptSys 3
          [.error EINTR, .error EINTR, .bytes [1, 2, 3], .bytes [9]] 7 16
        = some (.bytes [1, 2, 3], [.bytes [9]], errno1) ∧
      (∀ e, ReadResult.bytes [1, 2, 3] = .error e →
        e ≠ EINTR ∧ errno1 = e ∧ (ReadResult.bytes [1, 2, 3]).n = -1) ∧
      (∀ bs, ReadResult.bytes [1, 2, 3] = .bytes bs →
        (ReadResult.bytes [1, 2, 3]).n = bs.length ∧
        ((ReadResult.bytes [1, 2, 3]).n = 0 ↔ bs = []) ∧
        errno1 = if 2 = 0 then 7 else 0)) ∧
    (∀ f, f ≤ 2 →
      safe_read scriptSys f
          [.error EINTR, .error EINTR, .bytes [1, 2, 3], .bytes [9]] 7 16 = none) ∧
    (∀ (f : Nat) (fd : List ReadResult) (en cnt e : Nat) (fd2 : List ReadResult) (en2 : Nat),
      safe_read scriptSys f fd en cnt = some (.error e, fd2, en2) → e ≠ EINTR) :=
  safe_read_retries scriptSys
    (fun i => List.drop i [.error EINTR, .error EINTR, .bytes [1, 2, 3], .bytes [9]])
    2 (.bytes [1, 2, 3]) [.bytes [9]] 7 16 3
    (by intro i hi; interval_cases i <;> rfl) rfl (by decide) (by decide)

theorem transformer_write_cap_witness :
    (toyState false [] 4).mem_output_size_max ≠ 0 ∧
    (transformer_write bytesSys toyBuild.junk (toyState false [] 4) [1, 2, 3, 4, 5]).1
      = .abort ∧
    (∃ n, (transformer_write bytesSys toyBuild.junk (toyState false [] 4) [1, 2, 3, 4]).1
      = .ret n) :=
  ⟨by decide,
   (transformer_write_cap bytesSys toyBuild.junk (toyState false [] 4) [1, 2, 3, 4, 5]
      (by decide) (by decide)).1.2 (by decide),
   (transformer_write_cap bytesSys toyBuild.junk (toyState false [] 4) [1, 2, 3, 4]
      (by decide) (by decide)).2.1 rfl⟩

theorem transformer_write_appends_witness :
    ∃ x2, transformer_write_all bytesSys toyBuild.junk (toyState false [] 10) [[1, 2], [3]]
        = (.ret [2, 1], x2) ∧
      x2.mem_output_buf = some [1, 2, 3, 0] ∧ x2.mem_output_size = 3 ∧
      x2.mem_output_size_max = 10 :=
  (transformer_write_appends bytesSys toyBuild.junk (toyState false [] 10) [] [1, 2] [[3]]
    (by decide) rfl rfl (by decide) (by decide) (by decide)).2

set_option maxRecDepth 100000 in
theorem unpack_truncated_witness :
    unpack_zstd_stream bytesSys toyZstd toyBuild 5 (toyState false [7] 0) 0 =
      some (.ret (-1), { toyState false [] 0 with dst_fd := [7] },
        [.read 0 1024 (.bytes [7]),
         .step { src := [7], size := 1, pos := 0 } { size := 1024, pos := 0 } 1 [7] 1,
         .write [7], .read 0 1024 (.bytes [])]) ∧
    ([] : List Byte).length = 0 ∧
    (Outcome.ret (-1) : Outcome Int) = .ret (-1) :=
  ⟨rfl,
   (unpack_truncated bytesSys toyZstd toyBuild (by decide) (toyState false [7] 0) 0).1 5
      (.ret (-1), { toyState false [] 0 with dst_fd := [7] },
        [.read 0 1024 (.bytes [7]),
         .step { src := [7], size := 1, pos := 0 } { size := 1024, pos := 0 } 1 [7] 1,
         .write [7], .read 0 1024 (.bytes [])])
      rfl 0 1024 [] rfl (Or.inr ⟨1, rfl, by decide⟩)⟩

set_option maxRecDepth 100000 in
theorem unpack_success_witness :
    unpack_zstd_stream bytesSys toyZstd toyBuild 5 (toyState false [7, 0] 0) 0 =
      some (.ret 2, { toyState false [] 0 with dst_fd := [7, 0] },
        [.read 0 1024 (.bytes [7, 0]),
         .step { src := [7, 0], size := 2, pos := 0 } { size := 1024, pos := 0 } 1 [7] 1,
         .write [7],
         .step { src := [7, 0], size := 2, pos := 1 } { size := 1024, pos := 0 } 0 [0] 2,
         .write [0], .read 0 1024 (.bytes [])]) ∧
    (Outcome.ret 2 : Outcome Int) = .ret (([[7], [0]].map List.length).sum : Nat) ∧
    ([7, 0] : List Byte) = write_all bytesSys (toyState false [7, 0] 0).dst_fd [[7], [0]] ∧
    write_all bytesSys (toyState false [7, 0] 0).dst_fd [[7], [0]] = [7, 0] :=
  ⟨rfl,
   ((unpack_success bytesSys toyZstd toyBuild (toyState false [7, 0] 0) 0).1 5
      (.ret 2, { toyState false [] 0 with dst_fd := [7, 0] },
        [.read 0 1024 (.bytes [7, 0]),
         .step { src := [7, 0], size := 2, pos := 0 } { size := 1024, pos := 0 } 1 [7] 1,
         .write [7],
         .step { src := [7, 0], size := 2, pos := 1 } { size := 1024, pos := 0 } 0 [0] 2,
         .write [0], .read 0 1024 (.bytes [])])
      rfl 0 1024 [] rfl rfl).2.2.2.2.1 rfl (by decide),
   (((unpack_success bytesSys toyZstd toyBuild (toyState false [7, 0] 0) 0).1 5
      (.ret 2, { toyState false [] 0 with dst_fd := [7, 0] },
        [.read 0 1024 (.bytes [7, 0]),
         .step { src := [7, 0], size := 2, pos := 0 } { size := 1024, pos := 0 } 1 [7] 1,
         .write [7],
         .step { src := [7, 0], size := 2, pos := 1 } { size := 1024, pos := 0 } 0 [0] 2,
         .write [0], .read 0 1024 (.bytes [])])
      rfl 0 1024 [] rfl rfl).2.2.2.2.2.2.2.1 rfl).1,
   rfl⟩

set_option maxRecDepth 100000 in
theorem unpack_decode_error_witness :
    unpack_zstd_stream bytesSys toyZstd toyBuild 5 (toyState false [7, 255, 8] 0) 0 =
      some (.ret (-1), { toyState false [] 0 with dst_fd := [7] },
        [.read 0 1024 (.bytes [7, 255, 8]),
         .step { src := [7, 255, 8], size := 3, pos := 0 } { size := 1024, pos := 0 } 1 [7] 1,
         .write [7],
         .step { src := [7, 255, 8], size := 3, pos := 1 } { size := 1024, pos := 0 }
           (SIZE_MOD - 1) [] 2]) ∧
    (Outcome.ret (-1) : Outcome Int) = .ret (-1) ∧
    ([7] : List Byte) = write_all bytesSys (toyState false [7, 255, 8] 0).dst_fd [[7]] ∧
    write_all bytesSys (toyState false [7, 255, 8] 0).dst_fd [[7]] = [7] :=
  ⟨rfl,
   ((unpack_decode_error bytesSys toyZstd toyBuild rfl (toyState false [7, 255, 8] 0) 0).1 5
      (.ret (-1), { toyState false [] 0 with dst_fd := [7] },
        [.read 0 1024 (.bytes [7, 255, 8]),
         .step { src := [7, 255, 8], size := 3, pos := 0 } { size := 1024, pos := 0 } 1 [7] 1,
         .write [7],
         .step { src := [7, 255, 8], size := 3, pos := 1 } { size := 1024, pos := 0 }
           (SIZE_MOD - 1) [] 2])
      rfl
      [.read 0 1024 (.bytes [7, 255, 8]),
         .step { src := [7, 255, 8], size := 3, pos := 0 } { size := 1024, pos := 0 } 1 [7] 1,
         .write [7]]
      { src := [7, 255, 8], size := 3, pos := 1 } { size := 1024, pos := 0 }
      (SIZE_MOD - 1) [] 2 [] rfl rfl).1,
   (((unpack_decode_error bytesSys toyZstd toyBuild rfl (toyState false [7, 255, 8] 0) 0).1 5
      (.ret (-1), { toyState false [] 0 with dst_fd := [7] },
        [.read 0 1024 (.bytes [7, 255, 8]),
         .step { src := [7, 255, 8], size := 3, pos := 0 } { size := 1024, pos := 0 } 1 [7] 1,
         .write [7],
         .step { src := [7, 255, 8], size := 3, pos := 1 } { size := 1024, pos := 0 }
           (SIZE_MOD - 1) [] 2])
      rfl
      [.read 0 1024 (.bytes [7, 255, 8]),
         .step { src := [7, 255, 8], size := 3, pos := 0 } { size := 1024, pos := 0 } 1 [7] 1,
         .write [7]]
      { src := [7, 255, 8], size := 3, pos := 1 } { size := 1024, pos := 0 }
      (SIZE_MOD - 1) [] 2 [] rfl rfl).2.2.2.2.2.2.1 rfl).1,
   rfl⟩

set_option maxRecDepth 100000 in
theorem unpack_failure_value_witness :
    unpack_zstd_stream failSys toyZstd toyBuild 5 failState 0 =
      some (.ret (-1), failState, [.read 0 1024 (.error 5)]) ∧
    (Outcome.ret (-1) : Outcome Int) = .ret (-1) :=
  ⟨rfl,
   ((unpack_failure_value failSys toyZstd toyBuild rfl (by decide) failState 0).1 5
      (.ret (-1), failState, [.read 0 1024 (.error 5)]) rfl).1 0 1024 5 rfl⟩

set_option maxRecDepth 100000 in
/-- C10 does not hold as stated: the second decode step on a window
is handed that window with `pos = 1`. -/
theorem later_step_pos_nonzero :
    1 ≤ toyZstd.ZSTD_DStreamInSize ∧ toyZstd.ZSTD_DStreamInSize + 1023 < SIZE_MOD ∧
    ∃ q pre input output result dst pos post,
      unpack_zstd_stream bytesSys toyZstd toyBuild 5 (toyState false [7, 0] 0) 0 = some q ∧
      q.2.2 = pre ++ Event.step input output result dst pos :: post ∧
      input.pos ≠ 0 :=
  ⟨by decide, by decide,
   (.ret 2, { toyState false [] 0 with dst_fd := [7, 0] },
      [.read 0 1024 (.bytes [7, 0]),
       .step { src := [7, 0], size := 2, pos := 0 } { size := 1024, pos := 0 } 1 [7] 1,
       .write [7],
       .step { src := [7, 0], size := 2, pos := 1 } { size := 1024, pos := 0 } 0 [0] 2,
       .write [0], .read 0 1024 (.bytes [])]),
   [.read 0 1024 (.bytes [7, 0]),
       .step { src := [7, 0], size := 2, pos := 0 } { size := 1024, pos := 0 } 1 [7] 1,
       .write [7]],
   { src := [7, 0], size := 2, pos := 1 }, { size := 1024, pos := 0 }, 0, [0], 2,
   [.write [0], .read 0 1024 (.bytes [])], rfl, rfl, by decide⟩

set_option maxRecDepth 100000 in
theorem unpack_input_region_witness :
    (1 ≤ toyZstd.ZSTD_DStreamInSize ∧ toyZstd.ZSTD_DStreamInSize + 1023 < SIZE_MOD ∧
      SourceBounded bytesSys) ∧
    ((0 : Nat) = 0 ∧ 2 = [7, 0].length + 0 ∧
      0 + [7, 0].length ≤ roundupsize toyZstd.ZSTD_DStreamInSize 1024) :=
  ⟨⟨by decide, by decide, chunkSys_bounded _⟩,
   ((unpack_input_region bytesSys toyZstd toyBuild (by decide) (by decide)
      (chunkSys_bounded _) (toyState false [7, 0] 0) 0).2.1 5
      (.ret 2, { toyState false [] 0 with dst_fd := [7, 0] },
        [.read 0 1024 (.bytes [7, 0]),
         .step { src := [7, 0], size := 2, pos := 0 } { size := 1024, pos := 0 } 1 [7] 1,
         .write [7],
         .step { src := [7, 0], size := 2, pos := 1 } { size := 1024, pos := 0 } 0 [0] 2,
         .write [0], .read 0 1024 (.bytes [])]) rfl).2.2.1
      [] 0 1024 [7, 0] { src := [7, 0], size := 2, pos := 0 } { size := 1024, pos := 0 }
      1 [7] 1
      [.write [7],
       .step { src := [7, 0], size := 2, pos := 1 } { size := 1024, pos := 0 } 0 [0] 2,
       .write [0], .read 0 1024 (.bytes [])] rfl⟩

set_option maxRecDepth 100000 in
theorem unpack_signature_reinjection_witness :
    (1 ≤ toyZstd.ZSTD_DStreamInSize ∧ toyZstd.ZSTD_DStreamInSize + 1023 < SIZE_MOD ∧
      ([7, 0] : List Byte) ≠ []) ∧
    (unpack_zstd_stream bytesSys toyZstd toyBuild 9
        (strippedState (toyState false [] 0) [7, 0]) 0).map observation =
      (unpack_zstd_stream bytesSys toyZstd toyBuild 9
        (untouchedState (toyState false [] 0)
          (u32_bytes toyBuild.bigEndian toyZstd.ZSTD_MAGIC ++ [7, 0])) 0).map observation ∧
    (unpack_zstd_stream bytesSys toyZstd toyBuild 9
        (strippedState (toyState false [] 0) [7, 0]) 0).map (fun q => (q.1, q.2.1.dst_fd))
      = some (.ret 6, [40, 181, 47, 253, 7, 0]) :=
  ⟨⟨by decide, by decide, by decide⟩,
   (unpack_signature_reinjection _ toyZstd toyBuild (by decide) (by decide) [7, 0]
      (by decide) (toyState false [] 0) 0).1 9,
   rfl⟩

theorem drop_head (src T r S : List Byte) (b : Byte) (pos : Nat) (hlt : pos < src.length)
    (h : src.drop pos ++ T = (b :: r) ++ S) : src.getD pos 0 = b := by
  rw [List.drop_eq_getElem_cons hlt] at h
  simp only [List.cons_append, List.cons.injEq] at h
  rw [List.getD_eq_getElem _ _ hlt]
  exact h.1

theorem toy_step_last (out : Nat) (hout : 0 < out) (input : ZSTD_inBuffer)
    (hb : input.src.getD input.pos 0 = 0) :
    toyZstd.ZSTD_decompressStream () { size := out, pos := 0 } input =
      { result := 0, dctx := (), dst := [0], pos := input.pos + 1 } := by
  have hb1 : input.src[input.pos]?.getD 0 = 0 := by
    rw [← List.getD_eq_getElem?_getD]; exact hb
  have ho : ¬ out ≤ 0 := by omega
  simp [toyZstd, hb1, ho]

theorem toy_step_byte (out : Nat) (hout : 0 < out) (input : ZSTD_inBuffer) (b : Byte)
    (hb : input.src.getD input.pos 0 = b) (hb0 : b ≠ 0) (hb255 : b ≠ 255) :
    toyZstd.ZSTD_decompressStream () { size := out, pos := 0 } input =
      { result := 1, dctx := (), dst := [b], pos := input.pos + 1 } := by
  have hb1 : input.src[input.pos]?.getD 0 = b := by
    rw [← List.getD_eq_getElem?_getD]; exact hb
  have ho : ¬ out ≤ 0 := by omega
  simp [toyZstd, hb1, hb0, hb255, ho]

theorem toy_decodes_last (out : Nat) (hout : 0 < out) : Decodes toyZstd out () () [0] [0] := by
  refine Decodes.intro () [0] [0] (by simp) ?_ ?_
  · intro input T S hsz hlt hcons
    have hb := drop_head input.src T [] S 0 input.pos (by omega) hcons
    rw [toy_step_last out hout input hb]
    dsimp only
    refine ⟨by decide, by omega, by omega, by simp, by simp, ?_, ?_, ?_⟩
    · intro _; exact ⟨rfl, rfl, rfl⟩
    · intro h; simp at h
    · simp only [List.length_singleton]; omega
  · intro input T S hsz hlt hcons h
    have hb := drop_head input.src T [] S 0 input.pos (by omega) hcons
    rw [toy_step_last out hout input hb] at h
    simp at h

theorem toy_decodes_cons (out : Nat) (hout : 0 < out) (b : Byte) (r : List Byte)
    (hb0 : b ≠ 0) (hb255 : b ≠ 255)
    (hr : r ≠ []) (h : Decodes toyZstd out () () r r) :
    Decodes toyZstd out () () (b :: r) (b :: r) := by
  have hlen : 0 < r.length := List.length_pos.mpr hr
  refine Decodes.intro () (b :: r) (b :: r) (by simp) ?_ ?_
  · intro input T S hsz hlt hcons
    have hb := drop_head input.src T r S b input.pos (by omega) hcons
    rw [toy_step_byte out hout input b hb hb0 hb255]
    dsimp only
    refine ⟨by decide, by omega, by omega, by simp, by simp, ?_, ?_, ?_⟩
    · intro hc
      simp only [List.length_cons] at hc
      omega
    · intro _; decide
    · simp only [List.length_singleton]; omega
  · intro input T S hsz hlt hcons _
    have hb := drop_head input.src T r S b input.pos (by omega) hcons
    rw [toy_step_byte out hout input b hb hb0 hb255]
    simpa using h

theorem unpack_concatenated_frames_witness :
    ∃ f0 evs,
      (∀ f, f0 ≤ f →
        unpack_zstd_stream scriptSys toyZstd toyBuild f
            (scriptState [.bytes [7], .bytes [0, 8], .bytes [0]]) 0 =
          some (.ret (if toyBuild.desktop then (([7, 0].length + [8, 0].length : Nat) : Int)
              else 0),
            { scriptState [.bytes [7], .bytes [0, 8], .bytes [0]] with
              src_fd := []
              dst_fd := (scriptState [.bytes [7], .bytes [0, 8], .bytes [0]]).dst_fd
                ++ ([7, 0] ++ [8, 0]) }, evs)) ∧
      (writes evs).flatten = [7, 0] ++ [8, 0] :=
  (unpack_concatenated_frames scriptSys toyZstd toyBuild (by decide) (by decide) rfl).2
    () [7, 0] [7, 0] [8, 0] [8, 0] [[7], [0, 8], [0]]
    (scriptState [.bytes [7], .bytes [0, 8], .bytes [0]]) 0 rfl
    (toy_decodes_cons _ (by decide) 7 [0] (by decide) (by decide) (by decide)
      (toy_decodes_last _ (by decide)))
    (toy_decodes_cons _ (by decide) 8 [0] (by decide) (by decide) (by decide)
      (toy_decodes_last _ (by decide)))
    rfl
    (by
      intro c hc
      simp only [List.mem_cons, List.mem_singleton, List.not_mem_nil, or_false] at hc
      rcases hc with rfl | rfl | rfl <;> exact ⟨by decide, by decide⟩)
    (by decide) rfl rfl rfl

end concrete

end Unzstd
